import Mathlib

/-!
Verification development for the per-address-space virtual memory subsystem
(`src/context/memory.rs`): grants, the dual hole map, free-range search,
mprotect/munmap splitting, copy-on-write cloning and the page-fault handler.

Shallow embedding conventions:
* `Page` and `Frame` indices, as well as `VirtualAddress`, are plain `Nat`s.
* `BTreeMap` is embedded as an association list sorted by strictly
  increasing keys; `range(..k).next_back()` is `lastLt`, `range(..=k).next_back()`
  is `lastLe`, `range(k..)` is `dropWhile` of smaller keys.
* The opaque `PageMapper` is a partial map `Nat → Option (Nat × PageFlagsM)`
  from pages to (frame, flags); allocation of page-table nodes never fails
  in the model (the frame allocator is an out-of-scope component), so
  `map_phys` is total.
* The global frame metadata array (`crate::memory`, outside this crate's
  sources) is a total function `Nat → PageInfo`.
-/

/-- `PAGE_SIZE` for x86_64, the spec's literal value. -/
def PAGE_SIZE : Nat := 4096

/-- `USER_END_OFFSET`: upper bound of the user virtual address space (x86_64). -/
def USER_END_OFFSET : Nat := 140737488355328

/-- `MMAP_MIN_DEFAULT = PAGE_SIZE`. -/
def MMAP_MIN_DEFAULT : Nat := PAGE_SIZE

/-! ## Sorted association lists: the `BTreeMap` embedding -/

/-- `BTreeMap::get`: value at key `k`, scanning the association list. -/
def lookupKey {β : Type} : List (Nat × β) → Nat → Option β
  | [], _ => none
  | e :: t, k => if e.1 = k then some e.2 else lookupKey t k

/-- `BTreeMap::insert` on a key-sorted association list: replaces the value
if the key is present, otherwise inserts at the sorted position. -/
def insertKey {β : Type} : List (Nat × β) → Nat → β → List (Nat × β)
  | [], k, v => [(k, v)]
  | e :: t, k, v =>
    if k < e.1 then (k, v) :: e :: t
    else if k = e.1 then (k, v) :: t
    else e :: insertKey t k v

/-- `BTreeMap::remove`: drop the entry with key `k` (first occurrence). -/
def eraseKey {β : Type} : List (Nat × β) → Nat → List (Nat × β)
  | [], _ => []
  | e :: t, k => if e.1 = k then t else e :: eraseKey t k

/-- In-place mutation of the value at key `k` (a `range_mut` update). -/
def updateKey {β : Type} (l : List (Nat × β)) (k : Nat) (v : β) : List (Nat × β) :=
  l.map (fun e => if e.1 = k then (k, v) else e)

/-- `range(..k).next_back()` on a key-sorted map: the greatest key `< k`. -/
def lastLt {β : Type} : List (Nat × β) → Nat → Option (Nat × β)
  | [], _ => none
  | e :: t, k => if e.1 < k then some ((lastLt t k).getD e) else none

/-- `range(..=k).next_back()` on a key-sorted map: the greatest key `≤ k`. -/
def lastLe {β : Type} : List (Nat × β) → Nat → Option (Nat × β)
  | [], _ => none
  | e :: t, k => if e.1 ≤ k then some ((lastLe t k).getD e) else none

/-- Keys strictly increasing: the `BTreeMap` representation invariant. -/
def KSorted {β : Type} (l : List (Nat × β)) : Prop :=
  l.Pairwise (fun a b => a.1 < b.1)

/-! ## Flags and providers -/

/-- `PageFlags<RmmA>`: the PTE-level flag bits this module reads and writes. -/
structure PageFlagsM where
  user : Bool
  write : Bool
  execute : Bool
deriving DecidableEq

/-- `PageFlags::write(b)`. -/
def PageFlagsM.setWrite (f : PageFlagsM) (b : Bool) : PageFlagsM :=
  { f with write := b }

/-- `PageFlags::execute(b)`. -/
def PageFlagsM.setExecute (f : PageFlagsM) (b : Bool) : PageFlagsM :=
  { f with execute := b }

/-- `MapFlags`: the syscall-level bits used by this module. -/
structure MapFlagsM where
  prot_write : Bool
  prot_exec : Bool
  map_fixed : Bool
  map_fixed_noreplace : Bool
deriving DecidableEq

/-- `page_flags(flags)`: translate `MapFlags` to PTE flags. -/
def page_flags (flags : MapFlagsM) : PageFlagsM :=
  { user := true, write := flags.prot_write, execute := flags.prot_exec }

/-- `GrantFileRef`: the file descriptor is opaque, modelled by an id. -/
structure GrantFileRefM where
  desc : Nat
  offset : Nat
  flags : MapFlagsM
deriving DecidableEq

/-- `Provider`: the backing of a grant.  The `Arc<RwLock<AddrSpace>>` of
`External` is modelled by an id resolved through an environment. -/
inductive ProviderM
  | Allocated
  | PhysBorrowed (base : Nat)
  | External (address_space : Nat) (src_base : Nat)
  | Fmap (desc : GrantFileRefM)
deriving DecidableEq

/-- Tag test used to state which grants are file-backed. -/
def ProviderM.isFmap : ProviderM → Bool
  | .Fmap _ => true
  | _ => false

/-- `GrantInfo`. -/
structure GrantInfo where
  page_count : Nat
  flags : PageFlagsM
  mapped : Bool
  provider : ProviderM
deriving DecidableEq

/-- `Grant`. -/
structure Grant where
  base : Nat
  info : GrantInfo
deriving DecidableEq

/-! ## PageSpan -/

/-- `PageSpan`: half-open page interval `[base, base+count)`. -/
structure PageSpan where
  base : Nat
  count : Nat
deriving DecidableEq

/-- `PageSpan::is_empty`. -/
def PageSpan.isEmpty (s : PageSpan) : Bool :=
  s.count = 0

/-- `PageSpan::end`: one past the last page. -/
def PageSpan.endPage (s : PageSpan) : Nat :=
  s.base + s.count

/-- `PageSpan::between`: `[start, end)`, truncating to zero if `end < start`
(the source uses `saturating_sub`; `Nat` subtraction saturates the same way). -/
def PageSpan.between (st en : Nat) : PageSpan :=
  ⟨st, en - st⟩

/-- `PageSpan::intersection`. -/
def PageSpan.intersection (s with_ : PageSpan) : PageSpan :=
  PageSpan.between (max s.base with_.base) (min s.endPage with_.endPage)

/-- `PageSpan::intersects`. -/
def PageSpan.intersects (s with_ : PageSpan) : Bool :=
  !(s.intersection with_).isEmpty

/-- `PageSpan::contains`. -/
def PageSpan.containsPage (s : PageSpan) (page : Nat) : Bool :=
  s.intersects ⟨page, 1⟩

/-- `PageSpan::before`: the piece of `s` in front of `inner` (source asserts
`s.base ≤ inner.base`; `between` saturates identically under that bound). -/
def PageSpan.beforeSpan (s inner : PageSpan) : Option PageSpan :=
  let r := PageSpan.between s.base inner.base
  if r.isEmpty then none else some r

/-- `PageSpan::after`: the piece of `s` behind `inner`. -/
def PageSpan.afterSpan (s inner : PageSpan) : Option PageSpan :=
  let r := PageSpan.between inner.endPage s.endPage
  if r.isEmpty then none else some r

/-- `PageSpan::slice`. -/
def PageSpan.slice (s inner : PageSpan) : Option PageSpan × PageSpan × Option PageSpan :=
  (s.beforeSpan inner, inner, s.afterSpan inner)

/-- The span of a grant (`Grant::span`). -/
def Grant.span (g : Grant) : PageSpan :=
  ⟨g.base, g.info.page_count⟩

/-! ## UserGrants -/

/-- `UserGrants`: the grant map (keyed by base page), the dual hole map
(keyed by virtual address, sizes in bytes), and the auxiliary `funmap`. -/
structure UserGrants where
  inner : List (Nat × GrantInfo)
  holes : List (Nat × Nat)
  funmap : List (Nat × (Nat × Nat))
deriving DecidableEq

/-- `UserGrants::new`: no grants, one hole spanning all of user space. -/
def UserGrants.new : UserGrants :=
  ⟨[], [(0, USER_END_OFFSET)], []⟩

/-- `UserGrants::contains`: the grant, if any, occupying `page`. -/
def UserGrants.contains (u : UserGrants) (page : Nat) : Option (Nat × GrantInfo) :=
  match lastLe u.inner page with
  | some (base, info) =>
    if base ≤ page ∧ page < base + info.page_count then some (base, info) else none
  | none => none

/-- `UserGrants::conflicts`: the grants intersecting `span`, in ascending
order, starting from the grant containing `span.base` when there is one. -/
def UserGrants.conflicts (u : UserGrants) (span : PageSpan) : List (Nat × GrantInfo) :=
  let start_base : Nat :=
    match u.contains span.base with
    | some (base, _) => base
    | none => span.base
  (u.inner.dropWhile (fun e => decide (e.1 < start_base))).takeWhile
    (fun e => PageSpan.intersects ⟨e.1, e.2.page_count⟩ span)

/-- `UserGrants::find_free`: first-fit scan of the hole map. -/
def UserGrants.find_free (u : UserGrants) (min page_count : Nat) : Option PageSpan :=
  match (u.holes.dropWhile (fun h => decide (h.1 + h.2 ≤ min))).find?
      (fun h =>
        let avail := if h.1 ≤ min ∧ min ≤ h.1 + h.2 then h.2 - (min - h.1) else h.2
        decide (page_count * PAGE_SIZE ≤ avail)) with
  | some h => some ⟨(max h.1 min) / PAGE_SIZE, page_count⟩
  | none => none

/-- Error codes surfaced by this module. -/
inductive KError
  | ENOMEM
  | EACCES
  | EEXIST
  | EOPNOTSUPP
deriving DecidableEq

/-- `UserGrants::find_free_at`: honour the caller's hinted base when it is
conflict-free, otherwise fall back according to the fixed-mapping flags. -/
def UserGrants.find_free_at (u : UserGrants) (min : Nat) (base : Option Nat)
    (page_count : Nat) (flags : MapFlagsM) : Except KError PageSpan :=
  match base with
  | none =>
    match u.find_free min page_count with
    | some s => .ok s
    | none => .error .ENOMEM
  | some requested_base =>
    let requested_span : PageSpan := ⟨requested_base, page_count⟩
    match u.conflicts requested_span with
    | _ :: _ =>
      if flags.map_fixed_noreplace then .error .EEXIST
      else if flags.map_fixed then .error .EOPNOTSUPP
      else
        match u.find_free min page_count with
        | some s => .ok s
        | none => .error .ENOMEM
    | [] => .ok requested_span

/-- The `previous_hole` step of `UserGrants::reserve`: look up
`range(..start_address).next_back()`; if that hole reaches past the start
of the reserved span, shrink it, and if it reaches past the end, insert
the split-off right piece. -/
def reservePrev (holes : List (Nat × Nat)) (start_address size : Nat) :
    List (Nat × Nat) :=
  match lastLt holes start_address with
  | some (hole_offset, hole_size) =>
    if hole_offset + hole_size > start_address + size then
      insertKey
        (if hole_offset + hole_size > start_address then
          updateKey holes hole_offset (start_address - hole_offset)
        else holes)
        (start_address + size) (hole_offset + hole_size - (start_address + size))
    else
      if hole_offset + hole_size > start_address then
        updateKey holes hole_offset (start_address - hole_offset)
      else holes
  | none => holes

/-- `UserGrants::reserve`: carve the span `[base, base+page_count)` (pages)
out of the hole map when a grant is inserted: handle the previous hole
(`reservePrev`), then a hole starting exactly at the span, keeping its
remainder past the span's end.  The `hole_size - size` subtraction is
`usize` arithmetic that the source relies on never underflowing (the hole
always contains the reserved span); `Nat` subtraction agrees on all such
inputs. -/
def UserGrants.reserve (holes : List (Nat × Nat)) (base page_count : Nat) :
    List (Nat × Nat) :=
  match lookupKey (reservePrev holes (base * PAGE_SIZE) (page_count * PAGE_SIZE))
      (base * PAGE_SIZE) with
  | some hole_size =>
    if hole_size - page_count * PAGE_SIZE > 0 then
      insertKey
        (eraseKey (reservePrev holes (base * PAGE_SIZE) (page_count * PAGE_SIZE))
          (base * PAGE_SIZE))
        (base * PAGE_SIZE + page_count * PAGE_SIZE)
        (hole_size - page_count * PAGE_SIZE)
    else
      eraseKey (reservePrev holes (base * PAGE_SIZE) (page_count * PAGE_SIZE))
        (base * PAGE_SIZE)
  | none => reservePrev holes (base * PAGE_SIZE) (page_count * PAGE_SIZE)

/-- The merge step of `UserGrants::unreserve`: after removing the hole that
started exactly at the freed span's end (its size is `after`), either
extend the hole that ends exactly at the span's start, or insert a new
hole covering the span plus `after`. -/
def unreserveMerge (holes1 : List (Nat × Nat)) (start_address size after : Nat) :
    List (Nat × Nat) :=
  match lastLt holes1 start_address with
  | some (hole_offset, hole_size) =>
    if hole_offset + hole_size = start_address then
      updateKey holes1 hole_offset (start_address + size - hole_offset + after)
    else insertKey holes1 start_address (size + after)
  | none => insertKey holes1 start_address (size + after)

/-- `UserGrants::unreserve`: return the span of a removed grant to the hole
map, coalescing with the holes directly before and after it. -/
def UserGrants.unreserve (holes : List (Nat × Nat)) (base page_count : Nat) :
    List (Nat × Nat) :=
  unreserveMerge
    (eraseKey holes (base * PAGE_SIZE + page_count * PAGE_SIZE))
    (base * PAGE_SIZE) (page_count * PAGE_SIZE)
    ((lookupKey holes (base * PAGE_SIZE + page_count * PAGE_SIZE)).getD 0)

/-- `UserGrants::insert`.  The source `assert!`s that `conflicts` is empty
first; that assertion is carried as a precondition by the theorems below. -/
def UserGrants.insert (u : UserGrants) (grant : Grant) : UserGrants :=
  { u with
    holes := UserGrants.reserve u.holes grant.base grant.info.page_count,
    inner := insertKey u.inner grant.base grant.info }

/-- `UserGrants::remove`: returns the removed grant (if the base was
present) together with the updated map. -/
def UserGrants.remove (u : UserGrants) (base : Nat) : Option Grant × UserGrants :=
  match lookupKey u.inner base with
  | none => (none, u)
  | some info =>
    (some ⟨base, info⟩,
     { u with
       inner := eraseKey u.inner base,
       holes := UserGrants.unreserve u.holes base info.page_count })

/-! ## The canonical hole map of a grant list

`gapsFrom pos l` lists the maximal free intervals of `[pos, USER_END_OFFSET)`
left between the (sorted, disjoint) grants of `l`.  The duality invariant of
`UserGrants` is exactly `holes = canonicalHoles inner`. -/

/-- Free gaps of `[pos, USER_END_OFFSET)` around the sorted grant list. -/
def gapsFrom : Nat → List (Nat × GrantInfo) → List (Nat × Nat)
  | pos, [] => if pos < USER_END_OFFSET then [(pos, USER_END_OFFSET - pos)] else []
  | pos, (b, i) :: rest =>
    (if pos < b * PAGE_SIZE then [(pos, b * PAGE_SIZE - pos)] else []) ++
      gapsFrom ((b + i.page_count) * PAGE_SIZE) rest

/-- The canonical hole map dual to a grant list. -/
def canonicalHoles (l : List (Nat × GrantInfo)) : List (Nat × Nat) :=
  gapsFrom 0 l

/-- Address `x` lies inside some grant of `l` (byte granularity). -/
def coveredBy (l : List (Nat × GrantInfo)) (x : Nat) : Prop :=
  ∃ e ∈ l, e.1 * PAGE_SIZE ≤ x ∧ x < (e.1 + e.2.page_count) * PAGE_SIZE

instance coveredBy.decidable (l : List (Nat × GrantInfo)) (x : Nat) :
    Decidable (coveredBy l x) := by
  unfold coveredBy; infer_instance

/-- Address `x` lies inside some hole of `h`. -/
def inHoles (h : List (Nat × Nat)) (x : Nat) : Prop :=
  ∃ e ∈ h, e.1 ≤ x ∧ x < e.1 + e.2

/-- Well-formedness of a grant list: bases sorted with disjoint spans,
positive page counts, spans inside `[0, USER_END_OFFSET)`. -/
def GOk (l : List (Nat × GrantInfo)) : Prop :=
  l.Pairwise (fun a b => a.1 + a.2.page_count ≤ b.1) ∧
  (∀ e ∈ l, 0 < e.2.page_count) ∧
  (∀ e ∈ l, (e.1 + e.2.page_count) * PAGE_SIZE ≤ USER_END_OFFSET)

/-- The duality (representation) invariant of `UserGrants`. -/
def UGInv (u : UserGrants) : Prop :=
  GOk u.inner ∧ u.holes = canonicalHoles u.inner

/-- Well-formedness of a grant list relative to a lower bound `pos`: the
induction hypothesis threaded through `gapsFrom`. -/
def GFrom (pos : Nat) (G : List (Nat × GrantInfo)) : Prop :=
  G.Pairwise (fun a b => a.1 + a.2.page_count ≤ b.1) ∧
  (∀ e ∈ G, 0 < e.2.page_count) ∧
  (∀ e ∈ G, (e.1 + e.2.page_count) * PAGE_SIZE ≤ USER_END_OFFSET) ∧
  (∀ e ∈ G, pos ≤ e.1 * PAGE_SIZE) ∧
  pos ≤ USER_END_OFFSET

/-- The `UserGrants` values reachable from `UserGrants::new` by `insert`
(with its no-conflict assertion, on a valid in-bounds grant) and `remove`. -/
inductive ReachableUG : UserGrants → Prop
  | new : ReachableUG UserGrants.new
  | insert (u : UserGrants) (g : Grant) :
      ReachableUG u →
      u.conflicts g.span = [] →
      0 < g.info.page_count →
      (g.base + g.info.page_count) * PAGE_SIZE ≤ USER_END_OFFSET →
      ReachableUG (u.insert g)
  | remove (u : UserGrants) (base : Nat) :
      ReachableUG u →
      ReachableUG (u.remove base).2

/-! ## Page tables, frame metadata, address spaces -/

/-- The opaque `PageMapper`: a partial map from pages to (frame, PTE flags). -/
def PTable : Type := Nat → Option (Nat × PageFlagsM)

/-- `PageMapper::map_phys` (total in the model: page-table node allocation
is out of scope and never fails). -/
def PTable.mapPhys (t : PTable) (page frame : Nat) (flags : PageFlagsM) : PTable :=
  fun q => if q = page then some (frame, flags) else t q

/-- `PageMapper::unmap_phys` on one page. -/
def PTable.unmapPhys (t : PTable) (page : Nat) : PTable :=
  fun q => if q = page then none else t q

/-- `PageInfo { refcount, cow_refcount }` from the global frame array. -/
structure PageInfo where
  refcount : Nat
  cow_refcount : Nat
deriving DecidableEq

/-- The global per-frame metadata array, total over frames. -/
def Frames : Type := Nat → PageInfo

/-- Modelled from the spec: `PageInfo::add_ref` lives in `crate::memory`,
outside this repository's sources.  Per the spec, a CoW borrow increments
both the total and the CoW refcount, a non-CoW borrow only the total one. -/
def Frames.addRef (fr : Frames) (frame : Nat) (cow : Bool) : Frames :=
  fun f =>
    if f = frame then
      { refcount := (fr frame).refcount + 1,
        cow_refcount := (fr frame).cow_refcount + (if cow then 1 else 0) }
    else fr f

/-- Modelled from the spec: `PageInfo::remove_ref` lives in `crate::memory`,
outside this repository's sources.  Per the spec (CoW break leaves the old
frame with both counters decremented), a CoW release decrements both
counters, a non-CoW release only the total one. -/
def Frames.removeRef (fr : Frames) (frame : Nat) (cow : Bool) : Frames :=
  fun f =>
    if f = frame then
      { refcount := (fr frame).refcount - 1,
        cow_refcount := (fr frame).cow_refcount - (if cow then 1 else 0) }
    else fr f

/-- `AddrSpace` (the `Table` wrapper is flattened into the mapper). -/
structure AddrSpaceM where
  table : PTable
  grants : UserGrants
  mmap_min : Nat

/-! ## Grant operations -/

/-- `Grant::zeroed`: an `Allocated` grant with all PTEs left unmapped. -/
def Grant.zeroed (span : PageSpan) (flags : PageFlagsM) : Grant :=
  ⟨span.base, ⟨span.count, flags, true, .Allocated⟩⟩

/-- `Grant::physmap`: a `PhysBorrowed` grant. -/
def Grant.physmap (phys : Nat) (span : PageSpan) (flags : PageFlagsM) : Grant :=
  ⟨span.base, ⟨span.count, flags, true, .PhysBorrowed phys⟩⟩

/-- The `for page in span` loop of `Grant::unmap`: `unmap_phys` every mapped
page, skipping lazy (unmapped) ones. -/
def unmapPages (t : PTable) (base : Nat) : Nat → PTable
  | 0 => t
  | n + 1 => (unmapPages t base n).unmapPhys (base + n)

/-- `UnmapResult`. -/
structure UnmapResultM where
  file_desc : Option GrantFileRefM
deriving DecidableEq

/-- `Grant::unmap`.  For `Allocated` and `External` providers the refcount
decrement (`get_page_info(frame).remove_ref(is_cow)`) is commented out in
the source, so the frame metadata is returned unchanged. -/
def Grant.unmap (g : Grant) (mapper : PTable) (frames : Frames) :
    PTable × Frames × UnmapResultM :=
  (unmapPages mapper g.base g.info.page_count, frames,
   ⟨match g.info.provider with
     | .Fmap desc => some desc
     | _ => none⟩)

/-- One iteration of the `Grant::cow` page loop: skip the page if the source
PTE is unmapped; otherwise downgrade the source PTE to read-only
(`remap_with`), `add_ref(true)` the backing frame, and map the destination
PTE to the same frame with `flags.write(false)`. -/
def cowStepOne (src_page dst_page : Nat) (flags : PageFlagsM)
    (srcM dstM : PTable) (frames : Frames) : PTable × PTable × Frames :=
  match srcM src_page with
  | none => (srcM, dstM, frames)
  | some (src_phys, old_flags) =>
    (srcM.mapPhys src_page src_phys (old_flags.setWrite false),
     dstM.mapPhys dst_page src_phys (flags.setWrite false),
     frames.addRef src_phys true)

/-- The `for page_idx in 0..page_count` loop of `Grant::cow`, processing
pages `idx, idx+1, …, idx+rem-1`. -/
def cowRun (src_base dst_base : Nat) (flags : PageFlagsM) :
    Nat → Nat → PTable → PTable → Frames → PTable × PTable × Frames
  | _, 0, srcM, dstM, frames => (srcM, dstM, frames)
  | idx, rem + 1, srcM, dstM, frames =>
    let r := cowStepOne (src_base + idx) (dst_base + idx) flags srcM dstM frames
    cowRun src_base dst_base flags (idx + 1) rem r.1 r.2.1 r.2.2

/-- `Grant::cow` (as used by `AddrSpace::try_clone`: distinct source and
destination mappers).  Produces one `Allocated` grant in the destination. -/
def Grant.cow (src_base dst_base page_count : Nat) (flags : PageFlagsM)
    (src_mapper dst_mapper : PTable) (frames : Frames) :
    PTable × PTable × Frames × Grant :=
  let r := cowRun src_base dst_base flags 0 page_count src_mapper dst_mapper frames
  (r.1, r.2.1, r.2.2, ⟨dst_base, ⟨page_count, flags, true, .Allocated⟩⟩)

/-- The `for page in span` loop of `Grant::remap`: update the flags of every
mapped page, skipping lazy (unmapped) ones. -/
def remapPages (t : PTable) (base : Nat) (flags : PageFlagsM) : Nat → PTable
  | 0 => t
  | n + 1 =>
    let t1 := remapPages t base flags n
    match t1 (base + n) with
    | some (frame, _) => t1.mapPhys (base + n) frame flags
    | none => t1

/-- `Grant::remap`. -/
def Grant.remap (g : Grant) (mapper : PTable) (flags : PageFlagsM) : Grant × PTable :=
  ({ g with info := { g.info with flags := flags } },
   remapPages mapper g.base flags g.info.page_count)

/-- `Grant::extract`: split a grant around `span` into (before, middle,
after).  A `PhysBorrowed` base is advanced by the before-piece's page count
for the middle, and additionally by the middle's page count for the after
piece.  `none` models the `todo!()` panic on `Fmap` providers. -/
def Grant.extract (g : Grant) (span : PageSpan) :
    Option (Option Grant × Grant × Option Grant) :=
  match g.info.provider with
  | .Fmap _ => none
  | _ =>
    let spans := PageSpan.slice g.span span
    let before_grant : Option Grant := spans.1.map (fun sp =>
      ⟨sp.base, ⟨sp.count, g.info.flags, g.info.mapped, g.info.provider⟩⟩)
    let provider1 : ProviderM :=
      match g.info.provider with
      | .PhysBorrowed base =>
        .PhysBorrowed (base + (before_grant.map (fun bg => bg.info.page_count)).getD 0)
      | p => p
    let after_grant : Option Grant := spans.2.2.map (fun sp =>
      ⟨sp.base, ⟨sp.count, g.info.flags, g.info.mapped,
        match provider1 with
        | .PhysBorrowed base => .PhysBorrowed (base + spans.2.1.count)
        | p => p⟩⟩)
    some (before_grant,
      ⟨spans.2.1.base, ⟨spans.2.1.count, g.info.flags, g.info.mapped, provider1⟩⟩,
      after_grant)

/-- `GrantInfo::can_have_flags`: non-`Allocated` providers may only be
downgraded, never gain write or execute. -/
def GrantInfo.can_have_flags (info : GrantInfo) (flags : MapFlagsM) : Bool :=
  let is_downgrade :=
    (info.flags.write || !flags.prot_write) && (info.flags.execute || !flags.prot_exec)
  match info.provider with
  | .Allocated => true
  | _ => is_downgrade

/-! ## AddrSpace::mprotect -/

/-- Outcome of `mprotect`: `&mut self` persists across an `Err` return, so
the mutated state is carried alongside the error.  `crash` models the
panics (`expect` on `remove`/`extract`, `todo!` inside `extract`). -/
inductive MprotectRes
  | ok (a : AddrSpaceM)
  | err (e : KError) (a : AddrSpaceM)
  | crash

/-- The per-conflicting-grant loop of `AddrSpace::mprotect`: remove the
grant, split around the intersection with the requested span, reinsert the
outer pieces, fail with `EACCES` (reinserting the middle) if the new flags
are not allowed, otherwise remap the middle and reinsert it. -/
def mprotectGo (requested_span : PageSpan) (flags : MapFlagsM) :
    List PageSpan → AddrSpaceM → MprotectRes
  | [], a => .ok a
  | gs :: rest, a =>
    match UserGrants.remove a.grants gs.base with
    | (none, _) => .crash
    | (some grant, grants1) =>
      let intersection := PageSpan.intersection gs requested_span
      match grant.extract intersection with
      | none => .crash
      | some (before, mid, after) =>
        let grants2 := match before with
          | some bg => grants1.insert bg
          | none => grants1
        let grants3 := match after with
          | some ag => grants2.insert ag
          | none => grants2
        if mid.info.can_have_flags flags then
          let new_flags :=
            (mid.info.flags.setExecute flags.prot_exec).setWrite flags.prot_write
          let r := mid.remap a.table new_flags
          mprotectGo requested_span flags rest
            { a with grants := grants3.insert r.1, table := r.2 }
        else
          .err .EACCES { a with grants := grants3.insert mid }

/-- `AddrSpace::mprotect`. -/
def AddrSpaceM.mprotect (a : AddrSpaceM) (requested_span : PageSpan)
    (flags : MapFlagsM) : MprotectRes :=
  let regions := (a.grants.conflicts requested_span).map
    (fun e => PageSpan.mk e.1 e.2.page_count)
  mprotectGo requested_span flags regions a

/-! ## The page-fault handler -/

/-- `AccessMode`. -/
inductive AccessMode
  | Read
  | Write
  | InstrFetch
deriving DecidableEq

/-- `PfError`. -/
inductive PfError
  | Segv
  | Oom
  | NonfatalInternalError
deriving DecidableEq

/-- The state the fault handler reads and writes: the current address
space, the global frame metadata, the frame allocator (an inexhaustible
cursor of fresh frames), and the tables of foreign address spaces
referenced by `External` grants. -/
structure FaultState where
  aspace : AddrSpaceM
  frames : Frames
  nextFree : Nat
  foreign : Nat → PTable

/-- Outcome of `try_correcting_page_tables`; `crash` models the `todo!()`
and `unreachable!()` panics. -/
inductive FaultOutcome
  | ok (s : FaultState)
  | fault (e : PfError)
  | crash

/-- `init_frame`: allocate a fresh frame, setting both refcounts to 1. -/
def initFrame (frames : Frames) (nextFree : Nat) : Nat × Frames × Nat :=
  (nextFree,
   fun f => if f = nextFree then ⟨1, 1⟩ else frames f,
   nextFree + 1)

/-- `map_zeroed`: allocate a fresh zeroed frame and map `page` to it with
`page_flags`.  The `_writable` argument is ignored, exactly as in the
source (`fn map_zeroed(…, _writable: bool)`). -/
def map_zeroed (table : PTable) (frames : Frames) (nextFree : Nat)
    (page : Nat) (page_flags : PageFlagsM) (_writable : Bool) :
    Nat × PTable × Frames × Nat :=
  let r := initFrame frames nextFree
  (r.1, table.mapPhys page r.1 page_flags, r.2.1, r.2.2)

/-- The free function `cow`: CoW break.  Allocates a fresh frame, copies the
old frame's contents (contents are not modelled), and `remove_ref(true)`s
the old frame. -/
def cowBreak (frames : Frames) (nextFree old_frame : Nat) : Nat × Frames × Nat :=
  let r := initFrame frames nextFree
  (r.1, (r.2.1).removeRef old_frame true, r.2.2)

/-- The dispatch over `(provider, access, translation)` of
`try_correcting_page_tables`, run once the flag guards have passed: yields
the frame to install, the updated table/metadata/allocator state, and
`allow_writable` (`none` models the `todo!()` on `Fmap`).  `get_page_info`
is total in the model (the global frame array covers all frames), so the
`unreachable!("allocated page needs frame to be valid")` arm is vacuous. -/
def faultStep (st : FaultState) (faulting_page : Nat) (access : AccessMode)
    (grant_base : Nat) (grant_info : GrantInfo) :
    Option (Nat × PTable × Frames × Nat × Bool) :=
  let pages_from_grant_start := faulting_page - grant_base
  let grant_flags := grant_info.flags
  let faulting_frame_opt := (st.aspace.table faulting_page).map (fun pr => pr.1)
  match grant_info.provider with
  | .Allocated =>
    if access = .Write then
      match faulting_frame_opt with
      | some frame =>
        if (st.frames frame).cow_refcount = 1 then
          some (frame, st.aspace.table, st.frames, st.nextFree, true)
        else
          let r := cowBreak st.frames st.nextFree frame
          some (r.1, st.aspace.table, r.2.1, r.2.2, true)
      | none =>
        let r := map_zeroed st.aspace.table st.frames st.nextFree
          faulting_page grant_flags true
        some (r.1, r.2.1, r.2.2.1, r.2.2.2, true)
    else
      match faulting_frame_opt with
      | some frame =>
        some (frame, st.aspace.table, st.frames, st.nextFree,
          (st.frames frame).cow_refcount = 1)
      | none =>
        let r := map_zeroed st.aspace.table st.frames st.nextFree
          faulting_page grant_flags false
        some (r.1, r.2.1, r.2.2.1, r.2.2.2, true)
  | .PhysBorrowed base =>
    some (base + pages_from_grant_start, st.aspace.table, st.frames,
      st.nextFree, true)
  | .External address_space src_base =>
    let src_page := src_base + pages_from_grant_start
    match st.foreign address_space src_page with
    | some (phys, _) =>
      some (phys, st.aspace.table, st.frames.addRef phys false, st.nextFree, true)
    | none =>
      let r := map_zeroed st.aspace.table st.frames st.nextFree
        src_page grant_flags (access = .Write)
      some (r.1, r.2.1, r.2.2.1, r.2.2.2, true)
  | .Fmap _ => none

/-- `try_correcting_page_tables`: look the faulting page up in the grants,
check the access mode against the grant flags (`Segv` on mismatch), run the
provider dispatch, and finally `map_phys` the chosen frame with the grant
flags, write-enabled only if the grant has write and `allow_writable`
holds. -/
def try_correcting_page_tables (st : FaultState) (faulting_page : Nat)
    (access : AccessMode) : FaultOutcome :=
  match st.aspace.grants.contains faulting_page with
  | none => .fault .Segv
  | some (grant_base, grant_info) =>
    let grant_flags := grant_info.flags
    if access = .Write ∧ grant_flags.write = false then .fault .Segv
    else if access = .InstrFetch ∧ grant_flags.execute = false then .fault .Segv
    else
      match faultStep st faulting_page access grant_base grant_info with
      | none => .crash
      | some (frame, table1, frames1, next1, allow_writable) =>
        let new_flags := grant_flags.setWrite (grant_flags.write && allow_writable)
        .ok { st with
          aspace := { st.aspace with table := table1.mapPhys faulting_page frame new_flags },
          frames := frames1,
          nextFree := next1 }

/-! ## Helpers for stating concrete counterexamples -/

/-- The PTE at `page` of the resulting table, when the fault succeeded. -/
def outcomeTableAt (o : FaultOutcome) (page : Nat) : Option (Nat × PageFlagsM) :=
  match o with
  | .ok s => s.aspace.table page
  | _ => none

/-- The grants list of an `mprotect` outcome (also on the error path, where
`&mut self` keeps the mutated state). -/
def mresGrants (r : MprotectRes) : Option (List (Nat × GrantInfo)) :=
  match r with
  | .ok a => some a.grants.inner
  | .err _ a => some a.grants.inner
  | .crash => none

/-- The error of an `mprotect` outcome. -/
def mresError (r : MprotectRes) : Option KError :=
  match r with
  | .err e _ => some e
  | _ => none

/-- How many of the source pages `src_base + idx, …, src_base + idx + rem - 1`
are mapped to `frame` in `srcM`: the net number of `add_ref`s `Grant::cow`
performs on `frame`. -/
def mappedCount (srcM : PTable) (src_base : Nat) : Nat → Nat → Nat → Nat
  | _, 0, _ => 0
  | idx, rem + 1, frame =>
    (match srcM (src_base + idx) with
     | some (phys, _) => if phys = frame then 1 else 0
     | none => 0) + mappedCount srcM src_base (idx + 1) rem frame

/-! ## Concrete states used by witnesses and counterexamples -/

/-- An `Allocated`, writable, one-page grant at page 1. -/
def c1Grant : Grant :=
  ⟨1, ⟨1, ⟨true, true, false⟩, true, .Allocated⟩⟩

/-- A table mapping page 1 to frame 5 (writable). -/
def c1Table : PTable :=
  fun p => if p = 1 then some (5, ⟨true, true, false⟩) else none

/-- Frame metadata giving frame 5 one reference. -/
def c1Frames : Frames :=
  fun f => if f = 5 then ⟨1, 1⟩ else ⟨0, 0⟩

/-- User + write, no execute. -/
def c3Flags : PageFlagsM :=
  ⟨true, true, false⟩

/-- One writable `Allocated` grant at page 1 (one page). -/
def c3Grants : UserGrants :=
  UserGrants.new.insert ⟨1, ⟨1, c3Flags, true, .Allocated⟩⟩

/-- A fault-handler state whose page table is entirely unmapped. -/
def c3State : FaultState :=
  { aspace := { table := fun _ => none, grants := c3Grants, mmap_min := MMAP_MIN_DEFAULT },
    frames := fun _ => ⟨0, 0⟩,
    nextFree := 7,
    foreign := fun _ => fun _ => none }

/-- Source table for the CoW witness: page 10 mapped to frame 5, page 11
unmapped. -/
def c5SrcTable : PTable :=
  fun p => if p = 10 then some (5, c3Flags) else none

/-- Frame metadata for the CoW witness: frame 5 has one (non-CoW) ref. -/
def c5Frames : Frames :=
  fun f => if f = 5 then ⟨1, 1⟩ else ⟨0, 0⟩

/-- A six-page `PhysBorrowed` grant at page 10 backed by frames 100…105. -/
def c9Grant : Grant :=
  ⟨10, ⟨6, ⟨true, false, false⟩, true, .PhysBorrowed 100⟩⟩

/-- A read-only, one-page-of-three `PhysBorrowed` grant at page 1. -/
def c4Grants : UserGrants :=
  UserGrants.new.insert ⟨1, ⟨3, ⟨true, false, false⟩, true, .PhysBorrowed 100⟩⟩

/-- Address space holding `c4Grants` with an empty page table. -/
def c4Space : AddrSpaceM :=
  { table := fun _ => none, grants := c4Grants, mmap_min := MMAP_MIN_DEFAULT }

/-- `MapFlags` requesting write (no exec, no fixed placement). -/
def c4WFlags : MapFlagsM :=
  ⟨true, false, false, false⟩

/-- A one-page grant at page 1, used by round-trip witnesses. -/
def c8Grant : Grant :=
  ⟨1, ⟨1, c3Flags, true, .Allocated⟩⟩

/-- An `Allocated` grant whose span `[USER_END_OFFSET, USER_END_OFFSET + PAGE_SIZE)`
lies entirely outside the user range. -/
def c2OobGrant : Grant :=
  ⟨USER_END_OFFSET / PAGE_SIZE, ⟨1, c3Flags, true, .Allocated⟩⟩

/-- The grant map after `UserGrants::remove` finds its grant (proof
bookkeeping for the `mprotect` loop). -/
def removeGrant (u : UserGrants) (b c : Nat) : UserGrants :=
  { u with inner := eraseKey u.inner b, holes := UserGrants.unreserve u.holes b c }

/-- The grant map after `mprotect` reinserts the outer pieces of a split
grant (proof bookkeeping for the `mprotect` loop). -/
def reinsertPieces (u : UserGrants) (bo ao : Option Grant) : UserGrants :=
  match ao with
  | some ag => (match bo with
      | some bg => u.insert bg
      | none => u).insert ag
  | none => match bo with
      | some bg => u.insert bg
      | none => u

/-! # Theorems -/

theorem PageFlagsM.setWrite_self (f : PageFlagsM) : f.setWrite f.write = f := by
  cases f; rfl

/-- C1: for `Allocated`/`External` grants, `Grant::unmap` is claimed to
decrement the refcount of the backing frame of each mapped page while
removing the PTE.  The decrement (`remove_ref`) is commented out in the
source: at a concrete `Allocated` grant whose single page is mapped to
frame 5 with refcount 1, unmapping removes the PTE but leaves the frame's
refcount at 1. -/
theorem c1_unmap_leaves_refcount :
    (c1Grant.unmap c1Table c1Frames).1 1 = none ∧
    (c1Grant.unmap c1Table c1Frames).2.1 5 = ⟨1, 1⟩ ∧
    c1Table 1 = some (5, ⟨true, true, false⟩) ∧
    c1Frames 5 = ⟨1, 1⟩ ∧
    c1Grant.info.provider = .Allocated :=
  ⟨rfl, rfl, rfl, rfl, rfl⟩

/-- C9: `Grant::extract` on a `PhysBorrowed` grant offsets the physical base
of every produced piece by that piece's page distance from the original
grant base, so each retained virtual page keeps its physical frame: the
before piece keeps the base, the middle piece advances it by the before
piece's page count, the after piece by the before plus middle counts. -/
theorem c9_extract_phys_offsets (g : Grant) (pb : Nat) (span : PageSpan)
    (hp : g.info.provider = .PhysBorrowed pb)
    (h1 : g.base ≤ span.base)
    (h2 : span.base + span.count ≤ g.base + g.info.page_count) :
    ∃ before mid after,
      g.extract span = some (before, mid, after) ∧
      mid.base = span.base ∧
      mid.info.page_count = span.count ∧
      mid.info.provider = .PhysBorrowed (pb + (mid.base - g.base)) ∧
      (∀ bg ∈ before, bg.base = g.base ∧ bg.info.page_count = span.base - g.base ∧
        bg.info.provider = .PhysBorrowed (pb + (bg.base - g.base))) ∧
      (∀ ag ∈ after, ag.base = span.base + span.count ∧
        ag.info.page_count = g.base + g.info.page_count - (span.base + span.count) ∧
        ag.info.provider = .PhysBorrowed (pb + (ag.base - g.base))) := by
  obtain ⟨gb, cnt, fl, mp, prov⟩ := g
  simp only at hp h1 h2
  subst hp
  refine ⟨_, _, _, rfl, ?_⟩
  simp only [Grant.extract, PageSpan.slice, PageSpan.beforeSpan, PageSpan.afterSpan,
    PageSpan.between, PageSpan.isEmpty, Grant.span, PageSpan.endPage]
  constructor
  · trivial
  constructor
  · trivial
  constructor
  · by_cases hb : span.base - gb = 0
    · simp [hb]
    · simp [hb]
  constructor
  · intro bg hbg
    by_cases hb : span.base - gb = 0
    · simp [hb] at hbg
    · simp [hb] at hbg
      subst hbg
      simp
  · intro ag hag
    by_cases hb : span.base - gb = 0
    · by_cases ha : gb + cnt - (span.base + span.count) = 0
      · simp [hb, ha] at hag
      · simp [hb, ha] at hag
        subst hag
        constructor
        · rfl
        constructor
        · rfl
        · simp
          omega
    · by_cases ha : gb + cnt - (span.base + span.count) = 0
      · simp [hb, ha] at hag
      · simp [hb, ha] at hag
        subst hag
        constructor
        · rfl
        constructor
        · rfl
        · simp
          omega

/-- C9 witness: extracting pages `[12, 14)` out of a six-page `PhysBorrowed`
grant at page 10 backed by frame 100. -/
theorem c9_extract_phys_offsets_witness :
    ∃ before mid after,
      c9Grant.extract ⟨12, 2⟩ = some (before, mid, after) ∧
      mid.base = 12 ∧
      mid.info.page_count = 2 ∧
      mid.info.provider = .PhysBorrowed (100 + (mid.base - c9Grant.base)) ∧
      (∀ bg ∈ before, bg.base = c9Grant.base ∧ bg.info.page_count = 12 - c9Grant.base ∧
        bg.info.provider = .PhysBorrowed (100 + (bg.base - c9Grant.base))) ∧
      (∀ ag ∈ after, ag.base = 12 + 2 ∧
        ag.info.page_count = c9Grant.base + c9Grant.info.page_count - (12 + 2) ∧
        ag.info.provider = .PhysBorrowed (100 + (ag.base - c9Grant.base))) :=
  c9_extract_phys_offsets c9Grant 100 ⟨12, 2⟩ rfl (by decide) (by decide)

/-- C10: `UserGrants::find_free_at` never compares a caller-supplied base
against `min`: whenever the hinted span is conflict-free it is returned
exactly, for every value of `min`. -/
theorem c10_hinted_base_ignores_min (u : UserGrants) (min base page_count : Nat)
    (flags : MapFlagsM)
    (h : u.conflicts ⟨base, page_count⟩ = []) :
    u.find_free_at min (some base) page_count flags = .ok ⟨base, page_count⟩ := by
  unfold UserGrants.find_free_at
  simp only [h]

/-- C10 witness: a hint at page 0 is honoured even though `min` is
`PAGE_SIZE` (the default `mmap_min`), i.e. the hinted path admits bases
below `mmap_min`, including page 0. -/
theorem c10_hinted_base_ignores_min_witness :
    UserGrants.new.find_free_at PAGE_SIZE (some 0) 1 ⟨false, false, false, false⟩ =
      .ok ⟨0, 1⟩ ∧ 0 * PAGE_SIZE < MMAP_MIN_DEFAULT :=
  ⟨c10_hinted_base_ignores_min UserGrants.new PAGE_SIZE 0 1 _ rfl, by decide⟩

/-- C6: the fault handler returns `Segv` exactly when no grant contains the
faulting page, or the access is a write and the grant lacks write, or the
access is an instruction fetch and the grant lacks execute; in particular a
read access on a page inside a grant never yields `Segv`. -/
theorem c6_segv_iff (st : FaultState) (page : Nat) (access : AccessMode) :
    try_correcting_page_tables st page access = .fault .Segv ↔
      (st.aspace.grants.contains page = none ∨
        ∃ b i, st.aspace.grants.contains page = some (b, i) ∧
          ((access = .Write ∧ i.flags.write = false) ∨
            (access = .InstrFetch ∧ i.flags.execute = false))) := by
  unfold try_correcting_page_tables
  cases hc : st.aspace.grants.contains page with
  | none => simp
  | some bi =>
    obtain ⟨b, i⟩ := bi
    simp only [Option.some.injEq, reduceCtorEq, false_or]
    split_ifs with hg1 hg2
    · simp only [true_iff]
      exact ⟨b, i, rfl, Or.inl hg1⟩
    · simp only [true_iff]
      exact ⟨b, i, rfl, Or.inr hg2⟩
    · cases hs : faultStep st page access b i with
      | none =>
        simp only [reduceCtorEq, false_iff]
        rintro ⟨b2, i2, hbi, hcase⟩
        obtain ⟨rfl, rfl⟩ : b2 = b ∧ i2 = i := by
          have := hbi
          simp at this
          exact ⟨this.1.symm, this.2.symm⟩
        rcases hcase with h | h
        · exact hg1 h
        · exact hg2 h
      | some x =>
        obtain ⟨frame, table1, frames1, next1, aw⟩ := x
        simp only [reduceCtorEq, false_iff]
        rintro ⟨b2, i2, hbi, hcase⟩
        obtain ⟨rfl, rfl⟩ : b2 = b ∧ i2 = i := by
          have := hbi
          simp at this
          exact ⟨this.1.symm, this.2.symm⟩
        rcases hcase with h | h
        · exact hg1 h
        · exact hg2 h

/-- C3 counterexample: a writable `Allocated` grant at page 1, a read fault
on its (unmapped) page.  The claim says the fresh frame is mapped with the
write permission disabled; the code maps it with the grant's write bit, so
the resulting PTE is writable. -/
theorem c3_counterexample :
    c3Grants.contains 1 = some (1, ⟨1, c3Flags, true, .Allocated⟩) ∧
    c3State.aspace.table 1 = none ∧
    outcomeTableAt (try_correcting_page_tables c3State 1 .Read) 1 =
      some (7, c3Flags) ∧
    c3Flags.write = true := by
  refine ⟨by decide, rfl, ?_, rfl⟩
  decide

/-- C3 (amended): on a `Read` or `InstrFetch` fault (with execute present
for the latter) at an unmapped page of an `Allocated` grant, a fresh frame
with both refcounts 1 is allocated and the page is mapped to it with the
grant's flags; in particular the write permission of the resulting PTE
equals the grant's write flag rather than being unconditionally disabled. -/
theorem c3_lazy_zero_uses_grant_write (st : FaultState) (page gb : Nat)
    (gi : GrantInfo) (access : AccessMode)
    (hc : st.aspace.grants.contains page = some (gb, gi))
    (hprov : gi.provider = .Allocated)
    (hacc : access = .Read ∨ (access = .InstrFetch ∧ gi.flags.execute = true))
    (htr : st.aspace.table page = none) :
    ∃ s, try_correcting_page_tables st page access = .ok s ∧
      s.aspace.table page = some (st.nextFree, gi.flags) ∧
      s.frames st.nextFree = ⟨1, 1⟩ ∧
      s.nextFree = st.nextFree + 1 ∧
      (∀ fr fl, s.aspace.table page = some (fr, fl) → fl.write = gi.flags.write) := by
  have hnw : access ≠ .Write := by
    rcases hacc with h | ⟨h, _⟩ <;> subst h <;> intro hcon <;> cases hcon
  have hg1 : ¬(access = .Write ∧ gi.flags.write = false) := fun h => hnw h.1
  have hg2 : ¬(access = .InstrFetch ∧ gi.flags.execute = false) := by
    rcases hacc with h | ⟨h, hx⟩
    · subst h; rintro ⟨hcon, -⟩; cases hcon
    · rintro ⟨-, hcon⟩; rw [hx] at hcon; cases hcon
  have hstep : faultStep st page access gb gi =
      some (st.nextFree, st.aspace.table.mapPhys page st.nextFree gi.flags,
        fun f => if f = st.nextFree then ⟨1, 1⟩ else st.frames f,
        st.nextFree + 1, true) := by
    unfold faultStep
    rw [hprov]
    simp only [if_neg hnw, htr, Option.map_none]
    rfl
  unfold try_correcting_page_tables
  simp only [hc]
  rw [if_neg hg1, if_neg hg2, hstep]
  refine ⟨_, rfl, ?_, ?_, rfl, ?_⟩
  · show (PTable.mapPhys _ page st.nextFree _) page = _
    unfold PTable.mapPhys
    rw [if_pos rfl]
    rw [Bool.and_true, PageFlagsM.setWrite_self]
  · simp
  · intro fr fl hfl
    show fl.write = gi.flags.write
    have : (PTable.mapPhys _ page st.nextFree
        (gi.flags.setWrite (gi.flags.write && true))) page = some (fr, fl) := hfl
    unfold PTable.mapPhys at this
    rw [if_pos rfl] at this
    rw [Bool.and_true, PageFlagsM.setWrite_self] at this
    cases this
    rfl

/-- C3 witness for the amended theorem: the concrete read fault of the
counterexample state, where the grant is writable and so is the resulting
PTE. -/
theorem c3_lazy_zero_uses_grant_write_witness :
    ∃ s, try_correcting_page_tables c3State 1 .Read = .ok s ∧
      s.aspace.table 1 = some (c3State.nextFree, c3Flags) ∧
      s.frames c3State.nextFree = ⟨1, 1⟩ ∧
      s.nextFree = c3State.nextFree + 1 ∧
      (∀ fr fl, s.aspace.table 1 = some (fr, fl) → fl.write = c3Flags.write) :=
  c3_lazy_zero_uses_grant_write c3State 1 1 ⟨1, c3Flags, true, .Allocated⟩ .Read
    (by decide) rfl (Or.inl rfl) rfl

theorem cowStepOne_src_other (sp dp : Nat) (fl : PageFlagsM) (s d : PTable)
    (f : Frames) (p : Nat) (hp : p ≠ sp) :
    (cowStepOne sp dp fl s d f).1 p = s p := by
  unfold cowStepOne
  cases hs : s sp with
  | none => rfl
  | some pr =>
    obtain ⟨phys, ofl⟩ := pr
    simp [PTable.mapPhys, hp]

theorem cowStepOne_dst_other (sp dp : Nat) (fl : PageFlagsM) (s d : PTable)
    (f : Frames) (p : Nat) (hp : p ≠ dp) :
    (cowStepOne sp dp fl s d f).2.1 p = d p := by
  unfold cowStepOne
  cases hs : s sp with
  | none => rfl
  | some pr =>
    obtain ⟨phys, ofl⟩ := pr
    simp [PTable.mapPhys, hp]

theorem cowRun_src_outside (sb db : Nat) (fl : PageFlagsM) :
    ∀ (rem idx : Nat) (s d : PTable) (f : Frames) (p : Nat),
      (p < sb + idx ∨ sb + idx + rem ≤ p) →
      (cowRun sb db fl idx rem s d f).1 p = s p := by
  intro rem
  induction rem with
  | zero =>
    intro idx s d f p _
    rfl
  | succ n ih =>
    intro idx s d f p hp
    simp only [cowRun]
    rw [ih (idx + 1) _ _ _ p (by omega)]
    exact cowStepOne_src_other _ _ _ _ _ _ _ (by omega)

theorem cowRun_dst_outside (sb db : Nat) (fl : PageFlagsM) :
    ∀ (rem idx : Nat) (s d : PTable) (f : Frames) (p : Nat),
      (p < db + idx ∨ db + idx + rem ≤ p) →
      (cowRun sb db fl idx rem s d f).2.1 p = d p := by
  intro rem
  induction rem with
  | zero =>
    intro idx s d f p _
    rfl
  | succ n ih =>
    intro idx s d f p hp
    simp only [cowRun]
    rw [ih (idx + 1) _ _ _ p (by omega)]
    exact cowStepOne_dst_other _ _ _ _ _ _ _ (by omega)

theorem cowRun_at (sb db : Nat) (fl : PageFlagsM) :
    ∀ (rem idx : Nat) (s d : PTable) (f : Frames) (j : Nat),
      idx ≤ j → j < idx + rem →
      (∀ phys ofl, s (sb + j) = some (phys, ofl) →
        (cowRun sb db fl idx rem s d f).1 (sb + j) = some (phys, ofl.setWrite false) ∧
        (cowRun sb db fl idx rem s d f).2.1 (db + j) = some (phys, fl.setWrite false)) ∧
      (s (sb + j) = none →
        (cowRun sb db fl idx rem s d f).1 (sb + j) = none ∧
        (cowRun sb db fl idx rem s d f).2.1 (db + j) = d (db + j)) := by
  intro rem
  induction rem with
  | zero =>
    intro idx s d f j h1 h2
    omega
  | succ n ih =>
    intro idx s d f j h1 h2
    simp only [cowRun]
    rcases Nat.eq_or_lt_of_le h1 with heq | hj
    · subst heq
      constructor
      · intro phys ofl hmap
        rw [cowRun_src_outside sb db fl n (idx + 1) _ _ _ (sb + idx) (by omega),
          cowRun_dst_outside sb db fl n (idx + 1) _ _ _ (db + idx) (by omega)]
        unfold cowStepOne
        rw [hmap]
        simp [PTable.mapPhys]
      · intro hmap
        rw [cowRun_src_outside sb db fl n (idx + 1) _ _ _ (sb + idx) (by omega),
          cowRun_dst_outside sb db fl n (idx + 1) _ _ _ (db + idx) (by omega)]
        unfold cowStepOne
        rw [hmap]
        exact ⟨hmap, rfl⟩
    · have hsrc :
          (cowStepOne (sb + idx) (db + idx) fl s d f).1 (sb + j) = s (sb + j) :=
        cowStepOne_src_other _ _ _ _ _ _ _ (by omega)
      have hdst :
          (cowStepOne (sb + idx) (db + idx) fl s d f).2.1 (db + j) = d (db + j) :=
        cowStepOne_dst_other _ _ _ _ _ _ _ (by omega)
      have := ih (idx + 1) (cowStepOne (sb + idx) (db + idx) fl s d f).1
        (cowStepOne (sb + idx) (db + idx) fl s d f).2.1
        (cowStepOne (sb + idx) (db + idx) fl s d f).2.2 j (by omega) (by omega)
      rw [hsrc, hdst] at this
      exact this

theorem mappedCount_congr (s1 s2 : PTable) (sb : Nat) :
    ∀ (rem idx frame : Nat),
      (∀ j, idx ≤ j → j < idx + rem → s1 (sb + j) = s2 (sb + j)) →
      mappedCount s1 sb idx rem frame = mappedCount s2 sb idx rem frame := by
  intro rem
  induction rem with
  | zero =>
    intro idx frame _
    rfl
  | succ n ih =>
    intro idx frame hagree
    simp only [mappedCount]
    rw [hagree idx (le_refl idx) (by omega),
      ih (idx + 1) frame (fun j hj1 hj2 => hagree j (by omega) (by omega))]

theorem mappedCount_succ (s : PTable) (sb idx n frame : Nat) :
    mappedCount s sb idx (n + 1) frame =
      mappedCount s sb idx 1 frame + mappedCount s sb (idx + 1) n frame := by
  simp only [mappedCount]
  omega

theorem cowStepOne_frames (sb db idx : Nat) (fl : PageFlagsM) (s d : PTable)
    (f : Frames) (frame : Nat) :
    ((cowStepOne (sb + idx) (db + idx) fl s d f).2.2 frame).refcount =
      (f frame).refcount + mappedCount s sb idx 1 frame ∧
    ((cowStepOne (sb + idx) (db + idx) fl s d f).2.2 frame).cow_refcount =
      (f frame).cow_refcount + mappedCount s sb idx 1 frame := by
  unfold cowStepOne
  simp only [mappedCount]
  cases hs : s (sb + idx) with
  | none => simp
  | some pr =>
    obtain ⟨phys, ofl⟩ := pr
    simp only [Frames.addRef]
    by_cases hf : phys = frame
    · subst hf
      simp
    · have hf2 : ¬(frame = phys) := fun h => hf h.symm
      simp [hf, hf2]

theorem cowRun_frames (sb db : Nat) (fl : PageFlagsM) :
    ∀ (rem idx : Nat) (s d : PTable) (f : Frames) (frame : Nat),
      ((cowRun sb db fl idx rem s d f).2.2 frame).refcount =
        (f frame).refcount + mappedCount s sb idx rem frame ∧
      ((cowRun sb db fl idx rem s d f).2.2 frame).cow_refcount =
        (f frame).cow_refcount + mappedCount s sb idx rem frame := by
  intro rem
  induction rem with
  | zero =>
    intro idx s d f frame
    exact ⟨rfl, rfl⟩
  | succ n ih =>
    intro idx s d f frame
    simp only [cowRun]
    rw [mappedCount_succ]
    have hcongr : mappedCount (cowStepOne (sb + idx) (db + idx) fl s d f).1 sb
        (idx + 1) n frame = mappedCount s sb (idx + 1) n frame :=
      mappedCount_congr _ _ sb n (idx + 1) frame
        (fun j hj1 _ => cowStepOne_src_other _ _ _ _ _ _ _ (by omega))
    have hih := ih (idx + 1) (cowStepOne (sb + idx) (db + idx) fl s d f).1
      (cowStepOne (sb + idx) (db + idx) fl s d f).2.1
      (cowStepOne (sb + idx) (db + idx) fl s d f).2.2 frame
    rw [hcongr] at hih
    obtain ⟨hrc, hcc⟩ := hih
    rw [hrc, hcc]
    obtain ⟨h1, h2⟩ := cowStepOne_frames sb db idx fl s d f frame
    rw [h1, h2]
    constructor <;> omega

/-- C5: `Grant::cow` (as invoked by `try_clone`, with distinct source and
destination mappers): every mapped source page has its source PTE
downgraded to read-only, both refcounts of its backing frame incremented
(`add_ref(true)`, modelled from the spec), and the corresponding
destination PTE mapped to the same frame read-only; unmapped source pages
are skipped on both sides; the result is one `Allocated` grant with the
same page count. -/
theorem c5_cow_spec (src_base dst_base page_count : Nat) (flags : PageFlagsM)
    (src_mapper dst_mapper : PTable) (frames : Frames) :
    (∀ j phys ofl, j < page_count → src_mapper (src_base + j) = some (phys, ofl) →
      (Grant.cow src_base dst_base page_count flags src_mapper dst_mapper frames).1
          (src_base + j) = some (phys, ofl.setWrite false) ∧
      (Grant.cow src_base dst_base page_count flags src_mapper dst_mapper frames).2.1
          (dst_base + j) = some (phys, flags.setWrite false)) ∧
    (∀ j, j < page_count → src_mapper (src_base + j) = none →
      (Grant.cow src_base dst_base page_count flags src_mapper dst_mapper frames).1
          (src_base + j) = none ∧
      (Grant.cow src_base dst_base page_count flags src_mapper dst_mapper frames).2.1
          (dst_base + j) = dst_mapper (dst_base + j)) ∧
    (∀ frame,
      ((Grant.cow src_base dst_base page_count flags src_mapper dst_mapper frames).2.2.1
          frame).refcount =
        (frames frame).refcount + mappedCount src_mapper src_base 0 page_count frame ∧
      ((Grant.cow src_base dst_base page_count flags src_mapper dst_mapper frames).2.2.1
          frame).cow_refcount =
        (frames frame).cow_refcount + mappedCount src_mapper src_base 0 page_count frame) ∧
    (Grant.cow src_base dst_base page_count flags src_mapper dst_mapper frames).2.2.2 =
      ⟨dst_base, ⟨page_count, flags, true, .Allocated⟩⟩ := by
  refine ⟨?_, ?_, ?_, rfl⟩
  · intro j phys ofl hj hmap
    exact (cowRun_at src_base dst_base flags page_count 0 src_mapper dst_mapper
      frames j (Nat.zero_le j) (by omega)).1 phys ofl hmap
  · intro j hj hmap
    exact (cowRun_at src_base dst_base flags page_count 0 src_mapper dst_mapper
      frames j (Nat.zero_le j) (by omega)).2 hmap
  · intro frame
    exact cowRun_frames src_base dst_base flags page_count 0 src_mapper dst_mapper
      frames frame

/-- C5 witness: a two-page CoW clone from page 10 to page 20 where source
page 10 is mapped to frame 5 and page 11 is unmapped: the source PTE
becomes read-only, the destination PTE maps frame 5 read-only, frame 5's
refcounts both rise from 1 to 2, page 11 stays unmapped on both sides, and
the result is a two-page `Allocated` grant at page 20. -/
theorem c5_cow_spec_witness :
    (Grant.cow 10 20 2 c3Flags c5SrcTable (fun _ => none) c5Frames).1 10 =
      some (5, c3Flags.setWrite false) ∧
    (Grant.cow 10 20 2 c3Flags c5SrcTable (fun _ => none) c5Frames).2.1 20 =
      some (5, c3Flags.setWrite false) ∧
    (Grant.cow 10 20 2 c3Flags c5SrcTable (fun _ => none) c5Frames).1 11 = none ∧
    (Grant.cow 10 20 2 c3Flags c5SrcTable (fun _ => none) c5Frames).2.1 21 = none ∧
    ((Grant.cow 10 20 2 c3Flags c5SrcTable (fun _ => none) c5Frames).2.2.1 5).refcount = 2 ∧
    ((Grant.cow 10 20 2 c3Flags c5SrcTable (fun _ => none) c5Frames).2.2.1 5).cow_refcount = 2 ∧
    (Grant.cow 10 20 2 c3Flags c5SrcTable (fun _ => none) c5Frames).2.2.2 =
      ⟨20, ⟨2, c3Flags, true, .Allocated⟩⟩ := by
  have h := c5_cow_spec 10 20 2 c3Flags c5SrcTable (fun _ => none) c5Frames
  refine ⟨?_, ?_, ?_, ?_, ?_, ?_, h.2.2.2⟩
  · exact ((h.1 0 5 c3Flags (by decide) (by decide)).1 : _)
  · exact ((h.1 0 5 c3Flags (by decide) (by decide)).2 : _)
  · exact (h.2.1 1 (by decide) (by decide)).1
  · exact (h.2.1 1 (by decide) (by decide)).2
  · rw [(h.2.2.1 5).1]
    decide
  · rw [(h.2.2.1 5).2]
    decide

/-! ## Generic lemmas about the sorted association-list embedding -/

theorem lookupKey_nil {β : Type} (j : Nat) : lookupKey ([] : List (Nat × β)) j = none :=
  rfl

theorem lookupKey_cons {β : Type} (e : Nat × β) (t : List (Nat × β)) (j : Nat) :
    lookupKey (e :: t) j = if e.1 = j then some e.2 else lookupKey t j :=
  rfl

theorem insertKey_cons {β : Type} (e : Nat × β) (t : List (Nat × β)) (k : Nat) (v : β) :
    insertKey (e :: t) k v =
      if k < e.1 then (k, v) :: e :: t
      else if k = e.1 then (k, v) :: t
      else e :: insertKey t k v :=
  rfl

theorem eraseKey_cons {β : Type} (e : Nat × β) (t : List (Nat × β)) (k : Nat) :
    eraseKey (e :: t) k = if e.1 = k then t else e :: eraseKey t k :=
  rfl

theorem lastLt_cons {β : Type} (e : Nat × β) (t : List (Nat × β)) (k : Nat) :
    lastLt (e :: t) k = if e.1 < k then some ((lastLt t k).getD e) else none :=
  rfl

theorem lastLe_cons {β : Type} (e : Nat × β) (t : List (Nat × β)) (k : Nat) :
    lastLe (e :: t) k = if e.1 ≤ k then some ((lastLe t k).getD e) else none :=
  rfl

theorem lookupKey_mem {β : Type} {l : List (Nat × β)} {k : Nat} {v : β}
    (h : lookupKey l k = some v) : (k, v) ∈ l := by
  induction l with
  | nil => cases h
  | cons e t ih =>
    rw [lookupKey_cons] at h
    by_cases he : e.1 = k
    · rw [if_pos he] at h
      cases h
      subst he
      exact List.mem_cons_self e t
    · rw [if_neg he] at h
      exact List.mem_cons_of_mem _ (ih h)

theorem lookup_none_of_forall {β : Type} {l : List (Nat × β)} {k : Nat}
    (h : ∀ e ∈ l, e.1 ≠ k) : lookupKey l k = none := by
  induction l with
  | nil => rfl
  | cons e t ih =>
    rw [lookupKey_cons, if_neg (h e (List.mem_cons_self e t))]
    exact ih (fun x hx => h x (List.mem_cons_of_mem _ hx))

theorem KSorted.tail {β : Type} {e : Nat × β} {t : List (Nat × β)}
    (h : KSorted (e :: t)) : KSorted t :=
  (List.pairwise_cons.1 h).2

theorem KSorted.head_lt {β : Type} {e : Nat × β} {t : List (Nat × β)}
    (h : KSorted (e :: t)) : ∀ b ∈ t, e.1 < b.1 :=
  (List.pairwise_cons.1 h).1

theorem mem_lookupKey {β : Type} {l : List (Nat × β)} (hs : KSorted l)
    {k : Nat} {v : β} (h : (k, v) ∈ l) : lookupKey l k = some v := by
  induction l with
  | nil => cases h
  | cons e t ih =>
    rcases List.mem_cons.1 h with heq | hmem
    · rw [lookupKey_cons, ← heq]
      exact if_pos rfl
    · have hlt : e.1 < k := hs.head_lt (k, v) hmem
      rw [lookupKey_cons, if_neg (by omega)]
      exact ih hs.tail hmem

theorem lookup_insertKey {β : Type} (l : List (Nat × β)) (k : Nat) (v : β) (j : Nat) :
    lookupKey (insertKey l k v) j = if j = k then some v else lookupKey l j := by
  induction l with
  | nil =>
    show lookupKey [(k, v)] j = _
    rw [lookupKey_cons, lookupKey_nil]
    by_cases hj : j = k
    · rw [if_pos (by omega : k = j), if_pos hj]
    · rw [if_neg (by omega : ¬ k = j), if_neg hj]
  | cons e t ih =>
    rw [insertKey_cons]
    by_cases h1 : k < e.1
    · rw [if_pos h1, lookupKey_cons]
      by_cases hj : j = k
      · rw [if_pos (by omega : (k, v).1 = j), if_pos hj]
      · rw [if_neg (by omega : ¬ (k, v).1 = j), if_neg hj]
    · rw [if_neg h1]
      by_cases h2 : k = e.1
      · rw [if_pos h2, lookupKey_cons, lookupKey_cons]
        by_cases hj : j = k
        · rw [if_pos (by omega : (k, v).1 = j), if_pos hj]
        · rw [if_neg (by omega : ¬ (k, v).1 = j), if_neg hj,
            if_neg (by omega : ¬ e.1 = j)]
      · rw [if_neg h2, lookupKey_cons, lookupKey_cons]
        by_cases hj : e.1 = j
        · rw [if_pos hj, if_pos hj, if_neg (by omega : ¬ j = k)]
        · rw [if_neg hj, if_neg hj, ih]

theorem lookup_eraseKey {β : Type} {l : List (Nat × β)} (hs : KSorted l)
    (k j : Nat) :
    lookupKey (eraseKey l k) j = if j = k then none else lookupKey l j := by
  induction l with
  | nil =>
    show lookupKey [] j = _
    rw [lookupKey_nil]
    by_cases hj : j = k
    · rw [if_pos hj]
    · rw [if_neg hj]
  | cons e t ih =>
    rw [eraseKey_cons]
    by_cases h1 : e.1 = k
    · rw [if_pos h1, lookupKey_cons]
      by_cases hj : j = k
      · rw [if_pos hj]
        subst hj
        exact lookup_none_of_forall (fun b hb => by
          have := hs.head_lt b hb
          omega)
      · rw [if_neg hj, if_neg (by omega : ¬ e.1 = j)]
    · rw [if_neg h1, lookupKey_cons, lookupKey_cons]
      by_cases hj : e.1 = j
      · rw [if_pos hj, if_pos hj, if_neg (by omega : ¬ j = k)]
      · rw [if_neg hj, if_neg hj, ih hs.tail]

theorem updateKey_nil {β : Type} (k : Nat) (v : β) :
    updateKey ([] : List (Nat × β)) k v = [] :=
  rfl

theorem updateKey_cons {β : Type} (e : Nat × β) (t : List (Nat × β)) (k : Nat) (v : β) :
    updateKey (e :: t) k v =
      (if e.1 = k then (k, v) else e) :: updateKey t k v :=
  rfl

theorem lookup_updateKey {β : Type} {l : List (Nat × β)} (hs : KSorted l)
    (k : Nat) (v : β) (j : Nat) :
    lookupKey (updateKey l k v) j =
      if j = k then (lookupKey l k).map (fun _ => v) else lookupKey l j := by
  induction l with
  | nil =>
    rw [updateKey_nil, lookupKey_nil, lookupKey_nil]
    by_cases hj : j = k
    · rw [if_pos hj]
      rfl
    · rw [if_neg hj]
  | cons e t ih =>
    rw [updateKey_cons]
    by_cases h1 : e.1 = k
    · rw [if_pos h1, lookupKey_cons, lookupKey_cons, lookupKey_cons]
      have htail : lookupKey t k = none :=
        lookup_none_of_forall (fun b hb => by
          have := hs.head_lt b hb
          omega)
      by_cases hj : j = k
      · rw [if_pos (by omega : (k, v).1 = j), if_pos hj, if_pos h1]
        rfl
      · rw [if_neg (by omega : ¬ (k, v).1 = j), if_neg hj,
          if_neg (by omega : ¬ e.1 = j), ih hs.tail, if_neg hj]
    · rw [if_neg h1, lookupKey_cons, lookupKey_cons, lookupKey_cons]
      by_cases hj : e.1 = j
      · rw [if_pos hj, if_pos hj, if_neg (by omega : ¬ j = k)]
      · rw [if_neg hj, if_neg hj, ih hs.tail]
        by_cases hj2 : j = k
        · rw [if_pos hj2, if_pos hj2, if_neg h1]
        · rw [if_neg hj2, if_neg hj2]

theorem mem_insertKey_elim {β : Type} {l : List (Nat × β)} {k : Nat} {v : β}
    {b : Nat × β} (h : b ∈ insertKey l k v) : b = (k, v) ∨ b ∈ l := by
  induction l with
  | nil =>
    rcases List.mem_singleton.1 h with rfl
    exact Or.inl rfl
  | cons e t ih =>
    rw [insertKey_cons] at h
    by_cases h1 : k < e.1
    · rw [if_pos h1] at h
      rcases List.mem_cons.1 h with rfl | hm
      · exact Or.inl rfl
      · exact Or.inr hm
    · rw [if_neg h1] at h
      by_cases h2 : k = e.1
      · rw [if_pos h2] at h
        rcases List.mem_cons.1 h with rfl | hm
        · exact Or.inl rfl
        · exact Or.inr (List.mem_cons_of_mem _ hm)
      · rw [if_neg h2] at h
        rcases List.mem_cons.1 h with rfl | hm
        · exact Or.inr (List.mem_cons_self _ _)
        · rcases ih hm with h3 | h3
          · exact Or.inl h3
          · exact Or.inr (List.mem_cons_of_mem _ h3)

theorem self_mem_insertKey {β : Type} (l : List (Nat × β)) (k : Nat) (v : β) :
    (k, v) ∈ insertKey l k v := by
  induction l with
  | nil => exact List.mem_singleton.2 rfl
  | cons e t ih =>
    rw [insertKey_cons]
    by_cases h1 : k < e.1
    · rw [if_pos h1]
      exact List.mem_cons_self _ _
    · rw [if_neg h1]
      by_cases h2 : k = e.1
      · rw [if_pos h2]
        exact List.mem_cons_self _ _
      · rw [if_neg h2]
        exact List.mem_cons_of_mem _ ih

theorem mem_insertKey_of_mem {β : Type} {l : List (Nat × β)} {b : Nat × β}
    (hb : b ∈ l) (k : Nat) (v : β) (hne : b.1 ≠ k) : b ∈ insertKey l k v := by
  induction l with
  | nil => cases hb
  | cons e t ih =>
    rw [insertKey_cons]
    by_cases h1 : k < e.1
    · rw [if_pos h1]
      exact List.mem_cons_of_mem _ hb
    · rw [if_neg h1]
      by_cases h2 : k = e.1
      · rw [if_pos h2]
        rcases List.mem_cons.1 hb with rfl | hm
        · exact absurd h2.symm hne
        · exact List.mem_cons_of_mem _ hm
      · rw [if_neg h2]
        rcases List.mem_cons.1 hb with rfl | hm
        · exact List.mem_cons_self _ _
        · exact List.mem_cons_of_mem _ (ih hm)

theorem KSorted_insertKey {β : Type} {l : List (Nat × β)} (hs : KSorted l)
    (k : Nat) (v : β) : KSorted (insertKey l k v) := by
  induction l with
  | nil => exact List.pairwise_singleton _ _
  | cons e t ih =>
    rw [insertKey_cons]
    by_cases h1 : k < e.1
    · rw [if_pos h1]
      refine List.pairwise_cons.2 ⟨?_, hs⟩
      intro b hb
      rcases List.mem_cons.1 hb with rfl | hm
      · exact h1
      · have := hs.head_lt b hm
        omega
    · rw [if_neg h1]
      by_cases h2 : k = e.1
      · rw [if_pos h2]
        refine List.pairwise_cons.2 ⟨?_, hs.tail⟩
        intro b hb
        have := hs.head_lt b hb
        omega
      · rw [if_neg h2]
        refine List.pairwise_cons.2 ⟨?_, ih hs.tail⟩
        intro b hb
        rcases mem_insertKey_elim hb with rfl | hm
        · show e.1 < k
          omega
        · exact hs.head_lt b hm

theorem eraseKey_sublist {β : Type} (l : List (Nat × β)) (k : Nat) :
    List.Sublist (eraseKey l k) l := by
  induction l with
  | nil => exact List.Sublist.refl _
  | cons e t ih =>
    rw [eraseKey_cons]
    by_cases h1 : e.1 = k
    · rw [if_pos h1]
      exact List.sublist_cons_self e t
    · rw [if_neg h1]
      exact List.Sublist.cons₂ e ih

theorem KSorted_eraseKey {β : Type} {l : List (Nat × β)} (hs : KSorted l)
    (k : Nat) : KSorted (eraseKey l k) :=
  List.Pairwise.sublist (eraseKey_sublist l k) hs

theorem mem_eraseKey_elim {β : Type} {l : List (Nat × β)} {k : Nat}
    {b : Nat × β} (h : b ∈ eraseKey l k) : b ∈ l :=
  (eraseKey_sublist l k).mem h

theorem mem_eraseKey_of_mem {β : Type} {l : List (Nat × β)} {b : Nat × β}
    (hb : b ∈ l) (k : Nat) (hne : b.1 ≠ k) : b ∈ eraseKey l k := by
  induction l with
  | nil => cases hb
  | cons e t ih =>
    rw [eraseKey_cons]
    by_cases h1 : e.1 = k
    · rw [if_pos h1]
      rcases List.mem_cons.1 hb with rfl | hm
      · exact absurd h1 hne
      · exact hm
    · rw [if_neg h1]
      rcases List.mem_cons.1 hb with rfl | hm
      · exact List.mem_cons_self _ _
      · exact List.mem_cons_of_mem _ (ih hm)

theorem key_ne_of_mem_eraseKey {β : Type} {l : List (Nat × β)} (hs : KSorted l)
    {k : Nat} {b : Nat × β} (h : b ∈ eraseKey l k) : b.1 ≠ k := by
  induction l with
  | nil => cases h
  | cons e t ih =>
    rw [eraseKey_cons] at h
    by_cases h1 : e.1 = k
    · rw [if_pos h1] at h
      have := hs.head_lt b h
      omega
    · rw [if_neg h1] at h
      rcases List.mem_cons.1 h with rfl | hm
      · exact h1
      · exact ih hs.tail hm

theorem mem_updateKey_keys {β : Type} {l : List (Nat × β)} {k : Nat} {v : β}
    {b : Nat × β} (h : b ∈ updateKey l k v) :
    ∃ c ∈ l, b = if c.1 = k then (k, v) else c := by
  unfold updateKey at h
  rcases List.mem_map.1 h with ⟨c, hc, hcb⟩
  exact ⟨c, hc, hcb.symm⟩

theorem KSorted_updateKey {β : Type} {l : List (Nat × β)} (hs : KSorted l)
    (k : Nat) (v : β) : KSorted (updateKey l k v) := by
  unfold updateKey KSorted
  rw [List.pairwise_map]
  refine hs.imp_of_mem ?_
  intro a b _ _ hab
  by_cases ha : a.1 = k
  · by_cases hb : b.1 = k
    · simp only [if_pos ha, if_pos hb]
      omega
    · simp only [if_pos ha, if_neg hb]
      show k < b.1
      omega
  · by_cases hb : b.1 = k
    · simp only [if_neg ha, if_pos hb]
      show a.1 < k
      omega
    · simp only [if_neg ha, if_neg hb]
      exact hab

theorem eraseKey_insertKey {β : Type} {l : List (Nat × β)} {k : Nat}
    (h : lookupKey l k = none) (v : β) : eraseKey (insertKey l k v) k = l := by
  induction l with
  | nil =>
    show eraseKey [(k, v)] k = []
    rw [eraseKey_cons, if_pos rfl]
  | cons e t ih =>
    rw [lookupKey_cons] at h
    by_cases he : e.1 = k
    · rw [if_pos he] at h
      cases h
    · rw [if_neg he] at h
      rw [insertKey_cons]
      by_cases h1 : k < e.1
      · rw [if_pos h1, eraseKey_cons, if_pos rfl]
      · rw [if_neg h1, if_neg (fun h2 => he h2.symm), eraseKey_cons, if_neg he, ih h]

theorem sorted_ext {β : Type} :
    ∀ {l1 l2 : List (Nat × β)}, KSorted l1 → KSorted l2 →
      (∀ k, lookupKey l1 k = lookupKey l2 k) → l1 = l2 := by
  intro l1
  induction l1 with
  | nil =>
    intro l2 _ hs2 hext
    cases l2 with
    | nil => rfl
    | cons e t =>
      have h1 : lookupKey (e :: t) e.1 = some e.2 := by
        rw [lookupKey_cons, if_pos rfl]
      have h2 := hext e.1
      rw [h1, lookupKey_nil] at h2
      cases h2
  | cons a t1 ih =>
    intro l2 hs1 hs2 hext
    cases l2 with
    | nil =>
      have h1 : lookupKey (a :: t1) a.1 = some a.2 := by
        rw [lookupKey_cons, if_pos rfl]
      have h2 := hext a.1
      rw [h1, lookupKey_nil] at h2
      cases h2
    | cons b t2 =>
      have hla : lookupKey (a :: t1) a.1 = some a.2 := by
        rw [lookupKey_cons, if_pos rfl]
      have hlb : lookupKey (b :: t2) b.1 = some b.2 := by
        rw [lookupKey_cons, if_pos rfl]
      have hab : (a.1, a.2) ∈ b :: t2 := by
        have h := hext a.1
        rw [hla] at h
        exact lookupKey_mem h.symm
      have hba : (b.1, b.2) ∈ a :: t1 := by
        have h := hext b.1
        rw [hlb] at h
        exact lookupKey_mem h
      have heq : a = b := by
        rcases List.mem_cons.1 hab with h | h
        · rw [← h]
        · rcases List.mem_cons.1 hba with h2 | h2
          · rw [← h2]
          · have hx := hs2.head_lt (a.1, a.2) h
            have hy := hs1.head_lt (b.1, b.2) h2
            simp only at hx hy
            omega
      subst heq
      have htails : ∀ k, lookupKey t1 k = lookupKey t2 k := by
        intro k
        by_cases hk : a.1 = k
        · have h1 : lookupKey t1 k = none :=
            lookup_none_of_forall (fun x hx => by
              have := hs1.head_lt x hx
              omega)
          have h2 : lookupKey t2 k = none :=
            lookup_none_of_forall (fun x hx => by
              have := hs2.head_lt x hx
              omega)
          rw [h1, h2]
        · have h := hext k
          rw [lookupKey_cons, lookupKey_cons, if_neg hk, if_neg hk] at h
          exact h
      rw [ih hs1.tail hs2.tail htails]

theorem lastLt_eq_none {β : Type} :
    ∀ {l : List (Nat × β)}, KSorted l → ∀ {k : Nat}, lastLt l k = none →
      ∀ b ∈ l, ¬ b.1 < k := by
  intro l
  induction l with
  | nil =>
    intro _ k _ b hb
    cases hb
  | cons e0 t ih =>
    intro hs k h b hb
    rw [lastLt_cons] at h
    by_cases h1 : e0.1 < k
    · rw [if_pos h1] at h
      cases h
    · rcases List.mem_cons.1 hb with rfl | hm
      · exact h1
      · have := hs.head_lt b hm
        omega

theorem lastLt_eq_some {β : Type} :
    ∀ {l : List (Nat × β)}, KSorted l → ∀ {k : Nat} {e : Nat × β},
      lastLt l k = some e →
      e ∈ l ∧ e.1 < k ∧ ∀ b ∈ l, b.1 < k → b.1 ≤ e.1 := by
  intro l
  induction l with
  | nil =>
    intro _ k e h
    cases h
  | cons e0 t ih =>
    intro hs k e h
    rw [lastLt_cons] at h
    by_cases h1 : e0.1 < k
    · rw [if_pos h1] at h
      cases ht : lastLt t k with
      | none =>
        rw [ht] at h
        simp only [Option.getD_none] at h
        cases h
        refine ⟨List.mem_cons_self _ _, h1, ?_⟩
        intro b hb hbk
        rcases List.mem_cons.1 hb with rfl | hm
        · exact le_refl _
        · exact absurd hbk (lastLt_eq_none hs.tail ht b hm)
      | some e1 =>
        rw [ht] at h
        simp only [Option.getD_some] at h
        cases h
        obtain ⟨hmem, hlt, hmax⟩ := ih hs.tail ht
        refine ⟨List.mem_cons_of_mem _ hmem, hlt, ?_⟩
        intro b hb hbk
        rcases List.mem_cons.1 hb with rfl | hm
        · have := hs.head_lt _ hmem
          omega
        · exact hmax b hm hbk
    · rw [if_neg h1] at h
      cases h

theorem lastLt_of {β : Type} :
    ∀ {l : List (Nat × β)}, KSorted l → ∀ {k : Nat} {e : Nat × β},
      e ∈ l → e.1 < k → (∀ b ∈ l, b.1 < k → b.1 ≤ e.1) →
      lastLt l k = some e := by
  intro l
  induction l with
  | nil =>
    intro _ k e h
    cases h
  | cons e0 t ih =>
    intro hs k e hmem hlt hmax
    rw [lastLt_cons]
    rcases List.mem_cons.1 hmem with rfl | hm
    · rw [if_pos hlt]
      have ht : lastLt t k = none := by
        cases ht : lastLt t k with
        | none => rfl
        | some e1 =>
          obtain ⟨hm1, hlt1, _⟩ := lastLt_eq_some hs.tail ht
          have h2 := hmax e1 (List.mem_cons_of_mem _ hm1) hlt1
          have h3 := hs.head_lt e1 hm1
          omega
      rw [ht]
      rfl
    · have h0 : e0.1 < k := by
        have := hs.head_lt e hm
        omega
      rw [if_pos h0]
      have ht : lastLt t k = some e :=
        ih hs.tail hm hlt (fun b hb hbk => hmax b (List.mem_cons_of_mem _ hb) hbk)
      rw [ht]
      rfl

theorem lastLe_eq_none {β : Type} :
    ∀ {l : List (Nat × β)}, KSorted l → ∀ {k : Nat}, lastLe l k = none →
      ∀ b ∈ l, ¬ b.1 ≤ k := by
  intro l
  induction l with
  | nil =>
    intro _ k _ b hb
    cases hb
  | cons e0 t ih =>
    intro hs k h b hb
    rw [lastLe_cons] at h
    by_cases h1 : e0.1 ≤ k
    · rw [if_pos h1] at h
      cases h
    · rcases List.mem_cons.1 hb with rfl | hm
      · exact h1
      · have := hs.head_lt b hm
        omega

theorem lastLe_eq_some {β : Type} :
    ∀ {l : List (Nat × β)}, KSorted l → ∀ {k : Nat} {e : Nat × β},
      lastLe l k = some e →
      e ∈ l ∧ e.1 ≤ k ∧ ∀ b ∈ l, b.1 ≤ k → b.1 ≤ e.1 := by
  intro l
  induction l with
  | nil =>
    intro _ k e h
    cases h
  | cons e0 t ih =>
    intro hs k e h
    rw [lastLe_cons] at h
    by_cases h1 : e0.1 ≤ k
    · rw [if_pos h1] at h
      cases ht : lastLe t k with
      | none =>
        rw [ht] at h
        simp only [Option.getD_none] at h
        cases h
        refine ⟨List.mem_cons_self _ _, h1, ?_⟩
        intro b hb hbk
        rcases List.mem_cons.1 hb with rfl | hm
        · exact le_refl _
        · exact absurd hbk (lastLe_eq_none hs.tail ht b hm)
      | some e1 =>
        rw [ht] at h
        simp only [Option.getD_some] at h
        cases h
        obtain ⟨hmem, hlt, hmax⟩ := ih hs.tail ht
        refine ⟨List.mem_cons_of_mem _ hmem, hlt, ?_⟩
        intro b hb hbk
        rcases List.mem_cons.1 hb with rfl | hm
        · have := hs.head_lt _ hmem
          omega
        · exact hmax b hm hbk
    · rw [if_neg h1] at h
      cases h

theorem lastLe_of {β : Type} :
    ∀ {l : List (Nat × β)}, KSorted l → ∀ {k : Nat} {e : Nat × β},
      e ∈ l → e.1 ≤ k → (∀ b ∈ l, b.1 ≤ k → b.1 ≤ e.1) →
      lastLe l k = some e := by
  intro l
  induction l with
  | nil =>
    intro _ k e h
    cases h
  | cons e0 t ih =>
    intro hs k e hmem hlt hmax
    rw [lastLe_cons]
    rcases List.mem_cons.1 hmem with rfl | hm
    · rw [if_pos hlt]
      have ht : lastLe t k = none := by
        cases ht : lastLe t k with
        | none => rfl
        | some e1 =>
          obtain ⟨hm1, hlt1, _⟩ := lastLe_eq_some hs.tail ht
          have h2 := hmax e1 (List.mem_cons_of_mem _ hm1) hlt1
          have h3 := hs.head_lt e1 hm1
          omega
      rw [ht]
      rfl
    · have h0 : e0.1 ≤ k := by
        have := hs.head_lt e hm
        omega
      rw [if_pos h0]
      have ht : lastLe t k = some e :=
        ih hs.tail hm hlt (fun b hb hbk => hmax b (List.mem_cons_of_mem _ hb) hbk)
      rw [ht]
      rfl

theorem lastLt_eraseKey_of_le {β : Type} {l : List (Nat × β)} (hs : KSorted l)
    {k k2 : Nat} (hk : k ≤ k2) : lastLt (eraseKey l k2) k = lastLt l k := by
  cases h : lastLt l k with
  | none =>
    cases h2 : lastLt (eraseKey l k2) k with
    | none => rfl
    | some e =>
      obtain ⟨hm, hlt, _⟩ := lastLt_eq_some (KSorted_eraseKey hs k2) h2
      exact absurd hlt (lastLt_eq_none hs h e (mem_eraseKey_elim hm))
  | some e =>
    obtain ⟨hm, hlt, hmax⟩ := lastLt_eq_some hs h
    exact lastLt_of (KSorted_eraseKey hs k2)
      (mem_eraseKey_of_mem hm k2 (by omega)) hlt
      (fun b hb hbk => hmax b (mem_eraseKey_elim hb) hbk)

/-! ## The canonical hole map: characterization lemmas -/

theorem pagesize_pos : 0 < PAGE_SIZE := by decide

theorem mul_page_lt {b c : Nat} (hc : 0 < c) :
    b * PAGE_SIZE < (b + c) * PAGE_SIZE := by
  rw [Nat.add_mul]
  have := Nat.mul_pos hc pagesize_pos
  omega

theorem mul_page_le {a b : Nat} (h : a ≤ b) :
    a * PAGE_SIZE ≤ b * PAGE_SIZE :=
  Nat.mul_le_mul_right _ h

theorem coveredBy_nil (x : Nat) : ¬ coveredBy [] x := by
  rintro ⟨e, he, -⟩
  cases he

theorem coveredBy_cons {e : Nat × GrantInfo} {t : List (Nat × GrantInfo)} (x : Nat) :
    coveredBy (e :: t) x ↔
      (e.1 * PAGE_SIZE ≤ x ∧ x < (e.1 + e.2.page_count) * PAGE_SIZE) ∨
        coveredBy t x := by
  constructor
  · rintro ⟨c, hc, h1, h2⟩
    rcases List.mem_cons.1 hc with rfl | hm
    · exact Or.inl ⟨h1, h2⟩
    · exact Or.inr ⟨c, hm, h1, h2⟩
  · rintro (⟨h1, h2⟩ | ⟨c, hc, h1, h2⟩)
    · exact ⟨e, List.mem_cons_self _ _, h1, h2⟩
    · exact ⟨c, List.mem_cons_of_mem _ hc, h1, h2⟩

theorem gapsFrom_nil (pos : Nat) :
    gapsFrom pos [] =
      if pos < USER_END_OFFSET then [(pos, USER_END_OFFSET - pos)] else [] :=
  rfl

theorem gapsFrom_cons (pos b : Nat) (i : GrantInfo) (rest : List (Nat × GrantInfo)) :
    gapsFrom pos ((b, i) :: rest) =
      (if pos < b * PAGE_SIZE then [(pos, b * PAGE_SIZE - pos)] else []) ++
        gapsFrom ((b + i.page_count) * PAGE_SIZE) rest :=
  rfl

theorem GFrom.tl {pos b : Nat} {i : GrantInfo} {rest : List (Nat × GrantInfo)}
    (h : GFrom pos ((b, i) :: rest)) :
    GFrom ((b + i.page_count) * PAGE_SIZE) rest := by
  obtain ⟨hord, hcnt, hbnd, hpos, hU⟩ := h
  refine ⟨(List.pairwise_cons.1 hord).2,
    fun e he => hcnt e (List.mem_cons_of_mem _ he),
    fun e he => hbnd e (List.mem_cons_of_mem _ he),
    ?_, hbnd (b, i) (List.mem_cons_self _ _)⟩
  intro e he
  exact mul_page_le ((List.pairwise_cons.1 hord).1 e he)

theorem GFrom.head_cnt {pos b : Nat} {i : GrantInfo} {rest : List (Nat × GrantInfo)}
    (h : GFrom pos ((b, i) :: rest)) : 0 < i.page_count :=
  h.2.1 (b, i) (List.mem_cons_self _ _)

theorem GFrom.head_bnd {pos b : Nat} {i : GrantInfo} {rest : List (Nat × GrantInfo)}
    (h : GFrom pos ((b, i) :: rest)) :
    (b + i.page_count) * PAGE_SIZE ≤ USER_END_OFFSET :=
  h.2.2.1 (b, i) (List.mem_cons_self _ _)

theorem GFrom.head_pos {pos b : Nat} {i : GrantInfo} {rest : List (Nat × GrantInfo)}
    (h : GFrom pos ((b, i) :: rest)) : pos ≤ b * PAGE_SIZE :=
  h.2.2.2.1 (b, i) (List.mem_cons_self _ _)

theorem GFrom.rest_key {pos b : Nat} {i : GrantInfo} {rest : List (Nat × GrantInfo)}
    (h : GFrom pos ((b, i) :: rest)) :
    ∀ e ∈ rest, b + i.page_count ≤ e.1 :=
  (List.pairwise_cons.1 h.1).1

theorem GFrom_of_GOk {G : List (Nat × GrantInfo)} (h : GOk G) : GFrom 0 G :=
  ⟨h.1, h.2.1, h.2.2, fun _ _ => Nat.zero_le _, Nat.zero_le _⟩

theorem gapsFrom_key_lb :
    ∀ {G : List (Nat × GrantInfo)} {pos : Nat}, GFrom pos G →
      ∀ e ∈ gapsFrom pos G, pos ≤ e.1 := by
  intro G
  induction G with
  | nil =>
    intro pos _ e he
    rw [gapsFrom_nil] at he
    by_cases h : pos < USER_END_OFFSET
    · rw [if_pos h] at he
      rcases List.mem_singleton.1 he with rfl
      exact le_refl _
    · rw [if_neg h] at he
      cases he
  | cons g rest ih =>
    obtain ⟨b, i⟩ := g
    intro pos hG e he
    rw [gapsFrom_cons] at he
    rcases List.mem_append.1 he with h | h
    · by_cases hp : pos < b * PAGE_SIZE
      · rw [if_pos hp] at h
        rcases List.mem_singleton.1 h with rfl
        exact le_refl _
      · rw [if_neg hp] at h
        cases h
    · have h1 := ih hG.tl e h
      have h2 := hG.head_pos
      have h3 : b * PAGE_SIZE ≤ (b + i.page_count) * PAGE_SIZE :=
        mul_page_le (by omega)
      omega

theorem KSorted_gapsFrom :
    ∀ {G : List (Nat × GrantInfo)} {pos : Nat}, GFrom pos G →
      KSorted (gapsFrom pos G) := by
  intro G
  induction G with
  | nil =>
    intro pos _
    rw [gapsFrom_nil]
    by_cases h : pos < USER_END_OFFSET
    · rw [if_pos h]
      exact List.pairwise_singleton _ _
    · rw [if_neg h]
      exact List.Pairwise.nil
  | cons g rest ih =>
    obtain ⟨b, i⟩ := g
    intro pos hG
    rw [gapsFrom_cons]
    unfold KSorted
    rw [List.pairwise_append]
    refine ⟨?_, ih hG.tl, ?_⟩
    · by_cases hp : pos < b * PAGE_SIZE
      · rw [if_pos hp]
        exact List.pairwise_singleton _ _
      · rw [if_neg hp]
        exact List.Pairwise.nil
    · intro a ha e he
      by_cases hp : pos < b * PAGE_SIZE
      · rw [if_pos hp] at ha
        rcases List.mem_singleton.1 ha with rfl
        have h1 := gapsFrom_key_lb hG.tl e he
        have h2 : b * PAGE_SIZE ≤ (b + i.page_count) * PAGE_SIZE :=
          mul_page_le (by omega)
        show pos < e.1
        omega
      · rw [if_neg hp] at ha
        cases ha

theorem coveredBy_cons_pair {b : Nat} {i : GrantInfo} {t : List (Nat × GrantInfo)}
    (x : Nat) :
    coveredBy ((b, i) :: t) x ↔
      (b * PAGE_SIZE ≤ x ∧ x < (b + i.page_count) * PAGE_SIZE) ∨ coveredBy t x :=
  coveredBy_cons x

/-- The characterization of the canonical hole list: `(o, s)` is a hole of
`gapsFrom pos G` exactly when `[o, o+s)` is a maximal nonempty uncovered
interval of `[pos, USER_END_OFFSET)`. -/
theorem mem_gapsFrom_iff :
    ∀ {G : List (Nat × GrantInfo)} {pos : Nat}, GFrom pos G → ∀ {o s : Nat},
      ((o, s) ∈ gapsFrom pos G ↔
        pos ≤ o ∧ 0 < s ∧ o + s ≤ USER_END_OFFSET ∧
        (∀ x, o ≤ x → x < o + s → ¬ coveredBy G x) ∧
        (o = pos ∨ coveredBy G (o - 1)) ∧
        (o + s = USER_END_OFFSET ∨ coveredBy G (o + s))) := by
  intro G
  induction G with
  | nil =>
    intro pos hG o s
    rw [gapsFrom_nil]
    by_cases hp : pos < USER_END_OFFSET
    · rw [if_pos hp]
      constructor
      · intro hmem
        rcases List.mem_singleton.1 hmem with heq
        obtain ⟨rfl, rfl⟩ : o = pos ∧ s = USER_END_OFFSET - pos := by
          constructor
          · exact congrArg Prod.fst heq
          · exact congrArg Prod.snd heq
        refine ⟨le_refl _, by omega, by omega,
          fun x _ _ => coveredBy_nil x, Or.inl rfl, Or.inl (by omega)⟩
      · rintro ⟨h1, h2, h3, _, h5, h6⟩
        rcases h5 with rfl | h5
        · rcases h6 with h6 | h6
          · exact List.mem_singleton.2
              (by rw [show s = USER_END_OFFSET - o from by omega])
          · exact absurd h6 (coveredBy_nil _)
        · exact absurd h5 (coveredBy_nil _)
    · rw [if_neg hp]
      constructor
      · intro hmem
        cases hmem
      · rintro ⟨h1, h2, h3, -, -, -⟩
        omega
  | cons g rest ih =>
    obtain ⟨b, i⟩ := g
    intro pos hG o s
    have hcb := hG.head_cnt
    have hbd := hG.head_bnd
    have hbp := hG.head_pos
    have hbP : b * PAGE_SIZE < (b + i.page_count) * PAGE_SIZE := mul_page_lt hcb
    have hrest := hG.rest_key
    rw [gapsFrom_cons]
    constructor
    · intro hmem
      rcases List.mem_append.1 hmem with h | h
      · by_cases hp : pos < b * PAGE_SIZE
        · rw [if_pos hp] at h
          rcases List.mem_singleton.1 h with heq
          obtain ⟨rfl, rfl⟩ : o = pos ∧ s = b * PAGE_SIZE - pos := by
            constructor
            · exact congrArg Prod.fst heq
            · exact congrArg Prod.snd heq
          refine ⟨le_refl _, by omega, by omega, ?_, Or.inl rfl, ?_⟩
          · intro x hx1 hx2
            rw [coveredBy_cons_pair]
            rintro (⟨hc1, hc2⟩ | ⟨e, he, hc1, hc2⟩)
            · omega
            · have := mul_page_le (hrest e he)
              omega
          · right
            rw [coveredBy_cons_pair]
            exact Or.inl ⟨by omega, by omega⟩
        · rw [if_neg hp] at h
          cases h
      · obtain ⟨h1, h2, h3, h4, h5, h6⟩ := (ih hG.tl).1 h
        refine ⟨by omega, h2, h3, ?_, ?_, ?_⟩
        · intro x hx1 hx2
          rw [coveredBy_cons_pair]
          rintro (⟨hc1, hc2⟩ | hc)
          · omega
          · exact h4 x hx1 hx2 hc
        · rcases h5 with rfl | h5
          · right
            rw [coveredBy_cons_pair]
            left
            constructor
            · omega
            · omega
          · right
            rw [coveredBy_cons_pair]
            exact Or.inr h5
        · rcases h6 with h6 | h6
          · exact Or.inl h6
          · right
            rw [coveredBy_cons_pair]
            exact Or.inr h6
    · rintro ⟨h1, h2, h3, h4, h5, h6⟩
      by_cases ho : o < b * PAGE_SIZE
      · -- the head gap
        have hse : o + s ≤ b * PAGE_SIZE := by
          by_contra hc
          refine h4 (b * PAGE_SIZE) (by omega) (by omega) ?_
          rw [coveredBy_cons_pair]
          exact Or.inl ⟨le_refl _, hbP⟩
        have hseq : o + s = b * PAGE_SIZE := by
          by_contra hc
          rcases h6 with h6 | h6
          · omega
          · rw [coveredBy_cons_pair] at h6
            rcases h6 with ⟨hc1, hc2⟩ | ⟨e, he, hc1, hc2⟩
            · omega
            · have := mul_page_le (hrest e he)
              omega
        have hop : o = pos := by
          rcases h5 with h5 | h5
          · exact h5
          · exfalso
            rw [coveredBy_cons_pair] at h5
            rcases h5 with ⟨hc1, hc2⟩ | ⟨e, he, hc1, hc2⟩
            · omega
            · have := mul_page_le (hrest e he)
              omega
        apply List.mem_append.2
        left
        rw [if_pos (by omega : pos < b * PAGE_SIZE)]
        apply List.mem_singleton.2
        rw [hop, show s = b * PAGE_SIZE - pos from by omega]
      · -- inside the tail
        have ho2 : (b + i.page_count) * PAGE_SIZE ≤ o := by
          by_contra hc
          refine h4 o (le_refl _) (by omega) ?_
          rw [coveredBy_cons_pair]
          exact Or.inl ⟨by omega, by omega⟩
        apply List.mem_append.2
        right
        apply (ih hG.tl).2
        refine ⟨ho2, h2, h3, ?_, ?_, ?_⟩
        · intro x hx1 hx2
          intro hc
          refine h4 x hx1 hx2 ?_
          rw [coveredBy_cons_pair]
          exact Or.inr hc
        · rcases h5 with rfl | h5
          · left
            omega
          · rw [coveredBy_cons_pair] at h5
            rcases h5 with ⟨hc1, hc2⟩ | h5
            · left
              omega
            · exact Or.inr h5
        · rcases h6 with h6 | h6
          · exact Or.inl h6
          · rw [coveredBy_cons_pair] at h6
            rcases h6 with ⟨hc1, hc2⟩ | h6
            · omega
            · exact Or.inr h6

theorem inHoles_nil (x : Nat) : ¬ inHoles [] x := by
  rintro ⟨e, he, -⟩
  cases he

theorem inHoles_append {l1 l2 : List (Nat × Nat)} (x : Nat) :
    inHoles (l1 ++ l2) x ↔ inHoles l1 x ∨ inHoles l2 x := by
  constructor
  · rintro ⟨e, he, h1, h2⟩
    rcases List.mem_append.1 he with h | h
    · exact Or.inl ⟨e, h, h1, h2⟩
    · exact Or.inr ⟨e, h, h1, h2⟩
  · rintro (⟨e, he, h1, h2⟩ | ⟨e, he, h1, h2⟩)
    · exact ⟨e, List.mem_append.2 (Or.inl he), h1, h2⟩
    · exact ⟨e, List.mem_append.2 (Or.inr he), h1, h2⟩

/-- Coverage of the canonical hole list: exactly the uncovered part of
`[pos, USER_END_OFFSET)`. -/
theorem inHoles_gapsFrom :
    ∀ {G : List (Nat × GrantInfo)} {pos : Nat}, GFrom pos G → ∀ x,
      (inHoles (gapsFrom pos G) x ↔
        pos ≤ x ∧ x < USER_END_OFFSET ∧ ¬ coveredBy G x) := by
  intro G
  induction G with
  | nil =>
    intro pos hG x
    rw [gapsFrom_nil]
    by_cases hp : pos < USER_END_OFFSET
    · rw [if_pos hp]
      constructor
      · rintro ⟨e, he, h1, h2⟩
        rcases List.mem_singleton.1 he with rfl
        exact ⟨h1, by omega, coveredBy_nil x⟩
      · rintro ⟨h1, h2, -⟩
        exact ⟨(pos, USER_END_OFFSET - pos), List.mem_singleton.2 rfl, h1, by omega⟩
    · rw [if_neg hp]
      constructor
      · intro h
        exact absurd h (inHoles_nil x)
      · rintro ⟨h1, h2, -⟩
        omega
  | cons g rest ih =>
    obtain ⟨b, i⟩ := g
    intro pos hG x
    have hcb := hG.head_cnt
    have hbd := hG.head_bnd
    have hbp := hG.head_pos
    have hbP : b * PAGE_SIZE < (b + i.page_count) * PAGE_SIZE := mul_page_lt hcb
    have hrest := hG.rest_key
    rw [gapsFrom_cons, inHoles_append, ih hG.tl, coveredBy_cons_pair]
    constructor
    · rintro (⟨e, he, h1, h2⟩ | ⟨h1, h2, h3⟩)
      · by_cases hp : pos < b * PAGE_SIZE
        · rw [if_pos hp] at he
          rcases List.mem_singleton.1 he with rfl
          refine ⟨h1, by omega, ?_⟩
          rintro (⟨hc1, hc2⟩ | ⟨e2, he2, hc1, hc2⟩)
          · omega
          · have := mul_page_le (hrest e2 he2)
            omega
        · rw [if_neg hp] at he
          cases he
      · refine ⟨by omega, h2, ?_⟩
        rintro (⟨hc1, hc2⟩ | hc)
        · omega
        · exact h3 hc
    · rintro ⟨h1, h2, h3⟩
      by_cases hx : x < b * PAGE_SIZE
      · left
        have hp : pos < b * PAGE_SIZE := by omega
        rw [if_pos hp]
        exact ⟨(pos, b * PAGE_SIZE - pos), List.mem_singleton.2 rfl, h1, by omega⟩
      · right
        have hx2 : (b + i.page_count) * PAGE_SIZE ≤ x := by
          by_contra hc
          exact h3 (Or.inl ⟨by omega, by omega⟩)
        exact ⟨hx2, h2, fun hc => h3 (Or.inr hc)⟩

/-- Two distinct canonical holes are strictly separated (not even adjacent). -/
theorem gaps_separated {G : List (Nat × GrantInfo)} {pos : Nat} (hG : GFrom pos G)
    {o1 s1 o2 s2 : Nat}
    (h1 : (o1, s1) ∈ gapsFrom pos G) (h2 : (o2, s2) ∈ gapsFrom pos G)
    (hlt : o1 < o2) : o1 + s1 < o2 := by
  obtain ⟨hp1, hs1, hb1, hu1, hst1, hen1⟩ := (mem_gapsFrom_iff hG).1 h1
  obtain ⟨hp2, hs2, hb2, hu2, hst2, hen2⟩ := (mem_gapsFrom_iff hG).1 h2
  rcases hst2 with rfl | hc
  · omega
  · by_contra hle
    exact hu1 (o2 - 1) (by omega) (by omega) hc

/-- A canonical hole at a given start has a unique size. -/
theorem gaps_unique {G : List (Nat × GrantInfo)} {pos : Nat} (hG : GFrom pos G)
    {o s1 s2 : Nat}
    (h1 : (o, s1) ∈ gapsFrom pos G) (h2 : (o, s2) ∈ gapsFrom pos G) : s1 = s2 := by
  have hs := KSorted_gapsFrom hG
  have e1 := mem_lookupKey hs h1
  have e2 := mem_lookupKey hs h2
  rw [e1] at e2
  cases e2
  rfl

/-- The hole of the canonical list containing an uncovered in-range point. -/
theorem gaps_exists {G : List (Nat × GrantInfo)} {pos : Nat} (hG : GFrom pos G)
    {x : Nat} (h1 : pos ≤ x) (h2 : x < USER_END_OFFSET) (h3 : ¬ coveredBy G x) :
    ∃ o s, (o, s) ∈ gapsFrom pos G ∧ o ≤ x ∧ x < o + s := by
  obtain ⟨e, he, hx1, hx2⟩ := (inHoles_gapsFrom hG x).2 ⟨h1, h2, h3⟩
  exact ⟨e.1, e.2, he, hx1, hx2⟩

/-- Every start of a canonical hole other than `pos` is the byte address of
the end of some grant; in particular, hole starts are page-aligned when
`pos` is. -/
theorem gaps_start_aligned {G : List (Nat × GrantInfo)} {pos : Nat}
    (hG : GFrom pos G) {o s : Nat} (h : (o, s) ∈ gapsFrom pos G) :
    o = pos ∨ ∃ e ∈ G, o = (e.1 + e.2.page_count) * PAGE_SIZE := by
  obtain ⟨hp, hs, hb, hu, hst, hen⟩ := (mem_gapsFrom_iff hG).1 h
  rcases hst with rfl | hc
  · exact Or.inl rfl
  · right
    obtain ⟨e, he, h1, h2⟩ := hc
    refine ⟨e, he, ?_⟩
    have hcnt := hG.2.1 e he
    have hou : ¬ coveredBy G o := hu o (le_refl _) (by omega)
    by_contra hne
    have ho : o < (e.1 + e.2.page_count) * PAGE_SIZE := by
      omega
    exact hou ⟨e, he, by omega, ho⟩

theorem mul_page_lt_of_lt {a b : Nat} (h : a < b) :
    a * PAGE_SIZE < b * PAGE_SIZE := by
  have h2 := mul_page_le (show a + 1 ≤ b from h)
  rw [Nat.add_mul] at h2
  have := pagesize_pos
  omega

theorem GOk_eraseKey {G : List (Nat × GrantInfo)} (h : GOk G) (k : Nat) :
    GOk (eraseKey G k) :=
  ⟨List.Pairwise.sublist (eraseKey_sublist G k) h.1,
   fun e he => h.2.1 e (mem_eraseKey_elim he),
   fun e he => h.2.2 e (mem_eraseKey_elim he)⟩

theorem GOk_KSorted {G : List (Nat × GrantInfo)} (h : GOk G) : KSorted G := by
  unfold KSorted
  refine h.1.imp_of_mem ?_
  intro a b ha _ hab
  have := h.2.1 a ha
  omega

theorem pairwise_rel_cases {α : Type} {R : α → α → Prop} :
    ∀ {l : List α}, l.Pairwise R → ∀ {a c : α}, a ∈ l → c ∈ l →
      a = c ∨ R a c ∨ R c a := by
  intro l
  induction l with
  | nil =>
    intro _ a c h
    cases h
  | cons e t ih =>
    intro hp a c ha hc
    rcases List.mem_cons.1 ha with rfl | ha2
    · rcases List.mem_cons.1 hc with rfl | hc2
      · exact Or.inl rfl
      · exact Or.inr (Or.inl ((List.pairwise_cons.1 hp).1 c hc2))
    · rcases List.mem_cons.1 hc with rfl | hc2
      · exact Or.inr (Or.inr ((List.pairwise_cons.1 hp).1 a ha2))
      · exact ih (List.pairwise_cons.1 hp).2 ha2 hc2

/-- A span with no byte covered by `G` is page-disjoint from every grant. -/
theorem span_disjoint_of_free {G : List (Nat × GrantInfo)} (hok : GOk G)
    {b : Nat} {info : GrantInfo} (hcnt : 0 < info.page_count)
    (hfree : ∀ x, b * PAGE_SIZE ≤ x → x < (b + info.page_count) * PAGE_SIZE →
      ¬ coveredBy G x) :
    ∀ e ∈ G, e.1 + e.2.page_count ≤ b ∨ b + info.page_count ≤ e.1 := by
  intro e he
  by_contra hc
  push_neg at hc
  obtain ⟨h1, h2⟩ := hc
  have hecnt := hok.2.1 e he
  have hp1 : b ≤ max b e.1 := le_max_left _ _
  have hp2 : e.1 ≤ max b e.1 := le_max_right _ _
  have hp3 : max b e.1 < b + info.page_count := by omega
  have hp4 : max b e.1 < e.1 + e.2.page_count := by omega
  exact hfree (max b e.1 * PAGE_SIZE) (mul_page_le hp1) (mul_page_lt_of_lt hp3)
    ⟨e, he, mul_page_le hp2, mul_page_lt_of_lt hp4⟩

theorem pairwise_insertKey_span :
    ∀ {G : List (Nat × GrantInfo)},
      G.Pairwise (fun a b2 => a.1 + a.2.page_count ≤ b2.1) →
      (∀ e ∈ G, 0 < e.2.page_count) →
      ∀ {b : Nat} {info : GrantInfo}, 0 < info.page_count →
      (∀ e ∈ G, e.1 + e.2.page_count ≤ b ∨ b + info.page_count ≤ e.1) →
      (insertKey G b info).Pairwise (fun a b2 => a.1 + a.2.page_count ≤ b2.1) := by
  intro G
  induction G with
  | nil =>
    intro _ _ b info _ _
    exact List.pairwise_singleton _ _
  | cons e t ih =>
    intro hord hcnts b info hcnt hdisj
    rw [insertKey_cons]
    by_cases h1 : b < e.1
    · rw [if_pos h1]
      refine List.pairwise_cons.2 ⟨?_, hord⟩
      intro x hx
      rcases List.mem_cons.1 hx with rfl | hm
      · rcases hdisj x (List.mem_cons_self _ _) with h | h
        · exfalso
          omega
        · exact h
      · rcases hdisj x (List.mem_cons_of_mem _ hm) with h | h
        · exfalso
          have := (List.pairwise_cons.1 hord).1 x hm
          omega
        · exact h
    · rw [if_neg h1]
      by_cases h2 : b = e.1
      · exfalso
        rcases hdisj e (List.mem_cons_self _ _) with h | h
        · have := hcnts e (List.mem_cons_self _ _)
          omega
        · omega
      · rw [if_neg h2]
        refine List.pairwise_cons.2
          ⟨?_, ih (List.pairwise_cons.1 hord).2
            (fun x hx => hcnts x (List.mem_cons_of_mem _ hx)) hcnt
            (fun x hx => hdisj x (List.mem_cons_of_mem _ hx))⟩
        intro x hx
        rcases mem_insertKey_elim hx with rfl | hm
        · rcases hdisj e (List.mem_cons_self _ _) with h | h
          · exact h
          · exfalso
            omega
        · exact (List.pairwise_cons.1 hord).1 x hm

theorem GOk_insertKey {G : List (Nat × GrantInfo)} (hok : GOk G) {b : Nat}
    {info : GrantInfo} (hcnt : 0 < info.page_count)
    (hbnd : (b + info.page_count) * PAGE_SIZE ≤ USER_END_OFFSET)
    (hfree : ∀ x, b * PAGE_SIZE ≤ x → x < (b + info.page_count) * PAGE_SIZE →
      ¬ coveredBy G x) :
    GOk (insertKey G b info) := by
  refine ⟨pairwise_insertKey_span hok.1 hok.2.1 hcnt
    (span_disjoint_of_free hok hcnt hfree), ?_, ?_⟩
  · intro e he
    rcases mem_insertKey_elim he with rfl | hm
    · exact hcnt
    · exact hok.2.1 e hm
  · intro e he
    rcases mem_insertKey_elim he with rfl | hm
    · exact hbnd
    · exact hok.2.2 e hm

theorem key_absent_of_free {G : List (Nat × GrantInfo)} (hok : GOk G) {b : Nat}
    {info : GrantInfo} (hcnt : 0 < info.page_count)
    (hfree : ∀ x, b * PAGE_SIZE ≤ x → x < (b + info.page_count) * PAGE_SIZE →
      ¬ coveredBy G x) :
    ∀ i0, (b, i0) ∉ G := by
  intro i0 hmem
  have hc := hok.2.1 (b, i0) hmem
  refine hfree (b * PAGE_SIZE) (le_refl _)
    (mul_page_lt_of_lt (by omega)) ⟨(b, i0), hmem, le_refl _, ?_⟩
  exact mul_page_lt_of_lt (by omega)

theorem coveredBy_insertKey {G : List (Nat × GrantInfo)} {b : Nat}
    {info : GrantInfo} (hkey : ∀ i0, (b, i0) ∉ G) (x : Nat) :
    coveredBy (insertKey G b info) x ↔
      coveredBy G x ∨
        (b * PAGE_SIZE ≤ x ∧ x < (b + info.page_count) * PAGE_SIZE) := by
  constructor
  · rintro ⟨e, he, h1, h2⟩
    rcases mem_insertKey_elim he with rfl | hm
    · exact Or.inr ⟨h1, h2⟩
    · exact Or.inl ⟨e, hm, h1, h2⟩
  · rintro (⟨e, he, h1, h2⟩ | ⟨h1, h2⟩)
    · refine ⟨e, mem_insertKey_of_mem he b info ?_, h1, h2⟩
      intro hk
      have h3 : (e.1, e.2) ∈ G := he
      rw [hk] at h3
      exact hkey e.2 h3
    · exact ⟨(b, info), self_mem_insertKey G b info, h1, h2⟩

theorem coveredBy_eraseKey {G : List (Nat × GrantInfo)} (hok : GOk G)
    {b : Nat} {info : GrantInfo} (hmem : (b, info) ∈ G) (x : Nat) :
    coveredBy (eraseKey G b) x ↔
      coveredBy G x ∧
        ¬(b * PAGE_SIZE ≤ x ∧ x < (b + info.page_count) * PAGE_SIZE) := by
  constructor
  · rintro ⟨e, he, h1, h2⟩
    have heG := mem_eraseKey_elim he
    have hne : e.1 ≠ b := key_ne_of_mem_eraseKey (GOk_KSorted hok) he
    refine ⟨⟨e, heG, h1, h2⟩, ?_⟩
    rcases pairwise_rel_cases hok.1 heG hmem with heq | hrel | hrel
    · exfalso
      apply hne
      rw [heq]
    · simp only at hrel
      have := mul_page_le hrel
      rintro ⟨hc1, hc2⟩
      omega
    · simp only at hrel
      have := mul_page_le hrel
      rintro ⟨hc1, hc2⟩
      omega
  · rintro ⟨⟨e, he, h1, h2⟩, hnspan⟩
    have hne : e.1 ≠ b := by
      intro hk
      have h3 : (e.1, e.2) ∈ G := he
      rw [hk] at h3
      have := mem_lookupKey (GOk_KSorted hok) h3
      have h4 := mem_lookupKey (GOk_KSorted hok) hmem
      rw [h4] at this
      cases this
      exact hnspan ⟨by rw [← hk]; exact h1, by rw [← hk]; exact h2⟩
    exact ⟨e, mem_eraseKey_of_mem he b hne, h1, h2⟩

theorem lookup_iff_mem {β : Type} {l : List (Nat × β)} (hs : KSorted l)
    {k : Nat} {v : β} : lookupKey l k = some v ↔ (k, v) ∈ l :=
  ⟨lookupKey_mem, mem_lookupKey hs⟩

theorem reservePrev_some {holes : List (Nat × Nat)} {sa sz o0 s0 : Nat}
    (h : lastLt holes sa = some (o0, s0)) :
    reservePrev holes sa sz =
      if o0 + s0 > sa + sz then
        insertKey (if o0 + s0 > sa then updateKey holes o0 (sa - o0) else holes)
          (sa + sz) (o0 + s0 - (sa + sz))
      else if o0 + s0 > sa then updateKey holes o0 (sa - o0) else holes := by
  unfold reservePrev
  rw [h]

theorem reservePrev_none {holes : List (Nat × Nat)} {sa sz : Nat}
    (h : lastLt holes sa = none) :
    reservePrev holes sa sz = holes := by
  unfold reservePrev
  rw [h]

theorem reserve_eq_some {holes : List (Nat × Nat)} {base page_count hsz : Nat}
    (h : lookupKey (reservePrev holes (base * PAGE_SIZE) (page_count * PAGE_SIZE))
      (base * PAGE_SIZE) = some hsz) :
    UserGrants.reserve holes base page_count =
      if hsz - page_count * PAGE_SIZE > 0 then
        insertKey
          (eraseKey (reservePrev holes (base * PAGE_SIZE) (page_count * PAGE_SIZE))
            (base * PAGE_SIZE))
          (base * PAGE_SIZE + page_count * PAGE_SIZE)
          (hsz - page_count * PAGE_SIZE)
      else
        eraseKey (reservePrev holes (base * PAGE_SIZE) (page_count * PAGE_SIZE))
          (base * PAGE_SIZE) := by
  unfold UserGrants.reserve
  rw [h]

theorem reserve_eq_none {holes : List (Nat × Nat)} {base page_count : Nat}
    (h : lookupKey (reservePrev holes (base * PAGE_SIZE) (page_count * PAGE_SIZE))
      (base * PAGE_SIZE) = none) :
    UserGrants.reserve holes base page_count =
      reservePrev holes (base * PAGE_SIZE) (page_count * PAGE_SIZE) := by
  unfold UserGrants.reserve
  rw [h]

/-- `reserve` on the canonical hole list simulates inserting the grant. -/
theorem reserve_canonical {G : List (Nat × GrantInfo)} (hok : GOk G) {b : Nat}
    {info : GrantInfo} (hcnt : 0 < info.page_count)
    (hbnd : (b + info.page_count) * PAGE_SIZE ≤ USER_END_OFFSET)
    (hfree : ∀ x, b * PAGE_SIZE ≤ x → x < (b + info.page_count) * PAGE_SIZE →
      ¬ coveredBy G x) :
    UserGrants.reserve (canonicalHoles G) b info.page_count =
      canonicalHoles (insertKey G b info) := by
  have hG0 : GFrom 0 G := GFrom_of_GOk hok
  have hkey : ∀ i0, (b, i0) ∉ G := key_absent_of_free hok hcnt hfree
  have hok1 : GOk (insertKey G b info) := GOk_insertKey hok hcnt hbnd hfree
  have hG1 : GFrom 0 (insertKey G b info) := GFrom_of_GOk hok1
  have hcov1 := @coveredBy_insertKey G b info hkey
  have hslt : b * PAGE_SIZE < (b + info.page_count) * PAGE_SIZE := mul_page_lt hcnt
  have hEeq : (b + info.page_count) * PAGE_SIZE =
      b * PAGE_SIZE + info.page_count * PAGE_SIZE := Nat.add_mul _ _ _
  obtain ⟨ho, hs, hhm, hho1, hho2⟩ := gaps_exists hG0 (Nat.zero_le _) (by omega)
    (hfree _ (le_refl _) hslt)
  obtain ⟨-, hhs_pos, hhb, hhu, hhst, hhen⟩ := (mem_gapsFrom_iff hG0).1 hhm
  have hespan : (b + info.page_count) * PAGE_SIZE ≤ ho + hs := by
    by_contra hc
    rcases hhen with h | h
    · omega
    · exact hfree (ho + hs) (by omega) (by omega) h
  have hs0 : KSorted (gapsFrom 0 G) := KSorted_gapsFrom hG0
  have hs1 : KSorted (gapsFrom 0 (insertKey G b info)) := KSorted_gapsFrom hG1
  have hnomem1 : ∀ k w, b * PAGE_SIZE ≤ k → k < (b + info.page_count) * PAGE_SIZE →
      (k, w) ∉ gapsFrom 0 (insertKey G b info) := by
    intro k w hk1 hk2 hm
    obtain ⟨-, hw, -, hu, -, -⟩ := (mem_gapsFrom_iff hG1).1 hm
    exact hu k (le_refl _) (by omega) ((hcov1 k).2 (Or.inr ⟨hk1, hk2⟩))
  have hlooknone1 : ∀ k, b * PAGE_SIZE ≤ k → k < (b + info.page_count) * PAGE_SIZE →
      lookupKey (gapsFrom 0 (insertKey G b info)) k = none := by
    intro k h1 h2
    cases hl : lookupKey (gapsFrom 0 (insertKey G b info)) k with
    | none => rfl
    | some w => exact absurd (lookupKey_mem hl) (hnomem1 k w h1 h2)
  have hnokeyG : ∀ k, ho < k → k < ho + hs → lookupKey (gapsFrom 0 G) k = none := by
    intro k h1 h2
    cases hl : lookupKey (gapsFrom 0 G) k with
    | none => rfl
    | some w =>
      have hm2 := lookupKey_mem hl
      have := gaps_separated hG0 hhm hm2 h1
      omega
  have htrans : ∀ k w, k ≠ ho → k ≠ (b + info.page_count) * PAGE_SIZE →
      ((k, w) ∈ gapsFrom 0 G ↔ (k, w) ∈ gapsFrom 0 (insertKey G b info)) := by
    intro o w hne1 hne2
    constructor
    · intro hm
      obtain ⟨-, hw, hb2, hu, hst, hen⟩ := (mem_gapsFrom_iff hG0).1 hm
      have hdisj : ho + hs ≤ o ∨ o + w ≤ ho := by
        rcases Nat.lt_trichotomy o ho with h | h | h
        · right
          have := gaps_separated hG0 hm hhm h
          omega
        · exact absurd h hne1
        · left
          have := gaps_separated hG0 hhm hm h
          omega
      refine (mem_gapsFrom_iff hG1).2 ⟨Nat.zero_le _, hw, hb2, ?_, ?_, ?_⟩
      · intro x hx1 hx2 hc
        rcases (hcov1 x).1 hc with hc2 | hc2
        · exact hu x hx1 hx2 hc2
        · omega
      · rcases hst with h | h
        · exact Or.inl h
        · exact Or.inr ((hcov1 _).2 (Or.inl h))
      · rcases hen with h | h
        · exact Or.inl h
        · exact Or.inr ((hcov1 _).2 (Or.inl h))
    · intro hm
      obtain ⟨-, hw, hb2, hu, hst, hen⟩ := (mem_gapsFrom_iff hG1).1 hm
      have huG : ∀ x, o ≤ x → x < o + w → ¬ coveredBy G x := by
        intro x hx1 hx2 hc
        exact hu x hx1 hx2 ((hcov1 x).2 (Or.inl hc))
      refine (mem_gapsFrom_iff hG0).2 ⟨Nat.zero_le _, hw, hb2, huG, ?_, ?_⟩
      · rcases hst with h | h
        · exact Or.inl h
        · rcases (hcov1 _).1 h with h2 | h2
          · exact Or.inr h2
          · exfalso
            have hco : ¬ coveredBy (insertKey G b info) o :=
              hu o (le_refl _) (by omega)
            exact hco ((hcov1 o).2 (Or.inr (by omega)))
      · rcases hen with h | h
        · exact Or.inl h
        · rcases (hcov1 _).1 h with h2 | h2
          · exact Or.inr h2
          · exfalso
            rcases Nat.lt_or_ge o (b * PAGE_SIZE) with hoS | hoS
            · rcases Nat.lt_or_ge (b * PAGE_SIZE) (o + w) with hSow | hSow
              · exact hu (b * PAGE_SIZE) (by omega) (by omega)
                  ((hcov1 _).2 (Or.inr ⟨le_refl _, hslt⟩))
              · rcases Nat.lt_or_ge o ho with holt | hoge
                · rcases hhst with h3 | h3
                  · omega
                  · exact huG (ho - 1) (by omega) (by omega) h3
                · have holt2 : ho < o := by omega
                  rcases hst with h3 | h3
                  · omega
                  · rcases (hcov1 _).1 h3 with h4 | h4
                    · exact hhu (o - 1) (by omega) (by omega) h4
                    · omega
            · exact hu o (le_refl _) (by omega) ((hcov1 o).2 (Or.inr (by omega)))
  have helse : ∀ k, k ≠ ho → k ≠ (b + info.page_count) * PAGE_SIZE →
      lookupKey (gapsFrom 0 G) k = lookupKey (gapsFrom 0 (insertKey G b info)) k := by
    intro k h1 h2
    cases hl : lookupKey (gapsFrom 0 G) k with
    | some w =>
      exact (mem_lookupKey hs1 ((htrans k w h1 h2).1 (lookupKey_mem hl))).symm
    | none =>
      cases hl2 : lookupKey (gapsFrom 0 (insertKey G b info)) k with
      | some w =>
        have h3 := mem_lookupKey hs0 ((htrans k w h1 h2).2 (lookupKey_mem hl2))
        rw [hl] at h3
        cases h3
      | none => rfl
  have hmem_left : ho < b * PAGE_SIZE →
      (ho, b * PAGE_SIZE - ho) ∈ gapsFrom 0 (insertKey G b info) := by
    intro hlt
    refine (mem_gapsFrom_iff hG1).2 ⟨Nat.zero_le _, by omega, by omega, ?_, ?_, ?_⟩
    · intro x hx1 hx2 hc
      rcases (hcov1 x).1 hc with hc2 | hc2
      · exact hhu x hx1 (by omega) hc2
      · omega
    · rcases hhst with h | h
      · exact Or.inl h
      · exact Or.inr ((hcov1 _).2 (Or.inl h))
    · right
      exact (hcov1 _).2 (Or.inr ⟨by omega, by omega⟩)
  have hmem_right : (b + info.page_count) * PAGE_SIZE < ho + hs →
      ((b + info.page_count) * PAGE_SIZE, ho + hs - (b + info.page_count) * PAGE_SIZE)
        ∈ gapsFrom 0 (insertKey G b info) := by
    intro hlt
    refine (mem_gapsFrom_iff hG1).2 ⟨Nat.zero_le _, by omega, by omega, ?_, ?_, ?_⟩
    · intro x hx1 hx2 hc
      rcases (hcov1 x).1 hc with hc2 | hc2
      · exact hhu x (by omega) (by omega) hc2
      · omega
    · right
      exact (hcov1 _).2 (Or.inr ⟨by omega, by omega⟩)
    · have hsum : (b + info.page_count) * PAGE_SIZE +
          (ho + hs - (b + info.page_count) * PAGE_SIZE) = ho + hs := by omega
      rw [hsum]
      rcases hhen with h | h
      · exact Or.inl h
      · exact Or.inr ((hcov1 _).2 (Or.inl h))
  have hnomemE : (b + info.page_count) * PAGE_SIZE = ho + hs →
      lookupKey (gapsFrom 0 (insertKey G b info))
        ((b + info.page_count) * PAGE_SIZE) = none := by
    intro heq
    cases hl : lookupKey (gapsFrom 0 (insertKey G b info))
        ((b + info.page_count) * PAGE_SIZE) with
    | none => rfl
    | some w =>
      exfalso
      obtain ⟨-, hw, hb2, hu, -, -⟩ := (mem_gapsFrom_iff hG1).1 (lookupKey_mem hl)
      rcases hhen with h | h
      · omega
      · exact hu _ (le_refl _) (by omega) ((hcov1 _).2 (Or.inl (heq ▸ h)))
  have hlookE2 : lookupKey (gapsFrom 0 G) (ho + hs) = none := by
    cases hl : lookupKey (gapsFrom 0 G) (ho + hs) with
    | none => rfl
    | some w =>
      have := gaps_separated hG0 hhm (lookupKey_mem hl) (by omega)
      omega
  show UserGrants.reserve (gapsFrom 0 G) b info.page_count =
    gapsFrom 0 (insertKey G b info)
  -- case split on the relative position of the hole and the reserved span
  rcases Nat.lt_or_ge ho (b * PAGE_SIZE) with hA | hB
  · -- the hole starts strictly before the span: previous-hole handling fires
    have hlast : lastLt (gapsFrom 0 G) (b * PAGE_SIZE) = some (ho, hs) := by
      refine lastLt_of hs0 hhm hA ?_
      intro b2 hb2 hlt2
      by_contra hgt
      push_neg at hgt
      have hm2 : (b2.1, b2.2) ∈ gapsFrom 0 G := hb2
      have := gaps_separated hG0 hhm hm2 hgt
      omega
    have hprev : reservePrev (gapsFrom 0 G) (b * PAGE_SIZE)
        (info.page_count * PAGE_SIZE) =
        (if ho + hs > b * PAGE_SIZE + info.page_count * PAGE_SIZE then
          insertKey (updateKey (gapsFrom 0 G) ho (b * PAGE_SIZE - ho))
            (b * PAGE_SIZE + info.page_count * PAGE_SIZE)
            (ho + hs - (b * PAGE_SIZE + info.page_count * PAGE_SIZE))
        else updateKey (gapsFrom 0 G) ho (b * PAGE_SIZE - ho)) := by
      rw [reservePrev_some hlast]
      by_cases hsplit : ho + hs > b * PAGE_SIZE + info.page_count * PAGE_SIZE
      · rw [if_pos hsplit, if_pos hsplit, if_pos (by omega)]
      · rw [if_neg hsplit, if_neg hsplit, if_pos (by omega)]
    have hupd_sorted : KSorted (updateKey (gapsFrom 0 G) ho (b * PAGE_SIZE - ho)) :=
      KSorted_updateKey hs0 _ _
    have hlookS : lookupKey (gapsFrom 0 G) (b * PAGE_SIZE) = none :=
      hnokeyG _ hA hho2
    have hlookupd : ∀ k, lookupKey (updateKey (gapsFrom 0 G) ho (b * PAGE_SIZE - ho)) k =
        if k = ho then some (b * PAGE_SIZE - ho) else lookupKey (gapsFrom 0 G) k := by
      intro k
      rw [lookup_updateKey hs0]
      by_cases hk : k = ho
      · rw [if_pos hk, if_pos hk, mem_lookupKey hs0 hhm]
        rfl
      · rw [if_neg hk, if_neg hk]
    rcases Nat.lt_or_ge ((b + info.page_count) * PAGE_SIZE) (ho + hs) with hA1 | hA2
    · -- case A1: the hole is split in two
      have hprevA1 : reservePrev (gapsFrom 0 G) (b * PAGE_SIZE)
          (info.page_count * PAGE_SIZE) =
          insertKey (updateKey (gapsFrom 0 G) ho (b * PAGE_SIZE - ho))
            (b * PAGE_SIZE + info.page_count * PAGE_SIZE)
            (ho + hs - (b * PAGE_SIZE + info.page_count * PAGE_SIZE)) := by
        rw [hprev, if_pos (by omega)]
      have hlookPrev : lookupKey (reservePrev (gapsFrom 0 G) (b * PAGE_SIZE)
          (info.page_count * PAGE_SIZE)) (b * PAGE_SIZE) = none := by
        rw [hprevA1, lookup_insertKey, if_neg (by omega : ¬ b * PAGE_SIZE =
          b * PAGE_SIZE + info.page_count * PAGE_SIZE), hlookupd,
          if_neg (by omega : ¬ b * PAGE_SIZE = ho), hlookS]
      have hres : UserGrants.reserve (gapsFrom 0 G) b info.page_count =
          insertKey (updateKey (gapsFrom 0 G) ho (b * PAGE_SIZE - ho))
            (b * PAGE_SIZE + info.page_count * PAGE_SIZE)
            (ho + hs - (b * PAGE_SIZE + info.page_count * PAGE_SIZE)) := by
        rw [reserve_eq_none hlookPrev, hprevA1]
      rw [hres]
      refine sorted_ext (KSorted_insertKey hupd_sorted _ _) hs1 ?_
      intro k
      rw [lookup_insertKey]
      by_cases hkE : k = b * PAGE_SIZE + info.page_count * PAGE_SIZE
      · rw [if_pos hkE, hkE]
        rw [hEeq] at hmem_right
        exact (mem_lookupKey hs1 (hmem_right (by omega))).symm
      · rw [if_neg hkE, hlookupd]
        by_cases hkho : k = ho
        · rw [if_pos hkho, hkho]
          exact (mem_lookupKey hs1 (hmem_left hA)).symm
        · rw [if_neg hkho]
          by_cases hkS : b * PAGE_SIZE ≤ k ∧ k < (b + info.page_count) * PAGE_SIZE
          · rw [hlooknone1 k hkS.1 hkS.2, hnokeyG k (by omega) (by omega)]
          · exact helse k hkho (by omega)
    · -- case A2: the span reaches exactly the end of the hole
      have hEho : (b + info.page_count) * PAGE_SIZE = ho + hs := by omega
      have hprevA2 : reservePrev (gapsFrom 0 G) (b * PAGE_SIZE)
          (info.page_count * PAGE_SIZE) =
          updateKey (gapsFrom 0 G) ho (b * PAGE_SIZE - ho) := by
        rw [hprev, if_neg (by omega)]
      have hlookPrev : lookupKey (reservePrev (gapsFrom 0 G) (b * PAGE_SIZE)
          (info.page_count * PAGE_SIZE)) (b * PAGE_SIZE) = none := by
        rw [hprevA2, hlookupd, if_neg (by omega : ¬ b * PAGE_SIZE = ho), hlookS]
      have hres : UserGrants.reserve (gapsFrom 0 G) b info.page_count =
          updateKey (gapsFrom 0 G) ho (b * PAGE_SIZE - ho) := by
        rw [reserve_eq_none hlookPrev, hprevA2]
      rw [hres]
      refine sorted_ext hupd_sorted hs1 ?_
      intro k
      rw [hlookupd]
      by_cases hkho : k = ho
      · rw [if_pos hkho, hkho]
        exact (mem_lookupKey hs1 (hmem_left hA)).symm
      · rw [if_neg hkho]
        by_cases hkE : k = (b + info.page_count) * PAGE_SIZE
        · rw [hkE, hnomemE hEho, hEho, hlookE2]
        · by_cases hkS : b * PAGE_SIZE ≤ k ∧ k < (b + info.page_count) * PAGE_SIZE
          · rw [hlooknone1 k hkS.1 hkS.2, hnokeyG k (by omega) (by omega)]
          · exact helse k hkho hkE
  · -- case B: the hole starts exactly at the span
    have hhoS : ho = b * PAGE_SIZE := by omega
    subst hhoS
    have hprev : reservePrev (gapsFrom 0 G) (b * PAGE_SIZE)
        (info.page_count * PAGE_SIZE) = gapsFrom 0 G := by
      cases hl : lastLt (gapsFrom 0 G) (b * PAGE_SIZE) with
      | none => exact reservePrev_none hl
      | some pr =>
        obtain ⟨o0, s0⟩ := pr
        obtain ⟨hm0, hlt0, -⟩ := lastLt_eq_some hs0 hl
        have hsep := gaps_separated hG0 hm0 hhm hlt0
        rw [reservePrev_some hl,
          if_neg (show ¬ o0 + s0 > b * PAGE_SIZE + info.page_count * PAGE_SIZE from
            by omega),
          if_neg (show ¬ o0 + s0 > b * PAGE_SIZE from by omega)]
    have hlookS : lookupKey (gapsFrom 0 G) (b * PAGE_SIZE) = some hs :=
      mem_lookupKey hs0 hhm
    have herase_sorted : KSorted (eraseKey (gapsFrom 0 G) (b * PAGE_SIZE)) :=
      KSorted_eraseKey hs0 _
    rcases Nat.lt_or_ge ((b + info.page_count) * PAGE_SIZE)
        (b * PAGE_SIZE + hs) with hB1 | hB2
    · -- case B1: a remainder hole is reinserted at the end of the span
      have hlookPrev : lookupKey (reservePrev (gapsFrom 0 G) (b * PAGE_SIZE)
          (info.page_count * PAGE_SIZE)) (b * PAGE_SIZE) = some hs := by
        rw [hprev, hlookS]
      have hres : UserGrants.reserve (gapsFrom 0 G) b info.page_count =
          insertKey (eraseKey (gapsFrom 0 G) (b * PAGE_SIZE))
            (b * PAGE_SIZE + info.page_count * PAGE_SIZE)
            (hs - info.page_count * PAGE_SIZE) := by
        rw [reserve_eq_some hlookPrev, if_pos (by omega), hprev]
      rw [hres]
      refine sorted_ext (KSorted_insertKey herase_sorted _ _) hs1 ?_
      intro k
      rw [lookup_insertKey]
      by_cases hkE : k = b * PAGE_SIZE + info.page_count * PAGE_SIZE
      · rw [if_pos hkE, hkE]
        have hmr := hmem_right (by omega)
        rw [hEeq] at hmr
        rw [mem_lookupKey hs1 hmr]
        exact congrArg some (by omega)
      · rw [if_neg hkE, lookup_eraseKey hs0]
        by_cases hkS0 : k = b * PAGE_SIZE
        · rw [if_pos hkS0, hkS0, hlooknone1 _ (le_refl _) hslt]
        · rw [if_neg hkS0]
          by_cases hkS : b * PAGE_SIZE ≤ k ∧ k < (b + info.page_count) * PAGE_SIZE
          · rw [hlooknone1 k hkS.1 hkS.2, hnokeyG k (by omega) (by omega)]
          · exact helse k hkS0 (by omega)
    · -- case B2: the span fills the hole exactly
      have hEho : (b + info.page_count) * PAGE_SIZE = b * PAGE_SIZE + hs := by omega
      have hlookPrev : lookupKey (reservePrev (gapsFrom 0 G) (b * PAGE_SIZE)
          (info.page_count * PAGE_SIZE)) (b * PAGE_SIZE) = some hs := by
        rw [hprev, hlookS]
      have hres : UserGrants.reserve (gapsFrom 0 G) b info.page_count =
          eraseKey (gapsFrom 0 G) (b * PAGE_SIZE) := by
        rw [reserve_eq_some hlookPrev, if_neg (by omega), hprev]
      rw [hres]
      refine sorted_ext herase_sorted hs1 ?_
      intro k
      rw [lookup_eraseKey hs0]
      by_cases hkS0 : k = b * PAGE_SIZE
      · rw [if_pos hkS0, hkS0, hlooknone1 _ (le_refl _) hslt]
      · rw [if_neg hkS0]
        by_cases hkE : k = (b + info.page_count) * PAGE_SIZE
        · rw [hkE, hnomemE hEho, hEho, hlookE2]
        · by_cases hkS : b * PAGE_SIZE ≤ k ∧ k < (b + info.page_count) * PAGE_SIZE
          · rw [hlooknone1 k hkS.1 hkS.2, hnokeyG k (by omega) (by omega)]
          · exact helse k hkS0 hkE

theorem unreserveMerge_some {holes1 : List (Nat × Nat)} {sa size after o0 s0 : Nat}
    (h : lastLt holes1 sa = some (o0, s0)) :
    unreserveMerge holes1 sa size after =
      if o0 + s0 = sa then updateKey holes1 o0 (sa + size - o0 + after)
      else insertKey holes1 sa (size + after) := by
  unfold unreserveMerge
  rw [h]

theorem unreserveMerge_none {holes1 : List (Nat × Nat)} {sa size after : Nat}
    (h : lastLt holes1 sa = none) :
    unreserveMerge holes1 sa size after = insertKey holes1 sa (size + after) := by
  unfold unreserveMerge
  rw [h]

/-- `unreserve` on the canonical hole list simulates erasing the grant. -/
theorem unreserve_canonical {G : List (Nat × GrantInfo)} (hok : GOk G) {b : Nat}
    {info : GrantInfo} (hmem : (b, info) ∈ G) :
    UserGrants.unreserve (canonicalHoles G) b info.page_count =
      canonicalHoles (eraseKey G b) := by
  have hcnt : 0 < info.page_count := hok.2.1 (b, info) hmem
  have hbnd : (b + info.page_count) * PAGE_SIZE ≤ USER_END_OFFSET :=
    hok.2.2 (b, info) hmem
  have hEeq : (b + info.page_count) * PAGE_SIZE =
      b * PAGE_SIZE + info.page_count * PAGE_SIZE := Nat.add_mul _ _ _
  have hslt : b * PAGE_SIZE < (b + info.page_count) * PAGE_SIZE := mul_page_lt hcnt
  have hok1 : GOk (eraseKey G b) := GOk_eraseKey hok b
  have hG0 : GFrom 0 G := GFrom_of_GOk hok
  have hG1 : GFrom 0 (eraseKey G b) := GFrom_of_GOk hok1
  have hs0 : KSorted (gapsFrom 0 G) := KSorted_gapsFrom hG0
  have hs1 : KSorted (gapsFrom 0 (eraseKey G b)) := KSorted_gapsFrom hG1
  have hcov := coveredBy_eraseKey hok hmem
  have hcovG : ∀ x, coveredBy (eraseKey G b) x → coveredBy G x := by
    rintro x ⟨e, he, h1, h2⟩
    exact ⟨e, mem_eraseKey_elim he, h1, h2⟩
  have hspan_cov : ∀ x, b * PAGE_SIZE ≤ x →
      x < b * PAGE_SIZE + info.page_count * PAGE_SIZE → coveredBy G x := by
    intro x h1 h2
    exact ⟨(b, info), hmem, h1, show x < (b + info.page_count) * PAGE_SIZE by omega⟩
  have hSuncov : ¬ coveredBy (eraseKey G b) (b * PAGE_SIZE) := by
    rw [hcov]
    rintro ⟨-, hc⟩
    exact hc ⟨le_refl _, hslt⟩
  obtain ⟨ho, hs, hhm, hho1, hho2⟩ := gaps_exists hG1 (Nat.zero_le _)
    (by omega) hSuncov
  obtain ⟨-, hhs_pos, hhb, hhu, hhst, hhen⟩ := (mem_gapsFrom_iff hG1).1 hhm
  have hEle : b * PAGE_SIZE + info.page_count * PAGE_SIZE ≤ ho + hs := by
    by_contra hc
    rcases hhen with h | h
    · omega
    · rcases (hcov _).1 h with ⟨-, hns⟩
      exact hns ⟨by omega, by omega⟩
  have hlookE1 : lookupKey (gapsFrom 0 (eraseKey G b))
      (b * PAGE_SIZE + info.page_count * PAGE_SIZE) = none := by
    cases hl : lookupKey (gapsFrom 0 (eraseKey G b))
        (b * PAGE_SIZE + info.page_count * PAGE_SIZE) with
    | none => rfl
    | some w =>
      have := gaps_separated hG1 hhm (lookupKey_mem hl) (by omega)
      omega
  have hlook_ho : lookupKey (gapsFrom 0 (eraseKey G b)) ho = some hs :=
    mem_lookupKey hs1 hhm
  have htrans : ∀ k w, k ≠ ho → k ≠ b * PAGE_SIZE + info.page_count * PAGE_SIZE →
      ((k, w) ∈ gapsFrom 0 G ↔ (k, w) ∈ gapsFrom 0 (eraseKey G b)) := by
    intro k w hne1 hne2
    constructor
    · intro hm
      obtain ⟨-, hw, hb2, hu, hst, hen⟩ := (mem_gapsFrom_iff hG0).1 hm
      have hdisj : k + w ≤ b * PAGE_SIZE ∨
          b * PAGE_SIZE + info.page_count * PAGE_SIZE ≤ k := by
        by_contra hc
        push_neg at hc
        exact hu (max k (b * PAGE_SIZE)) (le_max_left _ _) (by omega)
          (hspan_cov _ (le_max_right _ _) (by omega))
      have hnotS : k + w ≠ b * PAGE_SIZE := by
        intro hkw
        have h1 : ho ≤ k := by
          by_contra h
          push_neg at h
          rcases hhst with h0 | hc
          · omega
          · exact hu (ho - 1) (by omega) (by omega) (hcovG _ hc)
        have h2 : k ≤ ho := by
          by_contra h
          push_neg at h
          rcases hst with h0 | hc
          · omega
          · refine hhu (k - 1) (by omega) (by omega) ((hcov _).2 ⟨hc, ?_⟩)
            omega
        exact hne1 (by omega)
      refine (mem_gapsFrom_iff hG1).2 ⟨Nat.zero_le _, hw, hb2, ?_, ?_, ?_⟩
      · intro x hx1 hx2 hc
        exact hu x hx1 hx2 (hcovG x hc)
      · rcases hst with h | h
        · exact Or.inl h
        · refine Or.inr ((hcov _).2 ⟨h, ?_⟩)
          rintro ⟨hc1, hc2⟩
          rcases hdisj with hd | hd
          · omega
          · omega
      · rcases hen with h | h
        · exact Or.inl h
        · refine Or.inr ((hcov _).2 ⟨h, ?_⟩)
          rintro ⟨hc1, hc2⟩
          rcases hdisj with hd | hd
          · omega
          · omega
    · intro hm
      obtain ⟨-, hw, hb2, hu, hst, hen⟩ := (mem_gapsFrom_iff hG1).1 hm
      have hdisj : k + w < ho ∨ ho + hs < k := by
        rcases Nat.lt_trichotomy k ho with h | h | h
        · left
          have := gaps_separated hG1 hm hhm h
          omega
        · exact absurd h hne1
        · right
          exact gaps_separated hG1 hhm hm h
      refine (mem_gapsFrom_iff hG0).2 ⟨Nat.zero_le _, hw, hb2, ?_, ?_, ?_⟩
      · intro x hx1 hx2 hc
        refine hu x hx1 hx2 ((hcov x).2 ⟨hc, ?_⟩)
        rintro ⟨hc1, hc2⟩
        rcases hdisj with hd | hd
        · omega
        · omega
      · rcases hst with h | h
        · exact Or.inl h
        · exact Or.inr (hcovG _ h)
      · rcases hen with h | h
        · exact Or.inl h
        · exact Or.inr (hcovG _ h)
  have helse : ∀ k, k ≠ ho → k ≠ b * PAGE_SIZE + info.page_count * PAGE_SIZE →
      lookupKey (gapsFrom 0 G) k = lookupKey (gapsFrom 0 (eraseKey G b)) k := by
    intro k h1 h2
    cases hl : lookupKey (gapsFrom 0 G) k with
    | some w =>
      exact (mem_lookupKey hs1 ((htrans k w h1 h2).1 (lookupKey_mem hl))).symm
    | none =>
      cases hl2 : lookupKey (gapsFrom 0 (eraseKey G b)) k with
      | some w =>
        have h3 := mem_lookupKey hs0 ((htrans k w h1 h2).2 (lookupKey_mem hl2))
        rw [hl] at h3
        cases h3
      | none => rfl
  have hafter : (lookupKey (gapsFrom 0 G)
      (b * PAGE_SIZE + info.page_count * PAGE_SIZE)).getD 0 =
      ho + hs - (b * PAGE_SIZE + info.page_count * PAGE_SIZE) := by
    rcases Nat.lt_or_ge (b * PAGE_SIZE + info.page_count * PAGE_SIZE) (ho + hs)
        with hR1 | hR2
    · have hRm : (b * PAGE_SIZE + info.page_count * PAGE_SIZE,
          ho + hs - (b * PAGE_SIZE + info.page_count * PAGE_SIZE)) ∈
          gapsFrom 0 G := by
        refine (mem_gapsFrom_iff hG0).2
          ⟨Nat.zero_le _, by omega, by omega, ?_, ?_, ?_⟩
        · intro x hx1 hx2 hc
          refine hhu x (by omega) (by omega) ((hcov x).2 ⟨hc, ?_⟩)
          omega
        · exact Or.inr (hspan_cov _ (by omega) (by omega))
        · have hsum : b * PAGE_SIZE + info.page_count * PAGE_SIZE +
              (ho + hs - (b * PAGE_SIZE + info.page_count * PAGE_SIZE)) =
              ho + hs := by omega
          rw [hsum]
          rcases hhen with h | h
          · exact Or.inl h
          · exact Or.inr (hcovG _ h)
      rw [mem_lookupKey hs0 hRm]
      rfl
    · have hEq : b * PAGE_SIZE + info.page_count * PAGE_SIZE = ho + hs := by omega
      have hnone : lookupKey (gapsFrom 0 G)
          (b * PAGE_SIZE + info.page_count * PAGE_SIZE) = none := by
        cases hl : lookupKey (gapsFrom 0 G)
            (b * PAGE_SIZE + info.page_count * PAGE_SIZE) with
        | none => rfl
        | some w =>
          exfalso
          obtain ⟨-, hw2, hb2, hu2, -, -⟩ :=
            (mem_gapsFrom_iff hG0).1 (lookupKey_mem hl)
          rcases hhen with h | h
          · omega
          · have hcg : coveredBy G (b * PAGE_SIZE + info.page_count * PAGE_SIZE) := by
              rw [hEq]
              exact hcovG _ h
            exact hu2 _ (le_refl _) (by omega) hcg
      rw [hnone]
      show (0 : Nat) = ho + hs - (b * PAGE_SIZE + info.page_count * PAGE_SIZE)
      omega
  show unreserveMerge
      (eraseKey (gapsFrom 0 G) (b * PAGE_SIZE + info.page_count * PAGE_SIZE))
      (b * PAGE_SIZE) (info.page_count * PAGE_SIZE)
      ((lookupKey (gapsFrom 0 G)
        (b * PAGE_SIZE + info.page_count * PAGE_SIZE)).getD 0) =
    gapsFrom 0 (eraseKey G b)
  have hse : KSorted (eraseKey (gapsFrom 0 G)
      (b * PAGE_SIZE + info.page_count * PAGE_SIZE)) := KSorted_eraseKey hs0 _
  rcases Nat.lt_or_ge ho (b * PAGE_SIZE) with hL1 | hL2
  · -- a hole of the old list ends exactly at the span start: it is grown
    have hLmem : (ho, b * PAGE_SIZE - ho) ∈ gapsFrom 0 G := by
      refine (mem_gapsFrom_iff hG0).2
        ⟨Nat.zero_le _, by omega, by omega, ?_, ?_, ?_⟩
      · intro x hx1 hx2 hc
        refine hhu x hx1 (by omega) ((hcov x).2 ⟨hc, ?_⟩)
        omega
      · rcases hhst with h | h
        · exact Or.inl h
        · exact Or.inr (hcovG _ h)
      · have hsum : ho + (b * PAGE_SIZE - ho) = b * PAGE_SIZE := by omega
        rw [hsum]
        exact Or.inr (hspan_cov _ (le_refl _) (by omega))
    have hlast : lastLt (eraseKey (gapsFrom 0 G)
        (b * PAGE_SIZE + info.page_count * PAGE_SIZE)) (b * PAGE_SIZE) =
        some (ho, b * PAGE_SIZE - ho) := by
      refine lastLt_of hse (mem_eraseKey_of_mem hLmem _ (by omega)) hL1 ?_
      intro p hp hplt
      by_contra hgt
      push_neg at hgt
      have hpH : (p.1, p.2) ∈ gapsFrom 0 G := mem_eraseKey_elim hp
      have := gaps_separated hG0 hLmem hpH hgt
      omega
    rw [unreserveMerge_some hlast, if_pos (by omega)]
    refine sorted_ext (KSorted_updateKey hse _ _) hs1 ?_
    intro k
    rw [lookup_updateKey hse]
    by_cases hkho : k = ho
    · rw [if_pos hkho, hkho, lookup_eraseKey hs0,
        if_neg (show ¬ ho = b * PAGE_SIZE + info.page_count * PAGE_SIZE from
          by omega),
        mem_lookupKey hs0 hLmem, hlook_ho]
      show some (b * PAGE_SIZE + info.page_count * PAGE_SIZE - ho +
        (lookupKey (gapsFrom 0 G)
          (b * PAGE_SIZE + info.page_count * PAGE_SIZE)).getD 0) = some hs
      rw [hafter]
      exact congrArg some (by omega)
    · rw [if_neg hkho, lookup_eraseKey hs0]
      by_cases hkE : k = b * PAGE_SIZE + info.page_count * PAGE_SIZE
      · rw [if_pos hkE, hkE, hlookE1]
      · rw [if_neg hkE]
        exact helse k hkho hkE
  · -- no hole ends at the span start: a fresh hole is inserted
    have hho : ho = b * PAGE_SIZE := by omega
    subst hho
    have hins : unreserveMerge
        (eraseKey (gapsFrom 0 G) (b * PAGE_SIZE + info.page_count * PAGE_SIZE))
        (b * PAGE_SIZE) (info.page_count * PAGE_SIZE)
        ((lookupKey (gapsFrom 0 G)
          (b * PAGE_SIZE + info.page_count * PAGE_SIZE)).getD 0) =
        insertKey (eraseKey (gapsFrom 0 G)
          (b * PAGE_SIZE + info.page_count * PAGE_SIZE)) (b * PAGE_SIZE)
          (info.page_count * PAGE_SIZE + (lookupKey (gapsFrom 0 G)
            (b * PAGE_SIZE + info.page_count * PAGE_SIZE)).getD 0) := by
      cases hl : lastLt (eraseKey (gapsFrom 0 G)
          (b * PAGE_SIZE + info.page_count * PAGE_SIZE)) (b * PAGE_SIZE) with
      | none => exact unreserveMerge_none hl
      | some p =>
        obtain ⟨o0, s0⟩ := p
        obtain ⟨pmem, plt, -⟩ := lastLt_eq_some hse hl
        have hpH : (o0, s0) ∈ gapsFrom 0 G := mem_eraseKey_elim pmem
        obtain ⟨-, hw0, -, hu0, -, -⟩ := (mem_gapsFrom_iff hG0).1 hpH
        have hnadj : ¬ o0 + s0 = b * PAGE_SIZE := by
          intro hadj
          rcases hhst with h0 | hc
          · omega
          · exact hu0 (b * PAGE_SIZE - 1) (by omega) (by omega) (hcovG _ hc)
        rw [unreserveMerge_some hl, if_neg hnadj]
    rw [hins]
    refine sorted_ext (KSorted_insertKey hse _ _) hs1 ?_
    intro k
    rw [lookup_insertKey]
    by_cases hkS : k = b * PAGE_SIZE
    · rw [if_pos hkS, hkS, hlook_ho, hafter]
      exact congrArg some (by omega)
    · rw [if_neg hkS, lookup_eraseKey hs0]
      by_cases hkE : k = b * PAGE_SIZE + info.page_count * PAGE_SIZE
      · rw [if_pos hkE, hkE, hlookE1]
      · rw [if_neg hkE]
        exact helse k hkS hkE

theorem intersects_true_iff (s w : PageSpan) :
    PageSpan.intersects s w = true ↔
      max s.base w.base < min (s.base + s.count) (w.base + w.count) := by
  simp only [PageSpan.intersects, PageSpan.intersection, PageSpan.between,
    PageSpan.isEmpty, PageSpan.endPage, Bool.not_eq_true',
    decide_eq_false_iff_not]
  omega

theorem takeWhile_nil_head {α : Type} {l : List α} {q : α → Bool} {e : α}
    (h : l.takeWhile q = []) (hh : l.head? = some e) : q e = false := by
  cases l with
  | nil => cases hh
  | cons x t =>
    have hex : x = e := by
      rw [List.head?_cons] at hh
      injection hh
    subst hex
    cases hq : q x with
    | false => rfl
    | true =>
      rw [List.takeWhile_cons_of_pos hq] at h
      cases h

theorem dropWhile_sorted_head {β : Type} :
    ∀ {l : List (Nat × β)}, KSorted l → ∀ {sb : Nat} {e : Nat × β},
      e ∈ l → sb ≤ e.1 →
      ∃ f, (l.dropWhile (fun x => decide (x.1 < sb))).head? = some f ∧
        f ∈ l ∧ sb ≤ f.1 ∧ f.1 ≤ e.1 := by
  intro l
  induction l with
  | nil =>
    intro _ sb e he
    cases he
  | cons x t ih =>
    intro hs sb e he hge
    by_cases hx : x.1 < sb
    · rw [List.dropWhile_cons, if_pos (decide_eq_true hx)]
      rcases List.mem_cons.1 he with rfl | hm
      · omega
      · obtain ⟨f, h1, h2, h3, h4⟩ := ih (KSorted.tail hs) hm hge
        exact ⟨f, h1, List.mem_cons_of_mem _ h2, h3, h4⟩
    · rw [List.dropWhile_cons, if_neg (fun hc => hx (of_decide_eq_true hc))]
      refine ⟨x, rfl, List.mem_cons_self _ _, by omega, ?_⟩
      rcases List.mem_cons.1 he with rfl | hm
      · exact le_refl _
      · exact le_of_lt (KSorted.head_lt hs e hm)

theorem contains_eq_some_lastLe {u : UserGrants} {page qb : Nat} {qi : GrantInfo}
    (h : lastLe u.inner page = some (qb, qi)) :
    u.contains page =
      if qb ≤ page ∧ page < qb + qi.page_count then some (qb, qi) else none := by
  unfold UserGrants.contains
  rw [h]

theorem contains_eq_none_lastLe {u : UserGrants} {page : Nat}
    (h : lastLe u.inner page = none) : u.contains page = none := by
  unfold UserGrants.contains
  rw [h]

theorem contains_some_spec {u : UserGrants} (hs : KSorted u.inner) {page cb : Nat}
    {ci : GrantInfo} (h : u.contains page = some (cb, ci)) :
    (cb, ci) ∈ u.inner ∧ cb ≤ page ∧ page < cb + ci.page_count := by
  cases hl : lastLe u.inner page with
  | none =>
    rw [contains_eq_none_lastLe hl] at h
    cases h
  | some q =>
    obtain ⟨qb, qi⟩ := q
    rw [contains_eq_some_lastLe hl] at h
    by_cases hg : qb ≤ page ∧ page < qb + qi.page_count
    · rw [if_pos hg] at h
      injection h with h2
      injection h2 with h3 h4
      subst h3
      subst h4
      exact ⟨(lastLe_eq_some hs hl).1, hg.1, hg.2⟩
    · rw [if_neg hg] at h
      cases h

theorem conflicts_eq_none_contains {u : UserGrants} {span : PageSpan}
    (h : u.contains span.base = none) :
    u.conflicts span =
      (u.inner.dropWhile (fun e => decide (e.1 < span.base))).takeWhile
        (fun e => PageSpan.intersects ⟨e.1, e.2.page_count⟩ span) := by
  unfold UserGrants.conflicts
  rw [h]

theorem conflicts_eq_some_contains {u : UserGrants} {span : PageSpan} {cb : Nat}
    {ci : GrantInfo} (h : u.contains span.base = some (cb, ci)) :
    u.conflicts span =
      (u.inner.dropWhile (fun e => decide (e.1 < cb))).takeWhile
        (fun e => PageSpan.intersects ⟨e.1, e.2.page_count⟩ span) := by
  unfold UserGrants.conflicts
  rw [h]

/-- An empty conflict list means every grant is page-disjoint from the span. -/
theorem conflicts_nil_disjoint {u : UserGrants} (hok : GOk u.inner)
    {span : PageSpan} (hcnt : 0 < span.count)
    (h : u.conflicts span = []) :
    ∀ e ∈ u.inner, e.1 + e.2.page_count ≤ span.base ∨
      span.base + span.count ≤ e.1 := by
  have hs := GOk_KSorted hok
  intro e he
  by_contra hc
  push_neg at hc
  obtain ⟨h1, h2⟩ := hc
  cases hcont : u.contains span.base with
  | some p =>
    obtain ⟨cb, ci⟩ := p
    obtain ⟨hcm, hcle, hclt⟩ := contains_some_spec hs hcont
    rw [conflicts_eq_some_contains hcont] at h
    obtain ⟨f, hf1, hf2, hf3, hf4⟩ :=
      dropWhile_sorted_head hs hcm (le_refl cb)
    have hfk : f.1 = cb := by omega
    have hfe : f.2 = ci := by
      have e1 := mem_lookupKey hs hcm
      have e2 : lookupKey u.inner cb = some f.2 := by
        rw [← hfk]
        exact mem_lookupKey hs hf2
      rw [e1] at e2
      injection e2 with e3
      exact e3.symm
    have hq := takeWhile_nil_head h hf1
    have hq2 : PageSpan.intersects ⟨f.1, f.2.page_count⟩ span = false := hq
    have hq4 : ¬ max f.1 span.base <
        min (f.1 + f.2.page_count) (span.base + span.count) := by
      intro hlt
      rw [(intersects_true_iff ⟨f.1, f.2.page_count⟩ span).2 hlt] at hq2
      cases hq2
    rw [hfk, hfe] at hq4
    have hcpos : 0 < ci.page_count := hok.2.1 (cb, ci) hcm
    omega
  | none =>
    rcases Nat.lt_or_ge e.1 span.base with hlt | hge
    · have hmax : ∀ f ∈ u.inner, f.1 ≤ span.base → f.1 ≤ e.1 := by
        intro f hf hfle
        rcases pairwise_rel_cases hok.1 he hf with heq | hrel | hrel
        · rw [heq]
        · have hrel2 : e.1 + e.2.page_count ≤ f.1 := hrel
          omega
        · have hrel2 : f.1 + f.2.page_count ≤ e.1 := hrel
          omega
      have hlast : lastLe u.inner span.base = some (e.1, e.2) :=
        lastLe_of hs he (by omega) hmax
      rw [contains_eq_some_lastLe hlast, if_pos ⟨by omega, h1⟩] at hcont
      cases hcont
    · rw [conflicts_eq_none_contains hcont] at h
      obtain ⟨f, hf1, hf2, hf3, hf4⟩ := dropWhile_sorted_head hs he hge
      have hq := takeWhile_nil_head h hf1
      have hq2 : PageSpan.intersects ⟨f.1, f.2.page_count⟩ span = false := hq
      have hq4 : ¬ max f.1 span.base <
          min (f.1 + f.2.page_count) (span.base + span.count) := by
        intro hlt
        rw [(intersects_true_iff ⟨f.1, f.2.page_count⟩ span).2 hlt] at hq2
        cases hq2
      have hcpos : 0 < f.2.page_count := hok.2.1 f hf2
      omega

/-- An empty conflict list means the span's bytes are uncovered. -/
theorem span_free_of_conflicts_nil {u : UserGrants} (hok : GOk u.inner) {g : Grant}
    (hcnt : 0 < g.info.page_count) (hconf : u.conflicts g.span = []) :
    ∀ x, g.base * PAGE_SIZE ≤ x → x < (g.base + g.info.page_count) * PAGE_SIZE →
      ¬ coveredBy u.inner x := by
  rintro x h1 h2 ⟨e, he, he1, he2⟩
  rcases conflicts_nil_disjoint hok hcnt hconf e he with h | h
  · have h3 : e.1 + e.2.page_count ≤ g.base := h
    have := mul_page_le h3
    omega
  · have h3 : g.base + g.info.page_count ≤ e.1 := h
    have := mul_page_le h3
    omega

theorem UGInv_new : UGInv UserGrants.new := by
  constructor
  · exact ⟨List.Pairwise.nil, fun e he => absurd he (List.not_mem_nil e),
      fun e he => absurd he (List.not_mem_nil e)⟩
  · rfl

theorem UGInv_insert {u : UserGrants} (hinv : UGInv u) {g : Grant}
    (hconf : u.conflicts g.span = []) (hcnt : 0 < g.info.page_count)
    (hbnd : (g.base + g.info.page_count) * PAGE_SIZE ≤ USER_END_OFFSET) :
    UGInv (u.insert g) := by
  obtain ⟨hok, hholes⟩ := hinv
  have hfree := span_free_of_conflicts_nil hok hcnt hconf
  refine ⟨GOk_insertKey hok hcnt hbnd hfree, ?_⟩
  show UserGrants.reserve u.holes g.base g.info.page_count =
    canonicalHoles (insertKey u.inner g.base g.info)
  rw [hholes]
  exact reserve_canonical hok hcnt hbnd hfree

theorem UGInv_remove {u : UserGrants} (hinv : UGInv u) (base : Nat) :
    UGInv (u.remove base).2 := by
  obtain ⟨hok, hholes⟩ := hinv
  cases hl : lookupKey u.inner base with
  | none =>
    have heq : (u.remove base).2 = u := by
      unfold UserGrants.remove
      rw [hl]
    rw [heq]
    exact ⟨hok, hholes⟩
  | some info =>
    have hmem : (base, info) ∈ u.inner := lookupKey_mem hl
    have heq : (u.remove base).2 =
        { u with
          inner := eraseKey u.inner base,
          holes := UserGrants.unreserve u.holes base info.page_count } := by
      unfold UserGrants.remove
      rw [hl]
    rw [heq]
    refine ⟨GOk_eraseKey hok base, ?_⟩
    show UserGrants.unreserve u.holes base info.page_count =
      canonicalHoles (eraseKey u.inner base)
    rw [hholes]
    exact unreserve_canonical hok hmem

/-- Every state reachable through the constructors satisfies the duality
invariant. -/
theorem ReachableUG_inv {u : UserGrants} (h : ReachableUG u) : UGInv u := by
  induction h with
  | new => exact UGInv_new
  | insert u g hr hconf hcnt hbnd ih => exact UGInv_insert ih hconf hcnt hbnd
  | remove u base hr ih => exact UGInv_remove ih base

/-- C2 counterexample: the grant `[USER_END_OFFSET, USER_END_OFFSET + PAGE_SIZE)`
passes `insert`'s only checked precondition (its conflict list is empty), yet
after inserting it the union of grant bytes and hole bytes is not
`[0, USER_END_OFFSET)`: the byte `USER_END_OFFSET` is covered by a grant. -/
theorem c2_counterexample :
    UserGrants.new.conflicts c2OobGrant.span = [] ∧
    ¬ (∀ x : Nat, (coveredBy (UserGrants.new.insert c2OobGrant).inner x ∨
        inHoles (UserGrants.new.insert c2OobGrant).holes x) ↔
        x < USER_END_OFFSET) := by
  refine ⟨rfl, fun hall => ?_⟩
  have hcov : coveredBy (UserGrants.new.insert c2OobGrant).inner USER_END_OFFSET := by
    refine ⟨(USER_END_OFFSET / PAGE_SIZE, c2OobGrant.info), ?_, ?_, ?_⟩
    · exact List.mem_cons_self _ _
    · decide
    · decide
  have hlt := (hall USER_END_OFFSET).1 (Or.inl hcov)
  omega

/-- C2 (amended): for every `UserGrants` reachable from `new` by `insert`s of
nonempty, in-range, conflict-free grants and by `remove`s, the grant spans are
pairwise disjoint, the holes are pairwise disjoint, no grant byte is a hole
byte, and the union of grant bytes and hole bytes is exactly
`[0, USER_END_OFFSET)`. -/
theorem c2_duality {u : UserGrants} (h : ReachableUG u) :
    (∀ e1 ∈ u.inner, ∀ e2 ∈ u.inner, e1 ≠ e2 →
      ∀ x : Nat, ¬ (e1.1 * PAGE_SIZE ≤ x ∧
        x < (e1.1 + e1.2.page_count) * PAGE_SIZE ∧
        e2.1 * PAGE_SIZE ≤ x ∧ x < (e2.1 + e2.2.page_count) * PAGE_SIZE)) ∧
    (∀ h1 ∈ u.holes, ∀ h2 ∈ u.holes, h1 ≠ h2 →
      ∀ x : Nat, ¬ (h1.1 ≤ x ∧ x < h1.1 + h1.2 ∧ h2.1 ≤ x ∧ x < h2.1 + h2.2)) ∧
    (∀ x : Nat, ¬ (coveredBy u.inner x ∧ inHoles u.holes x)) ∧
    (∀ x : Nat, (coveredBy u.inner x ∨ inHoles u.holes x) ↔
      x < USER_END_OFFSET) := by
  obtain ⟨hok, hholes⟩ := ReachableUG_inv h
  have hG : GFrom 0 u.inner := GFrom_of_GOk hok
  have hs0 : KSorted (gapsFrom 0 u.inner) := KSorted_gapsFrom hG
  have hinh := inHoles_gapsFrom hG
  refine ⟨?_, ?_, ?_, ?_⟩
  · intro e1 he1 e2 he2 hne x hx
    obtain ⟨h1, h2, h3, h4⟩ := hx
    rcases pairwise_rel_cases hok.1 he1 he2 with heq | hrel | hrel
    · exact hne heq
    · have h5 : e1.1 + e1.2.page_count ≤ e2.1 := hrel
      have := mul_page_le h5
      omega
    · have h5 : e2.1 + e2.2.page_count ≤ e1.1 := hrel
      have := mul_page_le h5
      omega
  · intro h1 hm1 h2 hm2 hne x hx
    obtain ⟨hx1, hx2, hx3, hx4⟩ := hx
    rw [hholes] at hm1 hm2
    have hm1g : (h1.1, h1.2) ∈ gapsFrom 0 u.inner := hm1
    have hm2g : (h2.1, h2.2) ∈ gapsFrom 0 u.inner := hm2
    rcases Nat.lt_trichotomy h1.1 h2.1 with hlt | heq | hlt
    · have := gaps_separated hG hm1g hm2g hlt
      omega
    · apply hne
      have e1 := mem_lookupKey hs0 hm1g
      have e2 := mem_lookupKey hs0 hm2g
      rw [heq] at e1
      rw [e1] at e2
      have e3 : h1.2 = h2.2 := Option.some.inj e2
      exact Prod.ext heq e3
    · have := gaps_separated hG hm2g hm1g hlt
      omega
  · intro x hx
    obtain ⟨hc, hh⟩ := hx
    rw [hholes] at hh
    exact ((hinh x).1 hh).2.2 hc
  · intro x
    constructor
    · rintro (hc | hh)
      · obtain ⟨e, he, h1, h2⟩ := hc
        have := hok.2.2 e he
        omega
      · rw [hholes] at hh
        exact ((hinh x).1 hh).2.1
    · intro hlt
      by_cases hc : coveredBy u.inner x
      · exact Or.inl hc
      · refine Or.inr ?_
        rw [hholes]
        exact (hinh x).2 ⟨Nat.zero_le _, hlt, hc⟩

/-- Closed instance of the amended C2 duality at the initial state. -/
theorem c2_duality_witness :
    (∀ e1 ∈ UserGrants.new.inner, ∀ e2 ∈ UserGrants.new.inner, e1 ≠ e2 →
      ∀ x : Nat, ¬ (e1.1 * PAGE_SIZE ≤ x ∧
        x < (e1.1 + e1.2.page_count) * PAGE_SIZE ∧
        e2.1 * PAGE_SIZE ≤ x ∧ x < (e2.1 + e2.2.page_count) * PAGE_SIZE)) ∧
    (∀ h1 ∈ UserGrants.new.holes, ∀ h2 ∈ UserGrants.new.holes, h1 ≠ h2 →
      ∀ x : Nat, ¬ (h1.1 ≤ x ∧ x < h1.1 + h1.2 ∧ h2.1 ≤ x ∧ x < h2.1 + h2.2)) ∧
    (∀ x : Nat, ¬ (coveredBy UserGrants.new.inner x ∧
      inHoles UserGrants.new.holes x)) ∧
    (∀ x : Nat, (coveredBy UserGrants.new.inner x ∨
      inHoles UserGrants.new.holes x) ↔ x < USER_END_OFFSET) :=
  c2_duality ReachableUG.new

/-- C8: inserting a nonempty, in-range, conflict-free grant into an abstract
state satisfying the reachable-state invariant and then removing it at its
base returns that very grant and restores both the grant map and the hole
map. -/
theorem c8_roundtrip {u : UserGrants} (hreach : ReachableUG u) {g : Grant}
    (hconf : u.conflicts g.span = []) (hcnt : 0 < g.info.page_count)
    (hbnd : (g.base + g.info.page_count) * PAGE_SIZE ≤ USER_END_OFFSET) :
    ((u.insert g).remove g.base).1 = some g ∧
    ((u.insert g).remove g.base).2.inner = u.inner ∧
    ((u.insert g).remove g.base).2.holes = u.holes := by
  obtain ⟨hok, hholes⟩ := ReachableUG_inv hreach
  have hfree := span_free_of_conflicts_nil hok hcnt hconf
  have hkey : ∀ i0, (g.base, i0) ∉ u.inner := key_absent_of_free hok hcnt hfree
  have hlooknone : lookupKey u.inner g.base = none := by
    cases hl : lookupKey u.inner g.base with
    | none => rfl
    | some w => exact absurd (lookupKey_mem hl) (hkey w)
  have hlook : lookupKey (u.insert g).inner g.base = some g.info := by
    show lookupKey (insertKey u.inner g.base g.info) g.base = some g.info
    rw [lookup_insertKey, if_pos rfl]
  have hrem : (u.insert g).remove g.base =
      (some ⟨g.base, g.info⟩,
       { u.insert g with
         inner := eraseKey (u.insert g).inner g.base,
         holes := UserGrants.unreserve (u.insert g).holes g.base
           g.info.page_count }) := by
    unfold UserGrants.remove
    rw [hlook]
  rw [hrem]
  refine ⟨rfl, ?_, ?_⟩
  · show eraseKey (insertKey u.inner g.base g.info) g.base = u.inner
    exact eraseKey_insertKey hlooknone g.info
  · have hres : (u.insert g).holes =
        canonicalHoles (insertKey u.inner g.base g.info) := by
      show UserGrants.reserve u.holes g.base g.info.page_count = _
      rw [hholes]
      exact reserve_canonical hok hcnt hbnd hfree
    show UserGrants.unreserve (u.insert g).holes g.base g.info.page_count =
      u.holes
    rw [hres,
      unreserve_canonical (GOk_insertKey hok hcnt hbnd hfree)
        (self_mem_insertKey u.inner g.base g.info),
      eraseKey_insertKey hlooknone g.info]
    exact hholes.symm

/-- Closed instance of the C8 roundtrip: a one-page grant at page 1 inserted
into the empty state and removed again. -/
theorem c8_roundtrip_witness :
    UserGrants.new.conflicts c8Grant.span = [] ∧
    ((UserGrants.new.insert c8Grant).remove c8Grant.base).1 = some c8Grant ∧
    ((UserGrants.new.insert c8Grant).remove c8Grant.base).2.inner =
      UserGrants.new.inner ∧
    ((UserGrants.new.insert c8Grant).remove c8Grant.base).2.holes =
      UserGrants.new.holes :=
  ⟨rfl, c8_roundtrip ReachableUG.new rfl (by decide) (by decide)⟩

theorem holes_sep {G : List (Nat × GrantInfo)} (hG : GFrom 0 G) :
    (gapsFrom 0 G).Pairwise (fun a b => a.1 + a.2 < b.1) := by
  refine (KSorted_gapsFrom hG).imp_of_mem ?_
  intro a b ha hb hab
  exact gaps_separated hG ha hb hab

theorem holes_aligned {G : List (Nat × GrantInfo)} (hG : GFrom 0 G) {o s : Nat}
    (h : (o, s) ∈ gapsFrom 0 G) : o % PAGE_SIZE = 0 := by
  rcases gaps_start_aligned hG h with h0 | ⟨e, he, heq⟩
  · rw [h0]
    exact Nat.zero_mod _
  · rw [heq]
    exact Nat.mul_mod_left _ _

theorem find?_first {α : Type} {q : α → Bool} :
    ∀ {l : List α} {a : α}, l.find? q = some a →
      ∃ l1 l2, l = l1 ++ a :: l2 ∧ q a = true ∧ ∀ x ∈ l1, q x = false := by
  intro l
  induction l with
  | nil =>
    intro a h
    rw [List.find?_nil] at h
    cases h
  | cons x t ih =>
    intro a h
    cases hq : q x with
    | true =>
      rw [List.find?_cons_of_pos _ hq] at h
      have hax : x = a := Option.some.inj h
      subst hax
      exact ⟨[], t, rfl, hq, fun y hy => absurd hy (List.not_mem_nil y)⟩
    | false =>
      rw [List.find?_cons_of_neg _ (ne_true_of_eq_false hq)] at h
      obtain ⟨l1, l2, heq, hqa, hall⟩ := ih h
      refine ⟨x :: l1, l2, ?_, hqa, ?_⟩
      · rw [heq]
        rfl
      · intro y hy
        rcases List.mem_cons.1 hy with rfl | hm
        · exact hq
        · exact hall y hm

/-- The first-fit scan inside `find_free`: the hole found by the
`dropWhile`/`find?` pipeline is the first hole of the (end-separated) hole
list whose usable tail above `min` holds the request, and a `none` answer
means no hole qualifies. -/
theorem find_free_scan {min cnt : Nat} {q : Nat × Nat → Bool}
    (hpos : 0 < cnt * PAGE_SIZE)
    (hqiff : ∀ e : Nat × Nat, ¬ e.1 + e.2 ≤ min →
      (q e = true ↔ cnt * PAGE_SIZE ≤ e.1 + e.2 - max e.1 min)) :
    ∀ {H : List (Nat × Nat)}, H.Pairwise (fun a b => a.1 + a.2 < b.1) →
      (∀ {h0 : Nat × Nat},
        (H.dropWhile (fun h => decide (h.1 + h.2 ≤ min))).find? q = some h0 →
        h0 ∈ H ∧ cnt * PAGE_SIZE ≤ h0.1 + h0.2 - max h0.1 min ∧
          ∀ e ∈ H, e.1 < h0.1 → e.1 + e.2 - max e.1 min < cnt * PAGE_SIZE) ∧
      ((H.dropWhile (fun h => decide (h.1 + h.2 ≤ min))).find? q = none →
        ∀ e ∈ H, e.1 + e.2 - max e.1 min < cnt * PAGE_SIZE) := by
  intro H
  induction H with
  | nil =>
    intro _
    constructor
    · intro h0 h
      rw [List.dropWhile_nil, List.find?_nil] at h
      cases h
    · intro _ e he
      cases he
  | cons x t ih =>
    intro hsep
    have hxall := (List.pairwise_cons.1 hsep).1
    have ihx := ih (List.pairwise_cons.1 hsep).2
    by_cases hp : x.1 + x.2 ≤ min
    · constructor
      · intro h0 h
        rw [List.dropWhile_cons, if_pos (decide_eq_true hp)] at h
        obtain ⟨hm, ht, hfirst⟩ := ihx.1 h
        refine ⟨List.mem_cons_of_mem _ hm, ht, ?_⟩
        intro e he helt
        rcases List.mem_cons.1 he with rfl | hm2
        · omega
        · exact hfirst e hm2 helt
      · intro h e he
        rw [List.dropWhile_cons, if_pos (decide_eq_true hp)] at h
        rcases List.mem_cons.1 he with rfl | hm2
        · omega
        · exact ihx.2 h e hm2
    · have hdt : t.dropWhile (fun h => decide (h.1 + h.2 ≤ min)) = t := by
        cases t with
        | nil => rfl
        | cons y t2 =>
          have hy := hxall y (List.mem_cons_self _ _)
          rw [List.dropWhile_cons,
            if_neg (fun hc => absurd (of_decide_eq_true hc) (by omega))]
      by_cases hA : cnt * PAGE_SIZE ≤ x.1 + x.2 - max x.1 min
      · have hq : q x = true := (hqiff x hp).2 hA
        constructor
        · intro h0 h
          rw [List.dropWhile_cons,
            if_neg (fun hc => hp (of_decide_eq_true hc)),
            List.find?_cons_of_pos _ hq] at h
          have hx0 : x = h0 := Option.some.inj h
          subst hx0
          refine ⟨List.mem_cons_self _ _, hA, ?_⟩
          intro e he helt
          rcases List.mem_cons.1 he with rfl | hm2
          · omega
          · have := hxall e hm2
            omega
        · intro h
          rw [List.dropWhile_cons,
            if_neg (fun hc => hp (of_decide_eq_true hc)),
            List.find?_cons_of_pos _ hq] at h
          cases h
      · have hq : q x = false := by
          cases hqv : q x with
          | false => rfl
          | true => exact absurd ((hqiff x hp).1 hqv) hA
        have hpos2 := hpos
        constructor
        · intro h0 h
          rw [List.dropWhile_cons,
            if_neg (fun hc => hp (of_decide_eq_true hc)),
            List.find?_cons_of_neg _ (ne_true_of_eq_false hq),
            ← hdt] at h
          obtain ⟨hm, ht, hfirst⟩ := ihx.1 h
          refine ⟨List.mem_cons_of_mem _ hm, ht, ?_⟩
          intro e he helt
          rcases List.mem_cons.1 he with rfl | hm2
          · omega
          · exact hfirst e hm2 helt
        · intro h e he
          rw [List.dropWhile_cons,
            if_neg (fun hc => hp (of_decide_eq_true hc)),
            List.find?_cons_of_neg _ (ne_true_of_eq_false hq),
            ← hdt] at h
          rcases List.mem_cons.1 he with rfl | hm2
          · omega
          · exact ihx.2 h e hm2

theorem find_free_eq_some {u : UserGrants} {min page_count : Nat}
    {h0 : Nat × Nat}
    (h : (u.holes.dropWhile (fun h => decide (h.1 + h.2 ≤ min))).find?
      (fun h =>
        let avail := if h.1 ≤ min ∧ min ≤ h.1 + h.2 then h.2 - (min - h.1)
          else h.2
        decide (page_count * PAGE_SIZE ≤ avail)) = some h0) :
    u.find_free min page_count =
      some ⟨(max h0.1 min) / PAGE_SIZE, page_count⟩ := by
  unfold UserGrants.find_free
  rw [h]

theorem find_free_eq_none {u : UserGrants} {min page_count : Nat}
    (h : (u.holes.dropWhile (fun h => decide (h.1 + h.2 ≤ min))).find?
      (fun h =>
        let avail := if h.1 ≤ min ∧ min ≤ h.1 + h.2 then h.2 - (min - h.1)
          else h.2
        decide (page_count * PAGE_SIZE ≤ avail)) = none) :
    u.find_free min page_count = none := by
  unfold UserGrants.find_free
  rw [h]

/-- C7 counterexample: with the unaligned minimum 2048, `find_free` on the
empty address space returns the one-page span at page 0, whose byte address
0 lies below the requested minimum. -/
theorem c7_counterexample :
    UserGrants.new.find_free 2048 1 = some ⟨0, 1⟩ ∧
    (0 : Nat) * PAGE_SIZE < 2048 := by
  constructor
  · rfl
  · decide

/-- C7 (amended): with a page-aligned `min` and a nonzero request,
`find_free` returns a span of exactly `page_count` pages placed at
`max hole_start min` inside the first hole whose usable tail holds the
request; the span never starts below `min` and never overlaps a grant, and
`none` is returned exactly when no hole qualifies. -/
theorem c7_find_free_spec {u : UserGrants} (hinv : UGInv u)
    {min page_count : Nat} (halign : min % PAGE_SIZE = 0)
    (hcnt : 0 < page_count) :
    (∀ s, u.find_free min page_count = some s →
      s.count = page_count ∧
      min ≤ s.base * PAGE_SIZE ∧
      (∀ e ∈ u.inner, e.1 + e.2.page_count ≤ s.base ∨ s.base + s.count ≤ e.1) ∧
      (∃ ho hs, (ho, hs) ∈ u.holes ∧ s.base * PAGE_SIZE = max ho min ∧
        page_count * PAGE_SIZE ≤ ho + hs - max ho min ∧
        (∀ e ∈ u.holes, e.1 < ho →
          e.1 + e.2 - max e.1 min < page_count * PAGE_SIZE))) ∧
    (u.find_free min page_count = none →
      ∀ e ∈ u.holes, e.1 + e.2 - max e.1 min < page_count * PAGE_SIZE) := by
  obtain ⟨hok, hholes⟩ := hinv
  have hG : GFrom 0 u.inner := GFrom_of_GOk hok
  have hpos : 0 < page_count * PAGE_SIZE := Nat.mul_pos hcnt pagesize_pos
  have hsepH : u.holes.Pairwise (fun a b => a.1 + a.2 < b.1) := by
    rw [hholes]
    exact holes_sep hG
  have hqiff : ∀ e : Nat × Nat, ¬ e.1 + e.2 ≤ min →
      ((fun h : Nat × Nat =>
        let avail := if h.1 ≤ min ∧ min ≤ h.1 + h.2 then h.2 - (min - h.1)
          else h.2
        decide (page_count * PAGE_SIZE ≤ avail)) e = true ↔
        page_count * PAGE_SIZE ≤ e.1 + e.2 - max e.1 min) := by
    intro e hpe
    show decide (page_count * PAGE_SIZE ≤
      (if e.1 ≤ min ∧ min ≤ e.1 + e.2 then e.2 - (min - e.1) else e.2)) =
        true ↔ _
    rw [decide_eq_true_eq]
    by_cases hc : e.1 ≤ min ∧ min ≤ e.1 + e.2
    · rw [if_pos hc]
      omega
    · rw [if_neg hc]
      omega
  have hscan := find_free_scan hpos hqiff hsepH
  constructor
  · intro s hff
    cases hfind : (u.holes.dropWhile (fun h => decide (h.1 + h.2 ≤ min))).find?
        (fun h =>
          let avail := if h.1 ≤ min ∧ min ≤ h.1 + h.2 then h.2 - (min - h.1)
            else h.2
          decide (page_count * PAGE_SIZE ≤ avail)) with
    | none =>
      rw [find_free_eq_none hfind] at hff
      cases hff
    | some h0 =>
      rw [find_free_eq_some hfind] at hff
      have hseq : (⟨(max h0.1 min) / PAGE_SIZE, page_count⟩ : PageSpan) = s :=
        Option.some.inj hff
      subst hseq
      obtain ⟨hm0, htail, hfirst⟩ := hscan.1 hfind
      have hm0g : (h0.1, h0.2) ∈ gapsFrom 0 u.inner := by
        rw [hholes] at hm0
        exact hm0
      have hoalign : h0.1 % PAGE_SIZE = 0 := holes_aligned hG hm0g
      have hmaxalign : (max h0.1 min) % PAGE_SIZE = 0 := by
        rcases Nat.le_total h0.1 min with hle | hle
        · rw [Nat.max_eq_right hle]
          exact halign
        · rw [Nat.max_eq_left hle]
          exact hoalign
      have hsbase : (max h0.1 min) / PAGE_SIZE * PAGE_SIZE = max h0.1 min :=
        Nat.div_mul_cancel (Nat.dvd_of_mod_eq_zero hmaxalign)
      obtain ⟨-, hhs_pos, hhb, hhu, -, -⟩ := (mem_gapsFrom_iff hG).1 hm0g
      refine ⟨rfl, ?_, ?_, ?_⟩
      · show min ≤ (max h0.1 min) / PAGE_SIZE * PAGE_SIZE
        rw [hsbase]
        exact le_max_right _ _
      · intro e he
        show e.1 + e.2.page_count ≤ (max h0.1 min) / PAGE_SIZE ∨
          (max h0.1 min) / PAGE_SIZE + page_count ≤ e.1
        by_contra hc
        push_neg at hc
        obtain ⟨hc1, hc2⟩ := hc
        have hecnt : 0 < e.2.page_count := hok.2.1 e he
        have hy1 : e.1 * PAGE_SIZE ≤
            max e.1 ((max h0.1 min) / PAGE_SIZE) * PAGE_SIZE :=
          mul_page_le (le_max_left _ _)
        have hy2 : max e.1 ((max h0.1 min) / PAGE_SIZE) * PAGE_SIZE <
            (e.1 + e.2.page_count) * PAGE_SIZE :=
          mul_page_lt_of_lt (by omega)
        have hy3 : (max h0.1 min) / PAGE_SIZE * PAGE_SIZE ≤
            max e.1 ((max h0.1 min) / PAGE_SIZE) * PAGE_SIZE :=
          mul_page_le (le_max_right _ _)
        have hy4 : max e.1 ((max h0.1 min) / PAGE_SIZE) * PAGE_SIZE <
            ((max h0.1 min) / PAGE_SIZE + page_count) * PAGE_SIZE :=
          mul_page_lt_of_lt (by omega)
        have hy5 : ((max h0.1 min) / PAGE_SIZE + page_count) * PAGE_SIZE =
            (max h0.1 min) / PAGE_SIZE * PAGE_SIZE + page_count * PAGE_SIZE :=
          Nat.add_mul _ _ _
        exact hhu (max e.1 ((max h0.1 min) / PAGE_SIZE) * PAGE_SIZE)
          (by omega) (by omega) ⟨e, he, hy1, hy2⟩
      · exact ⟨h0.1, h0.2, hm0, hsbase, htail, hfirst⟩
  · intro hff e he
    cases hfind : (u.holes.dropWhile (fun h => decide (h.1 + h.2 ≤ min))).find?
        (fun h =>
          let avail := if h.1 ≤ min ∧ min ≤ h.1 + h.2 then h.2 - (min - h.1)
            else h.2
          decide (page_count * PAGE_SIZE ≤ avail)) with
    | some h0 =>
      rw [find_free_eq_some hfind] at hff
      cases hff
    | none => exact hscan.2 hfind e he

/-- Closed instance of the amended C7 at the empty space, `min = PAGE_SIZE`,
one page requested. -/
theorem c7_find_free_spec_witness :
    (∀ s, UserGrants.new.find_free PAGE_SIZE 1 = some s →
      s.count = 1 ∧
      PAGE_SIZE ≤ s.base * PAGE_SIZE ∧
      (∀ e ∈ UserGrants.new.inner, e.1 + e.2.page_count ≤ s.base ∨
        s.base + s.count ≤ e.1) ∧
      (∃ ho hs, (ho, hs) ∈ UserGrants.new.holes ∧
        s.base * PAGE_SIZE = max ho PAGE_SIZE ∧
        1 * PAGE_SIZE ≤ ho + hs - max ho PAGE_SIZE ∧
        (∀ e ∈ UserGrants.new.holes, e.1 < ho →
          e.1 + e.2 - max e.1 PAGE_SIZE < 1 * PAGE_SIZE))) ∧
    (UserGrants.new.find_free PAGE_SIZE 1 = none →
      ∀ e ∈ UserGrants.new.holes,
        e.1 + e.2 - max e.1 PAGE_SIZE < 1 * PAGE_SIZE) :=
  c7_find_free_spec UGInv_new (by decide) (by decide)

theorem UGInv_insert_free {u : UserGrants} (hinv : UGInv u) {g : Grant}
    (hcnt : 0 < g.info.page_count)
    (hbnd : (g.base + g.info.page_count) * PAGE_SIZE ≤ USER_END_OFFSET)
    (hfree : ∀ x, g.base * PAGE_SIZE ≤ x →
      x < (g.base + g.info.page_count) * PAGE_SIZE → ¬ coveredBy u.inner x) :
    UGInv (u.insert g) := by
  obtain ⟨hok, hholes⟩ := hinv
  refine ⟨GOk_insertKey hok hcnt hbnd hfree, ?_⟩
  show UserGrants.reserve u.holes g.base g.info.page_count =
    canonicalHoles (insertKey u.inner g.base g.info)
  rw [hholes]
  exact reserve_canonical hok hcnt hbnd hfree

/-- Inserting a grant into free space preserves the invariant and adds
exactly the grant's bytes to the coverage. -/
theorem insert_piece {u : UserGrants} (hinv : UGInv u) (g : Grant)
    (hcnt : 0 < g.info.page_count)
    (hbnd : (g.base + g.info.page_count) * PAGE_SIZE ≤ USER_END_OFFSET)
    (hfree : ∀ x, g.base * PAGE_SIZE ≤ x →
      x < (g.base + g.info.page_count) * PAGE_SIZE → ¬ coveredBy u.inner x) :
    UGInv (u.insert g) ∧
    ∀ x, coveredBy (u.insert g).inner x ↔
      (coveredBy u.inner x ∨
        (g.base * PAGE_SIZE ≤ x ∧ x < (g.base + g.info.page_count) * PAGE_SIZE)) := by
  refine ⟨UGInv_insert_free hinv hcnt hbnd hfree, ?_⟩
  intro x
  exact coveredBy_insertKey (key_absent_of_free hinv.1 hcnt hfree) x

/-- What `Grant::extract` produces on a non-`Fmap` grant around a sub-span:
the middle piece keeps the grant's flags and its `can_have_flags` behaviour,
and the outer pieces exactly cover the rest of the grant. -/
theorem extract_spec (g : Grant) (span : PageSpan)
    (hfm : g.info.provider.isFmap = false)
    (h1 : g.base ≤ span.base)
    (h2 : span.base + span.count ≤ g.base + g.info.page_count) :
    ∃ bo mid ao, g.extract span = some (bo, mid, ao) ∧
      mid.base = span.base ∧
      mid.info.page_count = span.count ∧
      mid.info.flags = g.info.flags ∧
      (∀ fl, mid.info.can_have_flags fl = g.info.can_have_flags fl) ∧
      ((g.base < span.base ∧ ∃ pg, bo = some pg ∧ pg.base = g.base ∧
          pg.info.page_count = span.base - g.base) ∨
        (span.base = g.base ∧ bo = none)) ∧
      ((span.base + span.count < g.base + g.info.page_count ∧ ∃ pg, ao = some pg ∧
          pg.base = span.base + span.count ∧
          pg.info.page_count =
            g.base + g.info.page_count - (span.base + span.count)) ∨
        (span.base + span.count = g.base + g.info.page_count ∧ ao = none)) := by
  have hbspan : PageSpan.beforeSpan g.span span =
      if span.base - g.base = 0 then none
      else some ⟨g.base, span.base - g.base⟩ := by
    show (if (⟨g.base, span.base - g.base⟩ : PageSpan).isEmpty = true then none
      else some (⟨g.base, span.base - g.base⟩ : PageSpan)) = _
    by_cases hb : span.base - g.base = 0
    · rw [if_pos (by simpa [PageSpan.isEmpty] using hb), if_pos hb]
    · rw [if_neg (by simpa [PageSpan.isEmpty] using hb), if_neg hb]
  have haspan : PageSpan.afterSpan g.span span =
      if g.base + g.info.page_count - (span.base + span.count) = 0 then none
      else some ⟨span.base + span.count,
        g.base + g.info.page_count - (span.base + span.count)⟩ := by
    show (if (⟨span.base + span.count,
        g.base + g.info.page_count - (span.base + span.count)⟩ :
          PageSpan).isEmpty = true then none
      else some (⟨span.base + span.count,
        g.base + g.info.page_count - (span.base + span.count)⟩ : PageSpan)) = _
    by_cases hb : g.base + g.info.page_count - (span.base + span.count) = 0
    · rw [if_pos (by simpa [PageSpan.isEmpty] using hb), if_pos hb]
    · rw [if_neg (by simpa [PageSpan.isEmpty] using hb), if_neg hb]
  have hboprop : ∀ pv : ProviderM,
      ((g.base < span.base ∧ ∃ pg,
          (PageSpan.beforeSpan g.span span).map (fun sp =>
            (⟨sp.base, ⟨sp.count, g.info.flags, g.info.mapped, pv⟩⟩ : Grant)) =
            some pg ∧ pg.base = g.base ∧
          pg.info.page_count = span.base - g.base) ∨
        (span.base = g.base ∧
          (PageSpan.beforeSpan g.span span).map (fun sp =>
            (⟨sp.base, ⟨sp.count, g.info.flags, g.info.mapped, pv⟩⟩ : Grant)) =
            none)) := by
    intro pv
    rw [hbspan]
    by_cases hb : span.base - g.base = 0
    · rw [if_pos hb]
      exact Or.inr ⟨by omega, rfl⟩
    · rw [if_neg hb]
      exact Or.inl ⟨by omega, _, rfl, rfl, rfl⟩
  have haoprop : ∀ pv : ProviderM,
      ((span.base + span.count < g.base + g.info.page_count ∧ ∃ pg,
          (PageSpan.afterSpan g.span span).map (fun sp =>
            (⟨sp.base, ⟨sp.count, g.info.flags, g.info.mapped, pv⟩⟩ : Grant)) =
            some pg ∧ pg.base = span.base + span.count ∧
          pg.info.page_count =
            g.base + g.info.page_count - (span.base + span.count)) ∨
        (span.base + span.count = g.base + g.info.page_count ∧
          (PageSpan.afterSpan g.span span).map (fun sp =>
            (⟨sp.base, ⟨sp.count, g.info.flags, g.info.mapped, pv⟩⟩ : Grant)) =
            none)) := by
    intro pv
    rw [haspan]
    by_cases hb : g.base + g.info.page_count - (span.base + span.count) = 0
    · rw [if_pos hb]
      exact Or.inr ⟨by omega, rfl⟩
    · rw [if_neg hb]
      exact Or.inl ⟨by omega, _, rfl, rfl, rfl⟩
  cases hprov : g.info.provider with
  | Fmap d =>
    rw [hprov] at hfm
    simp [ProviderM.isFmap] at hfm
  | Allocated =>
    have hex : g.extract span =
        some ((PageSpan.beforeSpan g.span span).map (fun sp =>
            (⟨sp.base, ⟨sp.count, g.info.flags, g.info.mapped,
              .Allocated⟩⟩ : Grant)),
          ⟨span.base, ⟨span.count, g.info.flags, g.info.mapped, .Allocated⟩⟩,
          (PageSpan.afterSpan g.span span).map (fun sp =>
            (⟨sp.base, ⟨sp.count, g.info.flags, g.info.mapped,
              .Allocated⟩⟩ : Grant))) := by
      unfold Grant.extract
      rw [hprov]
      rfl
    refine ⟨_, _, _, hex, rfl, rfl, rfl, ?_, hboprop _, haoprop _⟩
    intro fl
    show GrantInfo.can_have_flags ⟨span.count, g.info.flags, g.info.mapped,
      .Allocated⟩ fl = g.info.can_have_flags fl
    unfold GrantInfo.can_have_flags
    rw [hprov]
  | External asp sb2 =>
    have hex : g.extract span =
        some ((PageSpan.beforeSpan g.span span).map (fun sp =>
            (⟨sp.base, ⟨sp.count, g.info.flags, g.info.mapped,
              .External asp sb2⟩⟩ : Grant)),
          ⟨span.base, ⟨span.count, g.info.flags, g.info.mapped,
            .External asp sb2⟩⟩,
          (PageSpan.afterSpan g.span span).map (fun sp =>
            (⟨sp.base, ⟨sp.count, g.info.flags, g.info.mapped,
              .External asp sb2⟩⟩ : Grant))) := by
      unfold Grant.extract
      rw [hprov]
      rfl
    refine ⟨_, _, _, hex, rfl, rfl, rfl, ?_, hboprop _, haoprop _⟩
    intro fl
    show GrantInfo.can_have_flags ⟨span.count, g.info.flags, g.info.mapped,
      .External asp sb2⟩ fl = g.info.can_have_flags fl
    unfold GrantInfo.can_have_flags
    rw [hprov]
  | PhysBorrowed pb =>
    by_cases hbe : span.base - g.base = 0
    · have hbg : PageSpan.beforeSpan g.span span = none := by
        rw [hbspan, if_pos hbe]
      have hex : g.extract span =
          some (none,
            ⟨span.base, ⟨span.count, g.info.flags, g.info.mapped,
              .PhysBorrowed (pb + 0)⟩⟩,
            (PageSpan.afterSpan g.span span).map (fun sp =>
              (⟨sp.base, ⟨sp.count, g.info.flags, g.info.mapped,
                .PhysBorrowed (pb + 0 + span.count)⟩⟩ : Grant))) := by
        unfold Grant.extract
        rw [hprov]
        simp only [PageSpan.slice]
        rw [hbg]
        rfl
      refine ⟨_, _, _, hex, rfl, rfl, rfl, ?_, Or.inr ⟨by omega, rfl⟩, haoprop _⟩
      intro fl
      show GrantInfo.can_have_flags ⟨span.count, g.info.flags, g.info.mapped,
        .PhysBorrowed (pb + 0)⟩ fl = g.info.can_have_flags fl
      unfold GrantInfo.can_have_flags
      rw [hprov]
    · have hbg : PageSpan.beforeSpan g.span span =
          some ⟨g.base, span.base - g.base⟩ := by
        rw [hbspan, if_neg hbe]
      have hex : g.extract span =
          some (some ⟨g.base, ⟨span.base - g.base, g.info.flags, g.info.mapped,
              .PhysBorrowed pb⟩⟩,
            ⟨span.base, ⟨span.count, g.info.flags, g.info.mapped,
              .PhysBorrowed (pb + (span.base - g.base))⟩⟩,
            (PageSpan.afterSpan g.span span).map (fun sp =>
              (⟨sp.base, ⟨sp.count, g.info.flags, g.info.mapped,
                .PhysBorrowed (pb + (span.base - g.base) + span.count)⟩⟩ :
                  Grant))) := by
        unfold Grant.extract
        rw [hprov]
        simp only [PageSpan.slice]
        rw [hbg]
        rfl
      refine ⟨_, _, _, hex, rfl, rfl, rfl, ?_,
        Or.inl ⟨by omega, _, rfl, rfl, rfl⟩, haoprop _⟩
      intro fl
      show GrantInfo.can_have_flags ⟨span.count, g.info.flags, g.info.mapped,
        .PhysBorrowed (pb + (span.base - g.base))⟩ fl = g.info.can_have_flags fl
      unfold GrantInfo.can_have_flags
      rw [hprov]

/-- Optionally inserting an outer piece into free space: invariant kept,
coverage grows by exactly the piece's bytes, lookups outside it unchanged. -/
theorem insert_opt {u : UserGrants} (hinv : UGInv u) (og : Option Grant)
    (u2 : UserGrants)
    (hu2 : u2 = match og with | some bg => u.insert bg | none => u)
    (lo hi : Nat)
    (hsome : ∀ pg, og = some pg → pg.base = lo ∧
      pg.base + pg.info.page_count = hi ∧ 0 < pg.info.page_count)
    (hnone : og = none → lo = hi)
    (hbnd : hi * PAGE_SIZE ≤ USER_END_OFFSET)
    (hfree : ∀ x, lo * PAGE_SIZE ≤ x → x < hi * PAGE_SIZE →
      ¬ coveredBy u.inner x) :
    UGInv u2 ∧
    (∀ x, coveredBy u2.inner x ↔
      (coveredBy u.inner x ∨ (lo * PAGE_SIZE ≤ x ∧ x < hi * PAGE_SIZE))) ∧
    (∀ k, k < lo ∨ hi ≤ k →
      lookupKey u2.inner k = lookupKey u.inner k) := by
  subst hu2
  cases og with
  | none =>
    have heq := hnone rfl
    refine ⟨hinv, ?_, ?_⟩
    · intro x
      constructor
      · exact Or.inl
      · rintro (hc | ⟨h1, h2⟩)
        · exact hc
        · exfalso
          rw [heq] at h1
          omega
    · intro k _
      rfl
  | some pg =>
    obtain ⟨hp1, hp2, hp3⟩ := hsome pg rfl
    have hbnd2 : (pg.base + pg.info.page_count) * PAGE_SIZE ≤ USER_END_OFFSET := by
      rw [hp2]
      exact hbnd
    have hfree2 : ∀ x, pg.base * PAGE_SIZE ≤ x →
        x < (pg.base + pg.info.page_count) * PAGE_SIZE →
        ¬ coveredBy u.inner x := by
      intro x h1 h2
      rw [hp1] at h1
      rw [hp2] at h2
      exact hfree x h1 h2
    obtain ⟨hinv2, hcov2⟩ := insert_piece hinv pg hp3 hbnd2 hfree2
    refine ⟨hinv2, ?_, ?_⟩
    · intro x
      rw [hcov2 x, hp2, hp1]
    · intro k hk
      show lookupKey (insertKey u.inner pg.base pg.info) k = _
      rw [lookup_insertKey, if_neg (by omega : ¬ k = pg.base)]

/-- The unfolding of one `mprotect` loop iteration. -/
theorem mprotectGo_cons (rspan : PageSpan) (flags : MapFlagsM) (b c : Nat)
    (rest : List PageSpan) (a : AddrSpaceM) :
    mprotectGo rspan flags (PageSpan.mk b c :: rest) a =
      match UserGrants.remove a.grants b with
      | (none, _) => .crash
      | (some grant, grants1) =>
        match grant.extract (PageSpan.intersection ⟨b, c⟩ rspan) with
        | none => .crash
        | some (before, mid, after) =>
          if mid.info.can_have_flags flags then
            mprotectGo rspan flags rest
              { a with
                grants := (match after with
                  | some ag => (match before with
                    | some bg => grants1.insert bg
                    | none => grants1).insert ag
                  | none => (match before with
                    | some bg => grants1.insert bg
                    | none => grants1)).insert
                    (mid.remap a.table
                      ((mid.info.flags.setExecute flags.prot_exec).setWrite
                        flags.prot_write)).1,
                table := (mid.remap a.table
                  ((mid.info.flags.setExecute flags.prot_exec).setWrite
                    flags.prot_write)).2 }
          else
            .err .EACCES
              { a with
                grants := (match after with
                  | some ag => (match before with
                    | some bg => grants1.insert bg
                    | none => grants1).insert ag
                  | none => (match before with
                    | some bg => grants1.insert bg
                    | none => grants1)).insert mid } := rfl

/-- One `mprotect` iteration, given the removed grant and its split. -/
theorem mprotectGo_cons_eq (rspan : PageSpan) (flags : MapFlagsM) (b c : Nat)
    (rest : List PageSpan) (a : AddrSpaceM) (g1 : Grant) (u1 : UserGrants)
    (bo : Option Grant) (mid : Grant) (ao : Option Grant)
    (hrm : UserGrants.remove a.grants b = (some g1, u1))
    (hex : g1.extract (PageSpan.intersection ⟨b, c⟩ rspan) =
      some (bo, mid, ao)) :
    mprotectGo rspan flags (PageSpan.mk b c :: rest) a =
      if mid.info.can_have_flags flags then
        mprotectGo rspan flags rest
          { a with
            grants := (reinsertPieces u1 bo ao).insert
              (mid.remap a.table
                ((mid.info.flags.setExecute flags.prot_exec).setWrite
                  flags.prot_write)).1,
            table := (mid.remap a.table
              ((mid.info.flags.setExecute flags.prot_exec).setWrite
                flags.prot_write)).2 }
      else
        .err .EACCES
          { a with grants := (reinsertPieces u1 bo ao).insert mid } := by
  rw [mprotectGo_cons, hrm]
  show (match g1.extract (PageSpan.intersection ⟨b, c⟩ rspan) with
    | none => MprotectRes.crash
    | some (before, mid1, after) =>
      if mid1.info.can_have_flags flags then
        mprotectGo rspan flags rest
          { a with
            grants := (reinsertPieces u1 before after).insert
              (mid1.remap a.table
                ((mid1.info.flags.setExecute flags.prot_exec).setWrite
                  flags.prot_write)).1,
            table := (mid1.remap a.table
              ((mid1.info.flags.setExecute flags.prot_exec).setWrite
                flags.prot_write)).2 }
      else
        .err .EACCES
          { a with grants := (reinsertPieces u1 before after).insert mid1 }) = _
  rw [hex]

/-- The `mprotect` loop over the precomputed conflict list: with the
invariant, present and pairwise-disjoint conflicting grants, nonempty
intersections and no `Fmap` providers, the loop either succeeds (every
grant accepts the new flags) or stops at the first grant that rejects them
with `EACCES`; in both cases the invariant still holds and the grant bytes
covered are unchanged. -/
theorem mprotectGo_spec (rspan : PageSpan) (flags : MapFlagsM) :
    ∀ (cs : List (Nat × GrantInfo)) (a : AddrSpaceM),
      UGInv a.grants →
      (∀ e ∈ cs, lookupKey a.grants.inner e.1 = some e.2) →
      (∀ e ∈ cs, e.2.provider.isFmap = false) →
      (∀ e ∈ cs,
        0 < (PageSpan.intersection ⟨e.1, e.2.page_count⟩ rspan).count) →
      cs.Pairwise (fun e1 e2 => e1.1 + e1.2.page_count ≤ e2.1) →
      ∃ a2,
        ((mprotectGo rspan flags
            (cs.map (fun e => PageSpan.mk e.1 e.2.page_count)) a = .ok a2 ∧
          ∀ e ∈ cs, e.2.can_have_flags flags = true) ∨
         (mprotectGo rspan flags
            (cs.map (fun e => PageSpan.mk e.1 e.2.page_count)) a
            = .err .EACCES a2 ∧
          ∃ e ∈ cs, e.2.can_have_flags flags = false)) ∧
        UGInv a2.grants ∧
        (∀ x, coveredBy a2.grants.inner x ↔ coveredBy a.grants.inner x) := by
  intro cs
  induction cs with
  | nil =>
    intro a hinv _ _ _ _
    exact ⟨a, Or.inl ⟨rfl, fun e he => absurd he (List.not_mem_nil e)⟩, hinv,
      fun x => Iff.rfl⟩
  | cons e rest ih =>
    intro a hinv hlook hfmap hint hpw
    have hok := hinv.1
    have hsInner : KSorted a.grants.inner := GOk_KSorted hok
    have hlooke : lookupKey a.grants.inner e.1 = some e.2 :=
      hlook e (List.mem_cons_self _ _)
    have hmem : (e.1, e.2) ∈ a.grants.inner := lookupKey_mem hlooke
    have hcntE : 0 < e.2.page_count := hok.2.1 (e.1, e.2) hmem
    have hbndE : (e.1 + e.2.page_count) * PAGE_SIZE ≤ USER_END_OFFSET :=
      hok.2.2 (e.1, e.2) hmem
    have hrm : UserGrants.remove a.grants e.1 =
        (some ⟨e.1, e.2⟩, removeGrant a.grants e.1 e.2.page_count) := by
      unfold UserGrants.remove removeGrant
      rw [hlooke]
    have hinv1 : UGInv (removeGrant a.grants e.1 e.2.page_count) := by
      have h := UGInv_remove hinv e.1
      rw [hrm] at h
      exact h
    have cov1 := coveredBy_eraseKey hok hmem
    obtain ⟨sb, sc, hSdef⟩ : ∃ sb sc,
        PageSpan.intersection ⟨e.1, e.2.page_count⟩ rspan = ⟨sb, sc⟩ :=
      ⟨_, _, rfl⟩
    have hSb : max e.1 rspan.base = sb := by
      have h := congrArg PageSpan.base hSdef
      rw [show (PageSpan.intersection ⟨e.1, e.2.page_count⟩ rspan).base =
        max e.1 rspan.base from rfl,
        show (⟨sb, sc⟩ : PageSpan).base = sb from rfl] at h
      exact h
    have hSc : min (e.1 + e.2.page_count) (rspan.base + rspan.count) -
        max e.1 rspan.base = sc := by
      have h := congrArg PageSpan.count hSdef
      rw [show (PageSpan.intersection ⟨e.1, e.2.page_count⟩ rspan).count =
        min (e.1 + e.2.page_count) (rspan.base + rspan.count) -
          max e.1 rspan.base from rfl,
        show (⟨sb, sc⟩ : PageSpan).count = sc from rfl] at h
      exact h
    have hS1 : e.1 ≤ sb := by omega
    have hSpos : 0 < sc := by
      have h := hint e (List.mem_cons_self _ _)
      rw [hSdef] at h
      exact h
    have hS2 : sb + sc ≤ e.1 + e.2.page_count := by omega
    obtain ⟨bo, mid, ao, hex, hmb, hmc, hmf, hmflags, hbo, hao⟩ :=
      extract_spec ⟨e.1, e.2⟩ ⟨sb, sc⟩ (hfmap e (List.mem_cons_self _ _)) hS1 hS2
    have hmb2 : mid.base = sb := hmb
    have hmc2 : mid.info.page_count = sc := hmc
    have hp01 : e.1 * PAGE_SIZE ≤ sb * PAGE_SIZE := mul_page_le hS1
    have hp12 : sb * PAGE_SIZE ≤ (sb + sc) * PAGE_SIZE :=
      mul_page_le (by omega)
    have hp23 : (sb + sc) * PAGE_SIZE ≤ (e.1 + e.2.page_count) * PAGE_SIZE :=
      mul_page_le hS2
    have hp12lt : sb * PAGE_SIZE < (sb + sc) * PAGE_SIZE :=
      mul_page_lt_of_lt (by omega)
    have hgcov : ∀ x, e.1 * PAGE_SIZE ≤ x →
        x < (e.1 + e.2.page_count) * PAGE_SIZE → coveredBy a.grants.inner x :=
      fun x h1 h2 => ⟨(e.1, e.2), hmem, h1, h2⟩
    have hbo_some : ∀ pg, bo = some pg → pg.base = e.1 ∧
        pg.base + pg.info.page_count = sb ∧ 0 < pg.info.page_count := by
      intro pg h
      rcases hbo with ⟨hblt, pg0, hbeq0, hpg1, hpg2⟩ | ⟨hbeq, hbnone⟩
      · rw [hbeq0] at h
        have hpe : pg0 = pg := Option.some.inj h
        rw [hpe] at hpg1 hpg2
        have hpg1b : pg.base = e.1 := hpg1
        have hpg2b : pg.info.page_count = sb - e.1 := hpg2
        have hbltb : e.1 < sb := hblt
        exact ⟨hpg1b, by omega, by omega⟩
      · rw [hbnone] at h
        cases h
    have hbo_none : bo = none → e.1 = sb := by
      intro h
      rcases hbo with ⟨hblt, pg0, hbeq0, hpg1, hpg2⟩ | ⟨hbeq, hbnone⟩
      · rw [hbeq0] at h
        cases h
      · have hbeqb : sb = e.1 := hbeq
        omega
    have hao_some : ∀ pg, ao = some pg → pg.base = sb + sc ∧
        pg.base + pg.info.page_count = e.1 + e.2.page_count ∧
        0 < pg.info.page_count := by
      intro pg h
      rcases hao with ⟨halt, pg0, haeq0, hpg1, hpg2⟩ | ⟨haeq, hanone⟩
      · rw [haeq0] at h
        have hpe : pg0 = pg := Option.some.inj h
        rw [hpe] at hpg1 hpg2
        have hpg1b : pg.base = sb + sc := hpg1
        have hpg2b : pg.info.page_count =
            e.1 + e.2.page_count - (sb + sc) := hpg2
        have haltb : sb + sc < e.1 + e.2.page_count := halt
        exact ⟨hpg1b, by omega, by omega⟩
      · rw [hanone] at h
        cases h
    have hao_none : ao = none → sb + sc = e.1 + e.2.page_count := by
      intro h
      rcases hao with ⟨halt, pg0, haeq0, hpg1, hpg2⟩ | ⟨haeq, hanone⟩
      · rw [haeq0] at h
        cases h
      · exact haeq
    have hbnd_b : sb * PAGE_SIZE ≤ USER_END_OFFSET := le_trans
      (mul_page_le (show sb ≤ e.1 + e.2.page_count from by omega)) hbndE
    have hfree_b : ∀ x, e.1 * PAGE_SIZE ≤ x → x < sb * PAGE_SIZE →
        ¬ coveredBy (removeGrant a.grants e.1 e.2.page_count).inner x := by
      intro x h1 h2 hc
      rcases (cov1 x).1 hc with ⟨-, hns⟩
      exact hns ⟨h1, by omega⟩
    obtain ⟨hinv2, hcov2, hpres2⟩ := insert_opt hinv1 bo
      (reinsertPieces (removeGrant a.grants e.1 e.2.page_count) bo none)
      rfl e.1 sb hbo_some hbo_none hbnd_b hfree_b
    have hfree_a : ∀ x, (sb + sc) * PAGE_SIZE ≤ x →
        x < (e.1 + e.2.page_count) * PAGE_SIZE →
        ¬ coveredBy (reinsertPieces (removeGrant a.grants e.1
          e.2.page_count) bo none).inner x := by
      intro x h1 h2 hc
      rcases (hcov2 x).1 hc with hc1 | ⟨hb1, hb2⟩
      · rcases (cov1 x).1 hc1 with ⟨-, hns⟩
        exact hns ⟨by omega, h2⟩
      · omega
    obtain ⟨hinv3, hcov3, hpres3⟩ := insert_opt hinv2 ao
      (reinsertPieces (removeGrant a.grants e.1 e.2.page_count) bo ao)
      rfl (sb + sc) (e.1 + e.2.page_count) hao_some hao_none hbndE hfree_a
    have hbnd_m : (sb + sc) * PAGE_SIZE ≤ USER_END_OFFSET :=
      le_trans hp23 hbndE
    have hfree_m : ∀ x, sb * PAGE_SIZE ≤ x → x < (sb + sc) * PAGE_SIZE →
        ¬ coveredBy (reinsertPieces (removeGrant a.grants e.1
          e.2.page_count) bo ao).inner x := by
      intro x h1 h2 hc
      rcases (hcov3 x).1 hc with hc2 | ⟨ha1, ha2⟩
      · rcases (hcov2 x).1 hc2 with hc1 | ⟨hb1, hb2⟩
        · rcases (cov1 x).1 hc1 with ⟨-, hns⟩
          exact hns ⟨by omega, by omega⟩
        · omega
      · omega
    have hcond : (mid.info.can_have_flags flags) =
        (e.2.can_have_flags flags) := hmflags flags
    have hpwrest := (List.pairwise_cons.1 hpw).1
    have hexS : (⟨e.1, e.2⟩ : Grant).extract
        (PageSpan.intersection ⟨e.1, e.2.page_count⟩ rspan) =
        some (bo, mid, ao) := by
      rw [hSdef]
      exact hex
    simp only [List.map_cons]
    rw [mprotectGo_cons_eq rspan flags e.1 e.2.page_count _ a ⟨e.1, e.2⟩
      (removeGrant a.grants e.1 e.2.page_count) bo mid ao hrm hexS, hcond]
    by_cases hchf : e.2.can_have_flags flags = true
    · rw [if_pos hchf]
      have hgrb : (mid.remap a.table ((mid.info.flags.setExecute
          flags.prot_exec).setWrite flags.prot_write)).1.base = sb := hmb2
      have hgrc : (mid.remap a.table ((mid.info.flags.setExecute
          flags.prot_exec).setWrite flags.prot_write)).1.info.page_count =
          sc := hmc2
      have hcnt4 : 0 < (mid.remap a.table ((mid.info.flags.setExecute
          flags.prot_exec).setWrite flags.prot_write)).1.info.page_count := by
        rw [hgrc]
        exact hSpos
      have hbnd4 : ((mid.remap a.table ((mid.info.flags.setExecute
          flags.prot_exec).setWrite flags.prot_write)).1.base +
          (mid.remap a.table ((mid.info.flags.setExecute
            flags.prot_exec).setWrite flags.prot_write)).1.info.page_count) *
          PAGE_SIZE ≤ USER_END_OFFSET := by
        rw [hgrb, hgrc]
        exact hbnd_m
      have hfree4 : ∀ x, (mid.remap a.table ((mid.info.flags.setExecute
          flags.prot_exec).setWrite flags.prot_write)).1.base * PAGE_SIZE ≤ x →
          x < ((mid.remap a.table ((mid.info.flags.setExecute
            flags.prot_exec).setWrite flags.prot_write)).1.base +
            (mid.remap a.table ((mid.info.flags.setExecute
              flags.prot_exec).setWrite flags.prot_write)).1.info.page_count) *
            PAGE_SIZE →
          ¬ coveredBy (reinsertPieces (removeGrant a.grants e.1
            e.2.page_count) bo ao).inner x := by
        rw [hgrb, hgrc]
        exact hfree_m
      obtain ⟨hinv4, hcov4⟩ := insert_piece hinv3 (mid.remap a.table
        ((mid.info.flags.setExecute flags.prot_exec).setWrite
          flags.prot_write)).1 hcnt4 hbnd4 hfree4
      rw [hgrb, hgrc] at hcov4
      have hcovU4 : ∀ x, coveredBy ((reinsertPieces (removeGrant a.grants e.1
          e.2.page_count) bo ao).insert (mid.remap a.table
            ((mid.info.flags.setExecute flags.prot_exec).setWrite
              flags.prot_write)).1).inner x ↔
          coveredBy a.grants.inner x := by
        intro x
        constructor
        · intro hc
          rcases (hcov4 x).1 hc with hc3 | hin4
          · rcases (hcov3 x).1 hc3 with hc2 | hin3
            · rcases (hcov2 x).1 hc2 with hc1 | hin2
              · exact ((cov1 x).1 hc1).1
              · exact hgcov x (by omega) (by omega)
            · exact hgcov x (by omega) (by omega)
          · exact hgcov x (by omega) (by omega)
        · intro hc
          by_cases hin : e.1 * PAGE_SIZE ≤ x ∧
              x < (e.1 + e.2.page_count) * PAGE_SIZE
          · rcases Nat.lt_or_ge x (sb * PAGE_SIZE) with hx1 | hx1
            · exact (hcov4 x).2 (Or.inl ((hcov3 x).2 (Or.inl ((hcov2 x).2
                (Or.inr ⟨by omega, by omega⟩)))))
            · rcases Nat.lt_or_ge x ((sb + sc) * PAGE_SIZE) with hx2 | hx2
              · exact (hcov4 x).2 (Or.inr ⟨by omega, by omega⟩)
              · exact (hcov4 x).2 (Or.inl ((hcov3 x).2
                  (Or.inr ⟨by omega, by omega⟩)))
          · exact (hcov4 x).2 (Or.inl ((hcov3 x).2 (Or.inl ((hcov2 x).2
              (Or.inl ((cov1 x).2 ⟨hc, hin⟩))))))
      have hlookA : ∀ f ∈ rest, lookupKey ((reinsertPieces (removeGrant
          a.grants e.1 e.2.page_count) bo ao).insert (mid.remap a.table
            ((mid.info.flags.setExecute flags.prot_exec).setWrite
              flags.prot_write)).1).inner f.1 = some f.2 := by
        intro f hf
        have hk : e.1 + e.2.page_count ≤ f.1 := hpwrest f hf
        have h4 : lookupKey ((reinsertPieces (removeGrant a.grants e.1
            e.2.page_count) bo ao).insert (mid.remap a.table
              ((mid.info.flags.setExecute flags.prot_exec).setWrite
                flags.prot_write)).1).inner f.1 =
            lookupKey (reinsertPieces (removeGrant a.grants e.1
              e.2.page_count) bo ao).inner f.1 := by
          show lookupKey (insertKey (reinsertPieces (removeGrant a.grants e.1
            e.2.page_count) bo ao).inner (mid.remap a.table
              ((mid.info.flags.setExecute flags.prot_exec).setWrite
                flags.prot_write)).1.base (mid.remap a.table
              ((mid.info.flags.setExecute flags.prot_exec).setWrite
                flags.prot_write)).1.info) f.1 = _
          rw [lookup_insertKey, if_neg (show ¬ f.1 = (mid.remap a.table
            ((mid.info.flags.setExecute flags.prot_exec).setWrite
              flags.prot_write)).1.base from by
            rw [show (mid.remap a.table ((mid.info.flags.setExecute
              flags.prot_exec).setWrite flags.prot_write)).1.base = sb
              from hmb2]
            omega)]
        rw [h4, hpres3 f.1 (Or.inr hk), hpres2 f.1 (Or.inr (by omega))]
        show lookupKey (eraseKey a.grants.inner e.1) f.1 = some f.2
        rw [lookup_eraseKey hsInner, if_neg (by omega : ¬ f.1 = e.1)]
        exact hlook f (List.mem_cons_of_mem _ hf)
      obtain ⟨a2, hres, hinv5, hcov5⟩ := ih
        { a with
          grants := (reinsertPieces (removeGrant a.grants e.1
            e.2.page_count) bo ao).insert (mid.remap a.table
              ((mid.info.flags.setExecute flags.prot_exec).setWrite
                flags.prot_write)).1,
          table := (mid.remap a.table ((mid.info.flags.setExecute
            flags.prot_exec).setWrite flags.prot_write)).2 }
        hinv4 hlookA (fun f hf => hfmap f (List.mem_cons_of_mem _ hf))
        (fun f hf => hint f (List.mem_cons_of_mem _ hf))
        (List.pairwise_cons.1 hpw).2
      refine ⟨a2, ?_, hinv5, ?_⟩
      · rcases hres with ⟨hokeq, hall⟩ | ⟨herreq, hfail⟩
        · refine Or.inl ⟨hokeq, ?_⟩
          intro f hf
          rcases List.mem_cons.1 hf with rfl | hf2
          · exact hchf
          · exact hall f hf2
        · refine Or.inr ⟨herreq, ?_⟩
          obtain ⟨f, hf, hff⟩ := hfail
          exact ⟨f, List.mem_cons_of_mem _ hf, hff⟩
      · intro x
        exact (hcov5 x).trans (hcovU4 x)
    · rw [if_neg hchf]
      obtain ⟨hinv4, hcov4⟩ := insert_piece hinv3 mid
        (show 0 < mid.info.page_count from by rw [hmc2]; exact hSpos)
        (by rw [hmb2, hmc2]; exact hbnd_m)
        (by rw [hmb2, hmc2]; exact hfree_m)
      rw [hmb2, hmc2] at hcov4
      refine ⟨{ a with grants := (reinsertPieces (removeGrant a.grants e.1
          e.2.page_count) bo ao).insert mid }, ?_, hinv4, ?_⟩
      · refine Or.inr ⟨rfl, e, List.mem_cons_self _ _, ?_⟩
        cases hv : e.2.can_have_flags flags with
        | false => rfl
        | true => exact absurd hv hchf
      · intro x
        show coveredBy ((reinsertPieces (removeGrant a.grants e.1
          e.2.page_count) bo ao).insert mid).inner x ↔ _
        constructor
        · intro hc
          rcases (hcov4 x).1 hc with hc3 | hin4
          · rcases (hcov3 x).1 hc3 with hc2 | hin3
            · rcases (hcov2 x).1 hc2 with hc1 | hin2
              · exact ((cov1 x).1 hc1).1
              · exact hgcov x (by omega) (by omega)
            · exact hgcov x (by omega) (by omega)
          · exact hgcov x (by omega) (by omega)
        · intro hc
          by_cases hin : e.1 * PAGE_SIZE ≤ x ∧
              x < (e.1 + e.2.page_count) * PAGE_SIZE
          · rcases Nat.lt_or_ge x (sb * PAGE_SIZE) with hx1 | hx1
            · exact (hcov4 x).2 (Or.inl ((hcov3 x).2 (Or.inl ((hcov2 x).2
                (Or.inr ⟨by omega, by omega⟩)))))
            · rcases Nat.lt_or_ge x ((sb + sc) * PAGE_SIZE) with hx2 | hx2
              · exact (hcov4 x).2 (Or.inr ⟨by omega, by omega⟩)
              · exact (hcov4 x).2 (Or.inl ((hcov3 x).2
                  (Or.inr ⟨by omega, by omega⟩)))
          · exact (hcov4 x).2 (Or.inl ((hcov3 x).2 (Or.inl ((hcov2 x).2
              (Or.inl ((cov1 x).2 ⟨hc, hin⟩))))))

theorem downgrade_false_iff (w pw x px : Bool) :
    ((w || !pw) && (x || !px)) = false ↔
      ((pw = true ∧ w = false) ∨ (px = true ∧ x = false)) := by
  cases w <;> cases pw <;> cases x <;> cases px <;> decide

/-- `can_have_flags` rejects exactly the widening requests on
non-`Allocated` providers. -/
theorem can_have_flags_false_iff (i : GrantInfo) (flags : MapFlagsM) :
    i.can_have_flags flags = false ↔
      (i.provider ≠ ProviderM.Allocated ∧
        ((flags.prot_write = true ∧ i.flags.write = false) ∨
         (flags.prot_exec = true ∧ i.flags.execute = false))) := by
  cases hp : i.provider with
  | Allocated =>
    have hdef : i.can_have_flags flags = true := by
      simp only [GrantInfo.can_have_flags, hp]
    rw [hdef]
    constructor
    · intro h
      cases h
    · rintro ⟨hne, -⟩
      exact absurd rfl hne
  | PhysBorrowed pb =>
    have hdef : i.can_have_flags flags =
        ((i.flags.write || !flags.prot_write) &&
          (i.flags.execute || !flags.prot_exec)) := by
      simp only [GrantInfo.can_have_flags, hp]
    rw [hdef, downgrade_false_iff]
    constructor
    · intro h
      exact ⟨fun hc => ProviderM.noConfusion hc, h⟩
    · rintro ⟨-, h⟩
      exact h
  | External asp sb2 =>
    have hdef : i.can_have_flags flags =
        ((i.flags.write || !flags.prot_write) &&
          (i.flags.execute || !flags.prot_exec)) := by
      simp only [GrantInfo.can_have_flags, hp]
    rw [hdef, downgrade_false_iff]
    constructor
    · intro h
      exact ⟨fun hc => ProviderM.noConfusion hc, h⟩
    · rintro ⟨-, h⟩
      exact h
  | Fmap d =>
    have hdef : i.can_have_flags flags =
        ((i.flags.write || !flags.prot_write) &&
          (i.flags.execute || !flags.prot_exec)) := by
      simp only [GrantInfo.can_have_flags, hp]
    rw [hdef, downgrade_false_iff]
    constructor
    · intro h
      exact ⟨fun hc => ProviderM.noConfusion hc, h⟩
    · rintro ⟨-, h⟩
      exact h

theorem conflicts_sublist (u : UserGrants) (span : PageSpan) :
    (u.conflicts span).Sublist u.inner := by
  cases hc : u.contains span.base with
  | none =>
    rw [conflicts_eq_none_contains hc]
    exact (List.takeWhile_sublist _).trans (List.dropWhile_sublist _)
  | some p =>
    obtain ⟨cb, ci⟩ := p
    rw [conflicts_eq_some_contains hc]
    exact (List.takeWhile_sublist _).trans (List.dropWhile_sublist _)

theorem conflicts_intersects (u : UserGrants) (span : PageSpan) :
    ∀ e ∈ u.conflicts span,
      PageSpan.intersects ⟨e.1, e.2.page_count⟩ span = true := by
  intro e he
  cases hc : u.contains span.base with
  | none =>
    rw [conflicts_eq_none_contains hc] at he
    have h2 := List.mem_takeWhile_imp he
    exact h2
  | some p =>
    obtain ⟨cb, ci⟩ := p
    rw [conflicts_eq_some_contains hc] at he
    have h2 := List.mem_takeWhile_imp he
    exact h2

theorem intersects_count_pos {s w : PageSpan} (h : s.intersects w = true) :
    0 < (s.intersection w).count := by
  have h3 : (!decide ((s.intersection w).count = 0)) = true := h
  have h2 : decide ((s.intersection w).count = 0) = false := by
    cases hd : decide ((s.intersection w).count = 0) with
    | false => rfl
    | true =>
      rw [hd] at h3
      cases h3
  have := of_decide_eq_false h2
  omega

/-- C4 counterexample: on a 3-page read-only `PhysBorrowed` grant,
`mprotect` of its middle page with PROT_WRITE returns `EACCES`, yet the
grant map has already been mutated: the grant is split into three pieces
instead of the original single entry. -/
theorem c4_counterexample :
    mresError (c4Space.mprotect ⟨2, 1⟩ c4WFlags) = some KError.EACCES ∧
    mresGrants (c4Space.mprotect ⟨2, 1⟩ c4WFlags) ≠
      some c4Space.grants.inner := by
  constructor
  · decide
  · decide

/-- C4 (amended): for an address space satisfying the duality invariant
whose conflicting grants are not file-backed, `mprotect` returns `EACCES`
exactly when some grant intersecting the span has a non-`Allocated`
provider and the request enables write or execute that the grant's flags
lack; it never crashes, and the grant map it leaves behind — also on the
error path, where the split pieces of already-processed grants remain —
covers exactly the same bytes as before the call. -/
theorem c4_mprotect_spec {a : AddrSpaceM} (hinv : UGInv a.grants)
    {rspan : PageSpan} {flags : MapFlagsM}
    (hfmap : ∀ e ∈ a.grants.conflicts rspan, e.2.provider.isFmap = false) :
    (mresError (a.mprotect rspan flags) = some KError.EACCES ↔
      ∃ e ∈ a.grants.conflicts rspan,
        e.2.provider ≠ ProviderM.Allocated ∧
        ((flags.prot_write = true ∧ e.2.flags.write = false) ∨
         (flags.prot_exec = true ∧ e.2.flags.execute = false))) ∧
    (mresGrants (a.mprotect rspan flags) ≠ none) ∧
    (∀ G2, mresGrants (a.mprotect rspan flags) = some G2 →
      ∀ x, coveredBy G2 x ↔ coveredBy a.grants.inner x) := by
  have heq : a.mprotect rspan flags = mprotectGo rspan flags
      ((a.grants.conflicts rspan).map
        (fun e => PageSpan.mk e.1 e.2.page_count)) a := rfl
  obtain ⟨a2, hres, hinv2, hcov⟩ := mprotectGo_spec rspan flags
    (a.grants.conflicts rspan) a hinv
    (fun e he => mem_lookupKey (GOk_KSorted hinv.1)
      ((conflicts_sublist a.grants rspan).mem he))
    hfmap
    (fun e he => intersects_count_pos (conflicts_intersects a.grants rspan e he))
    (List.Pairwise.sublist (conflicts_sublist a.grants rspan) hinv.1.1)
  rcases hres with ⟨hokeq, hall⟩ | ⟨herreq, hfail⟩
  · have hfin : a.mprotect rspan flags = .ok a2 := heq.trans hokeq
    refine ⟨?_, ?_, ?_⟩
    · constructor
      · intro h
        rw [hfin] at h
        have h2 : (none : Option KError) = some KError.EACCES := h
        cases h2
      · rintro ⟨f, hf, hne, hwid⟩
        have h1 := hall f hf
        have h2 := (can_have_flags_false_iff f.2 flags).2 ⟨hne, hwid⟩
        rw [h1] at h2
        cases h2
    · rw [hfin]
      intro hc
      have h2 : some a2.grants.inner = (none : Option (List (Nat × GrantInfo))) := hc
      cases h2
    · intro G2 hG2
      rw [hfin] at hG2
      have h3 : some a2.grants.inner = some G2 := hG2
      obtain rfl : a2.grants.inner = G2 := Option.some.inj h3
      exact hcov
  · have hfin : a.mprotect rspan flags = .err .EACCES a2 := heq.trans herreq
    refine ⟨?_, ?_, ?_⟩
    · constructor
      · intro _
        obtain ⟨f, hf, hff⟩ := hfail
        exact ⟨f, hf, (can_have_flags_false_iff f.2 flags).1 hff⟩
      · intro _
        rw [hfin]
        rfl
    · rw [hfin]
      intro hc
      have h2 : some a2.grants.inner = (none : Option (List (Nat × GrantInfo))) := hc
      cases h2
    · intro G2 hG2
      rw [hfin] at hG2
      have h3 : some a2.grants.inner = some G2 := hG2
      obtain rfl : a2.grants.inner = G2 := Option.some.inj h3
      exact hcov

/-- Closed instance of the amended C4: `mprotect(PROT_WRITE)` on the middle
page of a read-only `PhysBorrowed` grant. -/
theorem c4_mprotect_spec_witness :
    (mresError (c4Space.mprotect ⟨2, 1⟩ c4WFlags) = some KError.EACCES ↔
      ∃ e ∈ c4Space.grants.conflicts ⟨2, 1⟩,
        e.2.provider ≠ ProviderM.Allocated ∧
        ((c4WFlags.prot_write = true ∧ e.2.flags.write = false) ∨
         (c4WFlags.prot_exec = true ∧ e.2.flags.execute = false))) ∧
    (mresGrants (c4Space.mprotect ⟨2, 1⟩ c4WFlags) ≠ none) ∧
    (∀ G2, mresGrants (c4Space.mprotect ⟨2, 1⟩ c4WFlags) = some G2 →
      ∀ x, coveredBy G2 x ↔ coveredBy c4Space.grants.inner x) :=
  c4_mprotect_spec
    (ReachableUG_inv (ReachableUG.insert UserGrants.new
      ⟨1, ⟨3, ⟨true, false, false⟩, true, .PhysBorrowed 100⟩⟩
      ReachableUG.new rfl (by decide) (by decide)))
    (by decide)
